import Mathlib

/-!
Verification of the mass-core trie/txscript specification.

Part 1: the script engine's signature-encoding check (`txscript/engine.go`,
`checkSignatureEncoding`), embedded over byte lists.

Part 2 (below): the Merkle-Patricia trie core.  The trie implementation
itself is not part of the provided sources (only its tests are), so the
trie definitions are modelled from the specification, faithful to its
wording and pinned by the expectations of the tests in `src/trie`.
-/

namespace Txscript

/-- Result of running `checkSignatureEncoding` on a byte slice: `ok` for a
`nil` error return, `err` for a non-nil error return (carrying the message),
and `oob i` for a Go index-out-of-range runtime panic at index `i` (Go
indexing a slice at or beyond its length panics rather than returning). -/
inductive SigResult where
  | ok : SigResult
  | err (msg : String) : SigResult
  | oob (idx : Nat) : SigResult
deriving DecidableEq, Repr

/-- Reading `sig[i]` in Go: panics (out of range) when `i ≥ len(sig)`,
otherwise continues with the byte. -/
def readByte (sig : List Nat) (i : Nat) (k : Nat → SigResult) : SigResult :=
  match sig.get? i with
  | none => .oob i
  | some b => k b

/-- The secp256k1 group order `btcec.S256().N`. -/
def secpN : Nat :=
  0xFFFFFFFFFFFFFFFFFFFFFFFFFFFFFFFEBAAEDCE6AF48A03BBFD25E8CD0364141

/-- `halfOrder = new(big.Int).Rsh(btcec.S256().N, 1)` from `engine.go`. -/
def halfOrder : Nat := secpN >>> 1

/-- `new(big.Int).SetBytes` interprets a byte slice as a big-endian unsigned
integer. -/
def natFromBytes (bs : List Nat) : Nat := bs.foldl (fun a b => a * 256 + b) 0

/-- Embedding of `(*Engine).checkSignatureEncoding` from
`src/txscript/engine.go` (lines 356-477).  The checks appear in exactly the
source order; every slice index is performed through `readByte`, which
models Go's bounds-checked indexing. -/
def checkSignatureEncoding (sig : List Nat) : SigResult :=
  if sig.length < 8 then .err "malformed signature: too short" else
  if sig.length > 72 then .err "malformed signature: too long" else
  readByte sig 0 fun s0 =>
  if s0 ≠ 0x30 then .err "malformed signature: format has wrong type" else
  readByte sig 1 fun s1 =>
  if s1 ≠ sig.length - 2 then .err "malformed signature: bad length" else
  readByte sig 3 fun rLen =>
  if rLen + 5 > sig.length then .err "malformed signature: S out of bounds" else
  readByte sig (rLen + 5) fun sLen =>
  if rLen + sLen + 6 ≠ sig.length then .err "malformed signature: invalid R length" else
  readByte sig 2 fun s2 =>
  if s2 ≠ 0x02 then .err "malformed signature: missing first integer marker" else
  if rLen = 0 then .err "malformed signature: R length is zero" else
  readByte sig 4 fun r0 =>
  if r0.land 0x80 ≠ 0 then .err "malformed signature: R value is negative" else
  let afterR : SigResult :=
    readByte sig (rLen + 4) fun sMark =>
    if sMark ≠ 0x02 then .err "malformed signature: missing second integer marker" else
    if sLen = 0 then .err "malformed signature: S length is zero" else
    readByte sig (rLen + 6) fun sByte0 =>
    if sByte0.land 0x80 ≠ 0 then .err "malformed signature: S value is negative" else
    let afterS : SigResult :=
      let sValue := natFromBytes ((sig.drop (rLen + 6)).take sLen)
      if halfOrder < sValue then .err "ErrStackInvalidLowSSignature" else .ok
    if 1 < sLen ∧ sByte0 = 0 then
      readByte sig (rLen + 7) fun sByte1 =>
      if sByte1.land 0x80 = 0 then .err "malformed signature: invalid S value" else afterS
    else afterS
  if 1 < rLen ∧ r0 = 0 then
    readByte sig 5 fun r1 =>
    if r1.land 0x80 = 0 then .err "malformed signature: invalid R value" else afterR
  else afterR

/-- The boundary input: 8 bytes, well-formed header (`0x30`, length byte
`6 = len-2`), with `sig[3] = 3`, so that `rLen+5 = 8 = len(sig)` slips past
the `rLen+5 > len(sig)` guard. -/
def boundarySig : List Nat := [0x30, 0x06, 0x02, 0x03, 0x00, 0x00, 0x00, 0x00]

/-- C10: `checkSignatureEncoding` is claimed to return a non-nil error on
every byte slice violating the DER conditions.  On `boundarySig` (which
violates them: its field lengths cannot account for the signature length)
the code instead reads `sig[rLen+5] = sig[8]` out of range — a runtime
panic, not an error return: the guard `rLen+5 > len(sig)` fails to exclude
`rLen+5 = len(sig)`, contradicting its own comment
"Make sure S is inside the signature". -/
theorem C10_checkSignatureEncoding_boundary_panics :
    checkSignatureEncoding boundarySig = SigResult.oob 8 ∧
    ∀ m, checkSignatureEncoding boundarySig ≠ SigResult.err m := by
  refine ⟨rfl, ?_⟩
  intro m h
  rw [show checkSignatureEncoding boundarySig = SigResult.oob 8 from rfl] at h
  exact SigResult.noConfusion h

end Txscript

namespace MPT

/-- Value blobs: byte strings. -/
abbrev Bytes := List Nat

/-- Nibble paths (entries `0..15`; `16` appears only as the terminator in
extended positions). -/
abbrev Path := List Nat

/-- Modelled from the spec (§4.1): the nibble expansion of a byte key,
high nibble first, without the terminator. -/
def hexPath (b : Bytes) : Path := b.flatMap fun x => [x / 16, x % 16]

/-- Modelled from the spec (§4.1): `keybytesToHex` yields `2·|b| + 1`
nibbles, the last being the terminator `16`. -/
def keybytesToHex (b : Bytes) : Path := hexPath b ++ [16]

/-- Strict lexicographic order on nibble (or byte) strings, a strict
prefix sorting first. -/
def lexLt : List Nat → List Nat → Bool
  | [], [] => false
  | [], _ :: _ => true
  | _ :: _, [] => false
  | a :: as, b :: bs => a < b || (a == b && lexLt as bs)

/-- The terminator-extended path of a value position. -/
def hexT (p : Path) : Path := p ++ [16]

/-- Order of value positions in the trie: lexicographic on
terminator-extended nibble paths. -/
def nibLt (p q : Path) : Bool := lexLt (hexT p) (hexT q)

/-- Longest common prefix of two nibble paths. -/
def commonPrefix : Path → Path → Path
  | a :: as, b :: bs => if a = b then a :: commonPrefix as bs else []
  | _, _ => []

/-- Modelled from the spec (§3.2): the four node variants of the trie,
whose implementation is not among the provided sources.  A branch carries
its 16 child slots as a list (well-formedness asserts length 16) and slot
16 as an optional value.  Hash references are resolved away: this is the
fully in-memory tree (the resolution layer is modelled separately for the
error-propagation claims). -/
inductive Node where
  | empty : Node
  | leaf (key : Path) (val : Bytes) : Node
  | ext (key : Path) (child : Node) : Node
  | branch (children : List Node) (val : Option Bytes) : Node
deriving Repr

mutual
/-- Decidable equality of nodes (the nested `List Node` field prevents
automatic derivation). -/
def Node.decEq : (a b : Node) → Decidable (a = b)
  | .empty, .empty => isTrue rfl
  | .empty, .leaf _ _ => isFalse fun h => Node.noConfusion h
  | .empty, .ext _ _ => isFalse fun h => Node.noConfusion h
  | .empty, .branch _ _ => isFalse fun h => Node.noConfusion h
  | .leaf _ _, .empty => isFalse fun h => Node.noConfusion h
  | .leaf k v, .leaf k' v' =>
      if h : k = k' ∧ v = v' then isTrue (by rw [h.1, h.2])
      else isFalse fun he => by cases he; exact h ⟨rfl, rfl⟩
  | .leaf _ _, .ext _ _ => isFalse fun h => Node.noConfusion h
  | .leaf _ _, .branch _ _ => isFalse fun h => Node.noConfusion h
  | .ext _ _, .empty => isFalse fun h => Node.noConfusion h
  | .ext _ _, .leaf _ _ => isFalse fun h => Node.noConfusion h
  | .ext k c, .ext k' c' =>
      match Node.decEq c c' with
      | isTrue hc =>
          if hk : k = k' then isTrue (by rw [hk, hc])
          else isFalse fun he => by cases he; exact hk rfl
      | isFalse hc => isFalse fun he => by cases he; exact hc rfl
  | .ext _ _, .branch _ _ => isFalse fun h => Node.noConfusion h
  | .branch _ _, .empty => isFalse fun h => Node.noConfusion h
  | .branch _ _, .leaf _ _ => isFalse fun h => Node.noConfusion h
  | .branch _ _, .ext _ _ => isFalse fun h => Node.noConfusion h
  | .branch cs v, .branch cs' v' =>
      match Node.decEqList cs cs' with
      | isTrue hc =>
          if hv : v = v' then isTrue (by rw [hv, hc])
          else isFalse fun he => by cases he; exact hv rfl
      | isFalse hc => isFalse fun he => by cases he; exact hc rfl
/-- Decidable equality of node lists. -/
def Node.decEqList : (as bs : List Node) → Decidable (as = bs)
  | [], [] => isTrue rfl
  | [], _ :: _ => isFalse fun h => List.noConfusion h
  | _ :: _, [] => isFalse fun h => List.noConfusion h
  | a :: as, b :: bs =>
      match Node.decEq a b, Node.decEqList as bs with
      | isTrue h1, isTrue h2 => isTrue (by rw [h1, h2])
      | isFalse h1, _ => isFalse fun he => by cases he; exact h1 rfl
      | _, isFalse h2 => isFalse fun he => by cases he; exact h2 rfl
end

instance : DecidableEq Node := Node.decEq

/-- 16 empty child slots. -/
def emptyChildren : List Node := List.replicate 16 .empty

mutual
/-- Modelled from the spec (§4.3.1): `Get` descending by nibbles. -/
def get : Node → Path → Option Bytes
  | .empty, _ => none
  | .leaf k v, p => if p = k then some v else none
  | .ext k c, p => if k.isPrefixOf p then get c (p.drop k.length) else none
  | .branch _ val, [] => val
  | .branch cs _, i :: r => getList cs i r
/-- Lookup in the `i`-th child slot. -/
def getList : List Node → Nat → Path → Option Bytes
  | [], _, _ => none
  | c :: _, 0, r => get c r
  | _ :: cs, i + 1, r => getList cs i r
end

/-- A branch holding exactly the two diverging remainders produced by a
leaf split (§4.3.2): the empty remainder goes to the value slot, a
nonempty one hangs its tail as a leaf off its head nibble. -/
def branchTwo (k1 : Path) (v1 : Bytes) (k2 : Path) (v2 : Bytes) : Node :=
  match k1, k2 with
  | [], [] => .leaf [] v2
  | [], i2 :: r2 => .branch (emptyChildren.set i2 (.leaf r2 v2)) (some v1)
  | i1 :: r1, [] => .branch (emptyChildren.set i1 (.leaf r1 v1)) (some v2)
  | i1 :: r1, i2 :: r2 =>
      .branch ((emptyChildren.set i1 (.leaf r1 v1)).set i2 (.leaf r2 v2)) none

/-- Wrap a node under an extension prefix, unless the prefix is empty. -/
def extWrap (cp : Path) (n : Node) : Node := if cp.isEmpty then n else .ext cp n

/-- The original child of a split extension, re-wrapped under the unmatched
remainder of the extension path when that remainder is nonempty. -/
def oldChild (rest : Path) (c : Node) : Node := if rest.isEmpty then c else .ext rest c

/-- The split of an extension node hit by insertion (§4.3.2): the original
child hangs off its diverging nibble `j` of a fresh branch; the new value
goes to the value slot (if its remainder is empty) or hangs off its own
head nibble; the matched common prefix `cp` re-wraps the branch when
nonempty. -/
def splitExt (cp : Path) (j : Nat) (rest : Path) (c : Node) : Path → Bytes → Node
  | [], v => extWrap cp (.branch (emptyChildren.set j (oldChild rest c)) (some v))
  | i :: r, v =>
      extWrap cp (.branch ((emptyChildren.set j (oldChild rest c)).set i (.leaf r v)) none)

mutual
/-- Modelled from the spec (§4.3.2): recursive insertion. -/
def insert : Node → Path → Bytes → Node
  | .empty, p, v => .leaf p v
  | .leaf lk lv, p, v =>
      if p = lk then .leaf lk v
      else
        let cp := commonPrefix lk p
        extWrap cp (branchTwo (lk.drop cp.length) lv (p.drop cp.length) v)
  | .ext ek c, p, v =>
      let cp := commonPrefix ek p
      if cp.length = ek.length then .ext ek (insert c (p.drop ek.length) v)
      else splitExt cp (ek.getD cp.length 0) (ek.drop (cp.length + 1)) c (p.drop cp.length) v
  | .branch cs _, [], v => .branch cs (some v)
  | .branch cs val, i :: r, v => .branch (insertList cs i r v) val
/-- Insertion into the `i`-th child slot. -/
def insertList : List Node → Nat → Path → Bytes → List Node
  | [], _, _, _ => []
  | c :: cs, 0, r, v => insert c r v :: cs
  | c :: cs, i + 1, r, v => c :: insertList cs i r v
end

/-- The non-empty slots of a child list, indexed from `i`. -/
def nonEmptySlotsFrom : List Node → Nat → List (Nat × Node)
  | [], _ => []
  | c :: cs, i =>
      (if c = .empty then [] else [(i, c)]) ++ nonEmptySlotsFrom cs (i + 1)

/-- The non-empty slots of a branch's child list, with their indices. -/
def nonEmptySlots (cs : List Node) : List (Nat × Node) := nonEmptySlotsFrom cs 0

/-- Collapse of a single remaining child slot into its parent position
(§4.3.3): a leaf or extension absorbs the slot nibble, a branch hangs off
a one-nibble extension. -/
def mergeSlot (i : Nat) (c : Node) : Node :=
  match c with
  | .leaf k v => .leaf (i :: k) v
  | .ext k c' => .ext (i :: k) c'
  | .branch cs v => .ext [i] (.branch cs v)
  | .empty => .empty

/-- Normalization of a branch after a removal (§4.3.3): no slot left means
no node, only the value slot left collapses to a leaf, exactly one child
slot left merges into it; otherwise the branch stays. -/
def fixBranch (cs : List Node) (val : Option Bytes) : Node :=
  match nonEmptySlots cs, val with
  | [], none => .empty
  | [], some v => .leaf [] v
  | [(i, c)], none => mergeSlot i c
  | _, _ => .branch cs val

/-- Path merging on the unwind of a deletion (§4.3.3): an extension whose
child collapsed to a leaf or extension absorbs its path; one that vanished
vanishes; a branch child keeps the extension. -/
def mergeExt (k : Path) : Node → Node
  | .empty => .empty
  | .leaf k' v' => .leaf (k ++ k') v'
  | .ext k' c => .ext (k ++ k') c
  | .branch cs v => .ext k (.branch cs v)

mutual
/-- Modelled from the spec (§4.3.3): recursive deletion with
normalization on the way out. -/
def delete : Node → Path → Node
  | .empty, _ => .empty
  | .leaf k v, p => if p = k then .empty else .leaf k v
  | .ext k c, p =>
      if k.isPrefixOf p then mergeExt k (delete c (p.drop k.length))
      else .ext k c
  | .branch cs _, [] => fixBranch cs none
  | .branch cs val, i :: r => fixBranch (deleteList cs i r) val
/-- Deletion in the `i`-th child slot. -/
def deleteList : List Node → Nat → Path → List Node
  | [], _, _ => []
  | c :: cs, 0, r => delete c r :: cs
  | c :: cs, i + 1, r => c :: deleteList cs i r
end

/-- Modelled from the spec (§3.4.5, §4.3.1): `Update` with an empty value
blob deletes the key. -/
def update (t : Node) (p : Path) (v : Bytes) : Node :=
  if v.isEmpty then delete t p else insert t p v

/-- A trie mutation: `Update` or `Delete` at a nibble path. -/
inductive Op where
  | put (k : Path) (v : Bytes) : Op
  | del (k : Path) : Op
deriving DecidableEq, Repr

def applyOp (t : Node) : Op → Node
  | .put k v => update t k v
  | .del k => delete t k

/-- Folding a sequence of operations over a starting trie. -/
def buildFrom (t : Node) (ops : List Op) : Node := ops.foldl applyOp t

/-- The trie built from the empty trie by a sequence of operations. -/
def build (ops : List Op) : Node := buildFrom .empty ops

/-- One operation applied to a mathematical mapping. -/
def mapStep (m : Path → Option Bytes) (op : Op) : Path → Option Bytes := fun q =>
  match op with
  | .put k v =>
      if v.isEmpty then (if q = k then none else m q)
      else (if q = k then some v else m q)
  | .del k => if q = k then none else m q

/-- The mathematical mapping produced by a sequence of operations. -/
def mapApply (ops : List Op) : Path → Option Bytes :=
  ops.foldl mapStep (fun _ => none)

mutual
/-- Modelled from the spec (§4.5.2): the key iterator over the node
iterator's preorder walk — the list of (key path, value) pairs in visit
order: at a branch, child slots `0..15` first, the slot-16 value last. -/
def iterate : Node → Path → List (Path × Bytes)
  | .empty, _ => []
  | .leaf k v, pre => [(pre ++ k, v)]
  | .ext k c, pre => iterate c (pre ++ k)
  | .branch cs val, pre =>
      iterList cs 0 pre ++ (match val with | some v => [(pre, v)] | none => [])
/-- Iteration over child slots from slot `i` upward. -/
def iterList : List Node → Nat → Path → List (Path × Bytes)
  | [], _, _ => []
  | c :: cs, i, pre => iterate c (pre ++ [i]) ++ iterList cs (i + 1) pre
end

mutual
/-- Modelled from the spec (§4.5.1): the node iterator's preorder list of
node paths (the `Path()` values observed by `checkIteratorNoDups`); a
branch's slot-16 value position appears at `path ++ [16]`, last. -/
def nodePaths : Node → Path → List Path
  | .empty, _ => []
  | .leaf _ _, pre => [pre]
  | .ext k c, pre => pre :: nodePaths c (pre ++ k)
  | .branch cs val, pre =>
      pre :: (nodePathsList cs 0 pre ++
        (match val with | some _ => [pre ++ [16]] | none => []))
/-- Node paths of child slots from slot `i` upward. -/
def nodePathsList : List Node → Nat → Path → List Path
  | [], _, _ => []
  | c :: cs, i, pre => nodePaths c (pre ++ [i]) ++ nodePathsList cs (i + 1) pre
end

def isBranch : Node → Bool
  | .branch _ _ => true
  | _ => false

/-- All entries are nibbles. -/
def nibs (p : Path) : Bool := p.all (· < 16)

mutual
/-- The spec's structural invariants (§3.4): canonical well-formed trees.
Leaves carry non-empty values; extensions carry non-empty paths and
resolve to branches (no extension-of-extension, no extension-of-leaf);
branches have 16 slots and at least two occupied positions counting the
value slot, whose blob is never empty. -/
def wf : Node → Bool
  | .empty => true
  | .leaf k v => nibs k && !v.isEmpty
  | .ext k c => !k.isEmpty && nibs k && isBranch c && wf c
  | .branch cs val =>
      cs.length == 16 && wfList cs &&
      decide ((nonEmptySlots cs).length + (if val.isSome then 1 else 0) ≥ 2) &&
      val != some []
/-- All nodes of a list are well-formed. -/
def wfList : List Node → Bool
  | [] => true
  | c :: cs => wf c && wfList cs
end

end MPT

namespace MPT

theorem lexLt_irrefl : ∀ p, lexLt p p = false
  | [] => rfl
  | a :: as => by simp [lexLt, lexLt_irrefl as]

theorem lexLt_trans : ∀ {a b c}, lexLt a b = true → lexLt b c = true → lexLt a c = true
  | [], _ :: _, _ :: _, _, _ => rfl
  | a :: as, b :: bs, c :: cs, h1, h2 => by
    simp only [lexLt, Bool.or_eq_true, Bool.and_eq_true, beq_iff_eq, decide_eq_true_eq] at *
    rcases h1 with h1 | ⟨rfl, h1⟩
    · rcases h2 with h2 | ⟨rfl, h2⟩
      · exact Or.inl (Nat.lt_trans h1 h2)
      · exact Or.inl h1
    · rcases h2 with h2 | ⟨rfl, h2⟩
      · exact Or.inl h2
      · exact Or.inr ⟨rfl, lexLt_trans h1 h2⟩

theorem lexLt_append_left : ∀ (p a b : List Nat), lexLt (p ++ a) (p ++ b) = lexLt a b
  | [], _, _ => rfl
  | x :: p, a, b => by simp [lexLt, lexLt_append_left p a b]

theorem lexLt_nil_cons (x : Nat) (r : List Nat) : lexLt [] (x :: r) = true := rfl

theorem lexLt_cons_of_lt {i j : Nat} (h : i < j) (ra rb : List Nat) :
    lexLt (i :: ra) (j :: rb) = true := by
  simp [lexLt, h]

theorem lexLt_asymm {a b : List Nat} (h : lexLt a b = true) : lexLt b a = false := by
  by_contra hc
  have hba : lexLt b a = true := by
    cases hh : lexLt b a
    · exact absurd hh hc
    · rfl
  have := lexLt_trans h hba
  rw [lexLt_irrefl] at this
  exact Bool.noConfusion this

theorem lexLt_ne {a b : List Nat} (h : lexLt a b = true) : a ≠ b := by
  rintro rfl
  rw [lexLt_irrefl] at h
  exact Bool.noConfusion h

/-- A strict prefix is lexicographically smaller. -/
theorem lexLt_prefix (p : List Nat) (x : Nat) (r : List Nat) :
    lexLt p (p ++ x :: r) = true := by
  have := lexLt_append_left p [] (x :: r)
  simpa using this

theorem nibLt_trans {a b c : Path} (h1 : nibLt a b = true) (h2 : nibLt b c = true) :
    nibLt a c = true := lexLt_trans h1 h2

theorem append_prefix_iff : ∀ (x : List Nat) (y q : List Nat),
    (x ++ y <+: q) ↔ (x <+: q ∧ y <+: q.drop x.length)
  | [], y, q => by simp
  | a :: x, y, [] => by simp
  | a :: x, y, b :: q => by
    simp only [List.cons_append, List.cons_prefix_cons, List.length_cons, List.drop_succ_cons,
      append_prefix_iff x y q]
    tauto

theorem eq_append_drop_of_pref {x q : List Nat} (h : x <+: q) : q = x ++ q.drop x.length := by
  obtain ⟨t, rfl⟩ := h
  simp

theorem nibs_drop {p : Path} (h : nibs p = true) (n : Nat) : nibs (p.drop n) = true := by
  simp only [nibs, List.all_eq_true] at *
  intro x hx
  exact h x (List.mem_of_mem_drop hx)

theorem nibs_cons {i : Nat} {p : Path} :
    nibs (i :: p) = true ↔ i < 16 ∧ nibs p = true := by
  simp [nibs]

theorem nibs_of_pref {x p : Path} (h : x <+: p) (hp : nibs p = true) : nibs x = true := by
  simp only [nibs, List.all_eq_true] at *
  intro a ha
  exact hp a (h.subset ha)

theorem wfList_iff : ∀ {cs : List Node}, wfList cs = true ↔ ∀ c ∈ cs, wf c = true
  | [] => by simp [wfList]
  | c :: cs => by simp [wfList, Bool.and_eq_true, wfList_iff]

/-- Lookup in a slot list is lookup by position. -/
theorem getList_eq_getD : ∀ (cs : List Node) (i : Nat) (r : Path),
    getList cs i r = get (cs.getD i .empty) r
  | [], _, r => by simp [getList, List.getD, get]
  | c :: _, 0, r => by simp [getList, List.getD]
  | _ :: cs, i + 1, r => by
    simpa [getList, List.getD] using getList_eq_getD cs i r

theorem getD_replicate_empty : ∀ (n i : Nat),
    (List.replicate n Node.empty).getD i Node.empty = Node.empty
  | 0, _ => by simp [List.getD]
  | _ + 1, 0 => by simp [List.replicate, List.getD]
  | n + 1, i + 1 => by
    simpa [List.replicate, List.getD] using getD_replicate_empty n i

theorem getList_emptyChildren (i : Nat) (r : Path) : getList emptyChildren i r = none := by
  rw [getList_eq_getD, show emptyChildren = List.replicate 16 Node.empty from rfl,
    getD_replicate_empty]
  rfl

theorem getList_set : ∀ (cs : List Node) (j : Nat) (x : Node) (j' : Nat) (r : Path),
    j < cs.length →
    getList (cs.set j x) j' r = if j' = j then get x r else getList cs j' r
  | [], j, _, _, _, h => by simp at h
  | c :: cs, 0, x, 0, r, _ => by simp [getList]
  | c :: cs, 0, x, j' + 1, r, _ => by simp [getList]
  | c :: cs, j + 1, x, 0, r, h => by simp [getList]
  | c :: cs, j + 1, x, j' + 1, r, h => by
    have := getList_set cs j x j' r (by simpa using h)
    simp only [List.set_cons_succ, getList, this]
    by_cases hj : j' = j <;> simp [hj]

end MPT

namespace MPT

theorem commonPrefix_prefix_left : ∀ a b : Path, commonPrefix a b <+: a
  | [], _ => by simp [commonPrefix]
  | _ :: _, [] => by simp [commonPrefix]
  | x :: as, y :: bs => by
    by_cases h : x = y
    · simpa [commonPrefix, h] using commonPrefix_prefix_left as bs
    · simp [commonPrefix, h]

theorem commonPrefix_prefix_right : ∀ a b : Path, commonPrefix a b <+: b
  | [], _ => by simp [commonPrefix]
  | _ :: _, [] => by simp [commonPrefix]
  | x :: as, y :: bs => by
    by_cases h : x = y
    · simpa [commonPrefix, h] using commonPrefix_prefix_right as bs
    · simp [commonPrefix, h]

/-- After the common prefix the two paths diverge in their first nibble. -/
theorem commonPrefix_diverge : ∀ (a b : Path) (i : Nat) (ra : Path) (j : Nat) (rb : Path),
    a.drop (commonPrefix a b).length = i :: ra →
    b.drop (commonPrefix a b).length = j :: rb → i ≠ j
  | [], _, _, _, _, _, ha, _ => by simp [commonPrefix] at ha
  | _ :: _, [], _, _, _, _, _, hb => by simp [commonPrefix] at hb
  | x :: as, y :: bs, i, ra, j, rb, ha, hb => by
    by_cases h : x = y
    · simp only [commonPrefix, if_pos h, List.length_cons, List.drop_succ_cons] at ha hb
      exact commonPrefix_diverge as bs i ra j rb ha hb
    · simp only [commonPrefix, if_neg h, List.length_nil, List.drop_zero] at ha hb
      cases ha
      cases hb
      exact h

theorem commonPrefix_of_prefix : ∀ a b : Path, a <+: b → commonPrefix a b = a
  | [], _, _ => by simp [commonPrefix]
  | x :: as, y :: bs, h => by
    rw [List.cons_prefix_cons] at h
    simp [commonPrefix, h.1, commonPrefix_of_prefix as bs h.2]

/-- Evaluation form of lookup through an extension node. -/
theorem get_ext_eval (k : Path) (c : Node) (q : Path) :
    get (.ext k c) q = if k <+: q then get c (q.drop k.length) else none := by
  rw [get]
  by_cases h : k <+: q
  · rw [if_pos h, if_pos (by rwa [List.isPrefixOf_iff_prefix])]
  · rw [if_neg h, if_neg (by rwa [List.isPrefixOf_iff_prefix])]

theorem get_ext_append (x y : Path) (c : Node) (q : Path) :
    get (.ext (x ++ y) c) q =
      if x <+: q then get (.ext y c) (q.drop x.length) else none := by
  rw [get_ext_eval]
  by_cases hx : x <+: q
  · rw [if_pos hx, get_ext_eval]
    by_cases hy : y <+: q.drop x.length
    · rw [if_pos (by rw [append_prefix_iff]; exact ⟨hx, hy⟩), if_pos hy]
      simp [List.drop_drop, List.length_append, Nat.add_comm]
    · rw [if_neg (by rw [append_prefix_iff]; exact fun h => hy h.2), if_neg hy]
  · rw [if_neg hx, if_neg (by rw [append_prefix_iff]; exact fun h => hx h.1)]

/-- The `ext`-wrap used by insertion: wrap only when the prefix is nonempty. -/
theorem get_extWrap (cp : Path) (x : Node) (q : Path) :
    get (extWrap cp x) q =
      if cp <+: q then get x (q.drop cp.length) else none := by
  cases cp with
  | nil => simp [extWrap]
  | cons a cp => rw [extWrap, if_neg (by simp), get_ext_eval]

theorem emptyChildren_length : emptyChildren.length = 16 := rfl

/-- Lookup in the branch produced by a two-way leaf split. -/
theorem get_branchTwo (a : Path) (v1 : Bytes) (b : Path) (v2 : Bytes)
    (ha : nibs a = true) (hb : nibs b = true)
    (hdiv : ∀ i ra j rb, a = i :: ra → b = j :: rb → i ≠ j)
    (hne : ¬(a = [] ∧ b = [])) :
    ∀ q, get (branchTwo a v1 b v2) q =
      if q = b then some v2 else if q = a then some v1 else none := by
  intro q
  match a, b with
  | [], [] => exact absurd ⟨rfl, rfl⟩ hne
  | [], j :: rb =>
    have hj : j < 16 := (nibs_cons.mp hb).1
    cases q with
    | nil => simp [branchTwo, get]
    | cons h r =>
      rw [show branchTwo [] v1 (j :: rb) v2
            = .branch (emptyChildren.set j (.leaf rb v2)) (some v1) from rfl]
      rw [show get (.branch (emptyChildren.set j (.leaf rb v2)) (some v1)) (h :: r)
            = getList (emptyChildren.set j (.leaf rb v2)) h r from rfl]
      rw [getList_set _ _ _ _ _ (by rw [emptyChildren_length]; exact hj)]
      by_cases hhj : h = j
      · subst hhj
        by_cases hr : r = rb <;> simp [get, hr]
      · simp [hhj, getList_emptyChildren, get]
  | i :: ra, [] =>
    have hi : i < 16 := (nibs_cons.mp ha).1
    cases q with
    | nil => simp [branchTwo, get]
    | cons h r =>
      rw [show branchTwo (i :: ra) v1 [] v2
            = .branch (emptyChildren.set i (.leaf ra v1)) (some v2) from rfl]
      rw [show get (.branch (emptyChildren.set i (.leaf ra v1)) (some v2)) (h :: r)
            = getList (emptyChildren.set i (.leaf ra v1)) h r from rfl]
      rw [getList_set _ _ _ _ _ (by rw [emptyChildren_length]; exact hi)]
      by_cases hhi : h = i
      · subst hhi
        by_cases hr : r = ra <;> simp [get, hr]
      · simp [hhi, getList_emptyChildren, get]
  | i :: ra, j :: rb =>
    have hi : i < 16 := (nibs_cons.mp ha).1
    have hj : j < 16 := (nibs_cons.mp hb).1
    have hij : i ≠ j := hdiv i ra j rb rfl rfl
    cases q with
    | nil => simp [branchTwo, get]
    | cons h r =>
      rw [show branchTwo (i :: ra) v1 (j :: rb) v2
            = .branch ((emptyChildren.set i (.leaf ra v1)).set j (.leaf rb v2)) none from rfl]
      rw [show get (.branch ((emptyChildren.set i (.leaf ra v1)).set j (.leaf rb v2)) none) (h :: r)
            = getList ((emptyChildren.set i (.leaf ra v1)).set j (.leaf rb v2)) h r from rfl]
      rw [getList_set _ _ _ _ _ (by rw [List.length_set, emptyChildren_length]; exact hj)]
      by_cases hhj : h = j
      · subst hhj
        by_cases hr : r = rb <;> simp [get, hr, Ne.symm hij]
      · rw [getList_set _ _ _ _ _ (by rw [emptyChildren_length]; exact hi)]
        by_cases hhi : h = i
        · subst hhi
          by_cases hr : r = ra <;> simp [get, hr, hhj]
        · simp [hhi, hhj, getList_emptyChildren, get]

end MPT

namespace MPT

/-- Lookup through the wrapped-original child of a split. -/
theorem get_oldChild (rest : Path) (c : Node) (r : Path) :
    get (oldChild rest c) r =
      if rest <+: r then get c (r.drop rest.length) else none := by
  cases rest with
  | nil => simp [oldChild]
  | cons a rest => rw [oldChild, if_neg (by simp), get_ext_eval]

/-- Lookup in the node produced by an extension split. -/
theorem get_splitExt (cp : Path) (j : Nat) (rest : Path) (c : Node) (b : Path) (v : Bytes)
    (hj : j < 16) (hb : nibs b = true)
    (hdiv : ∀ i rr, b = i :: rr → i ≠ j) :
    ∀ q, get (splitExt cp j rest c b v) q =
      if q = cp ++ b then some v else get (.ext (cp ++ j :: rest) c) q := by
  intro q
  rw [get_ext_append]
  by_cases hq : cp <+: q
  · have hqq : q = cp ++ q.drop cp.length := eq_append_drop_of_pref hq
    have hqb : q = cp ++ b ↔ q.drop cp.length = b := by
      constructor
      · intro h
        rw [h, List.drop_left]
      · intro h
        rw [hqq, h]
    rw [if_pos hq]
    simp only [hqb]
    cases b with
    | nil =>
      rw [splitExt, get_extWrap, if_pos hq]
      cases hq' : q.drop cp.length with
      | nil => simp [get]
      | cons h r =>
        rw [if_neg (by simp)]
        rw [show get (Node.branch (emptyChildren.set j (oldChild rest c)) (some v)) (h :: r)
            = getList (emptyChildren.set j (oldChild rest c)) h r from rfl]
        rw [getList_set _ _ _ _ _ (by rw [emptyChildren_length]; exact hj)]
        rw [get_ext_eval, get_oldChild]
        by_cases hhj : h = j
        · subst hhj
          rw [if_pos rfl]
          by_cases hr : rest <+: r
          · rw [if_pos hr, if_pos (by rw [List.cons_prefix_cons]; exact ⟨rfl, hr⟩)]
            simp
          · rw [if_neg hr, if_neg (by
              rw [List.cons_prefix_cons]
              rintro ⟨-, hh⟩
              exact hr hh)]
        · rw [if_neg hhj, if_neg (by
            rw [List.cons_prefix_cons]
            rintro ⟨hh, -⟩
            exact hhj hh.symm), getList_emptyChildren]
    | cons i rr =>
      have hij : i ≠ j := hdiv i rr rfl
      have hi : i < 16 := (nibs_cons.mp hb).1
      rw [splitExt, get_extWrap, if_pos hq]
      cases hq' : q.drop cp.length with
      | nil =>
        rw [if_neg (by simp), get_ext_eval, if_neg (by simp)]
        simp [get]
      | cons h r =>
        rw [show get (Node.branch ((emptyChildren.set j (oldChild rest c)).set i
              (.leaf rr v)) none) (h :: r)
            = getList ((emptyChildren.set j (oldChild rest c)).set i (.leaf rr v)) h r from rfl]
        rw [getList_set _ _ _ _ _
          (by rw [List.length_set, emptyChildren_length]; exact hi)]
        rw [get_ext_eval]
        by_cases hhi : h = i
        · subst hhi
          rw [if_pos rfl]
          by_cases hr : r = rr
          · subst hr
            rw [if_pos rfl]
            simp [get]
          · rw [if_neg (by simp [hr]), if_neg (by
              rw [List.cons_prefix_cons]
              rintro ⟨hh, -⟩
              exact hij hh.symm), get]
            simp [hr]
        · rw [if_neg hhi, if_neg (by
            intro hh
            injection hh with hh1 hh2
            exact hhi hh1),
            getList_set _ _ _ _ _ (by rw [emptyChildren_length]; exact hj)]
          by_cases hhj : h = j
          · subst hhj
            rw [if_pos rfl, get_oldChild]
            by_cases hr : rest <+: r
            · rw [if_pos hr, if_pos (by rw [List.cons_prefix_cons]; exact ⟨rfl, hr⟩)]
              simp
            · rw [if_neg hr, if_neg (by
                rw [List.cons_prefix_cons]
                rintro ⟨-, hh⟩
                exact hr hh)]
          · rw [if_neg hhj, if_neg (by
              rw [List.cons_prefix_cons]
              rintro ⟨hh, -⟩
              exact hhj hh.symm), getList_emptyChildren]
  · rw [if_neg hq, if_neg (by
      intro h
      exact hq (h ▸ List.prefix_append cp b))]
    cases b with
    | nil => rw [splitExt, get_extWrap, if_neg hq]
    | cons i rr => rw [splitExt, get_extWrap, if_neg hq]

end MPT

namespace MPT

mutual
/-- Semantics of insertion: exactly the inserted key changes, to the new
value. -/
theorem get_insert : ∀ (t : Node) (p : Path) (v : Bytes), wf t = true → nibs p = true →
    ∀ q, get (insert t p v) q = if q = p then some v else get t q
  | .empty, p, v, _, _, q => by
      rw [show insert .empty p v = .leaf p v by rw [insert]]
      by_cases h : q = p <;> simp [get, h]
  | .leaf lk lv, p, v, ht, hp, q => by
      have hlk : nibs lk = true := by
        simp only [wf, Bool.and_eq_true] at ht
        exact ht.1
      by_cases hpl : p = lk
      · subst hpl
        rw [show insert (.leaf p lv) p v = .leaf p v by rw [insert, if_pos rfl]]
        by_cases h : q = p <;> simp [get, h]
      · rw [show insert (.leaf lk lv) p v
            = extWrap (commonPrefix lk p)
                (branchTwo (lk.drop (commonPrefix lk p).length) lv
                  (p.drop (commonPrefix lk p).length) v) by rw [insert, if_neg hpl]]
        have hlkeq : lk = commonPrefix lk p ++ lk.drop (commonPrefix lk p).length :=
          eq_append_drop_of_pref (commonPrefix_prefix_left lk p)
        have hpeq : p = commonPrefix lk p ++ p.drop (commonPrefix lk p).length :=
          eq_append_drop_of_pref (commonPrefix_prefix_right lk p)
        have hne2 : ¬(lk.drop (commonPrefix lk p).length = []
            ∧ p.drop (commonPrefix lk p).length = []) := by
          rintro ⟨h1, h2⟩
          apply hpl
          have e1 : p = commonPrefix lk p := by
            conv_lhs => rw [hpeq]
            rw [h2, List.append_nil]
          have e2 : lk = commonPrefix lk p := by
            conv_lhs => rw [hlkeq]
            rw [h1, List.append_nil]
          rw [e1, ← e2]
        rw [get_extWrap]
        by_cases hq : commonPrefix lk p <+: q
        · rw [if_pos hq]
          rw [get_branchTwo _ _ _ _ (nibs_drop hlk _) (nibs_drop hp _)
            (fun i ra j rb h1 h2 => commonPrefix_diverge lk p i ra j rb h1 h2) hne2]
          have hqeq : q = commonPrefix lk p ++ q.drop (commonPrefix lk p).length :=
            eq_append_drop_of_pref hq
          by_cases h1 : q.drop (commonPrefix lk p).length = p.drop (commonPrefix lk p).length
          · have hqp : q = p := by rw [hqeq, h1, ← hpeq]
            rw [if_pos h1, if_pos hqp]
          · have hqp : q ≠ p := by
              intro h
              subst h
              exact h1 rfl
            rw [if_neg h1, if_neg hqp]
            by_cases h2 : q.drop (commonPrefix lk p).length = lk.drop (commonPrefix lk p).length
            · have hqlk : q = lk := by rw [hqeq, h2, ← hlkeq]
              rw [if_pos h2]
              simp [get, hqlk]
            · have hqlk : q ≠ lk := by
                intro h
                subst h
                exact h2 rfl
              rw [if_neg h2]
              simp [get, hqlk]
        · rw [if_neg hq]
          have hqp : q ≠ p := by
            intro h
            exact hq (by rw [h]; exact ⟨_, hpeq.symm⟩)
          have hqlk : q ≠ lk := by
            intro h
            exact hq (by rw [h]; exact ⟨_, hlkeq.symm⟩)
          rw [if_neg hqp]
          simp [get, hqlk]
  | .ext ek c, p, v, ht, hp, q => by
      simp only [wf, Bool.and_eq_true] at ht
      obtain ⟨⟨⟨hne, hnib⟩, hbr⟩, hwfc⟩ := ht
      by_cases hlen : (commonPrefix ek p).length = ek.length
      · have hcpek : commonPrefix ek p = ek :=
          (commonPrefix_prefix_left ek p).eq_of_length hlen
        have hekp : ek <+: p := hcpek ▸ commonPrefix_prefix_right ek p
        rw [show insert (.ext ek c) p v = .ext ek (insert c (p.drop ek.length) v) by
          rw [insert, if_pos hlen]]
        have hdropeq : ∀ x : Path, ek <+: x →
            (x.drop ek.length = p.drop ek.length ↔ x = p) := by
          intro x hx
          constructor
          · intro h
            rw [eq_append_drop_of_pref hx, h, ← eq_append_drop_of_pref hekp]
          · intro h
            rw [h]
        by_cases hqp : q = p
        · subst hqp
          rw [if_pos rfl, get_ext_eval, if_pos hekp,
            get_insert c (q.drop ek.length) v hwfc (nibs_drop hp _), if_pos rfl]
        · rw [if_neg hqp, get_ext_eval, get_ext_eval]
          by_cases hq : ek <+: q
          · rw [if_pos hq, if_pos hq,
              get_insert c (p.drop ek.length) v hwfc (nibs_drop hp _),
              if_neg (fun h => hqp ((hdropeq q hq).mp h))]
          · rw [if_neg hq, if_neg hq]
      · have hlt : (commonPrefix ek p).length < ek.length :=
          Nat.lt_of_le_of_ne (commonPrefix_prefix_left ek p).length_le hlen
        rw [show insert (.ext ek c) p v
            = splitExt (commonPrefix ek p) (ek.getD (commonPrefix ek p).length 0)
                (ek.drop ((commonPrefix ek p).length + 1)) c
                (p.drop (commonPrefix ek p).length) v by rw [insert, if_neg hlen]]
        have hdropek : ek.drop (commonPrefix ek p).length
            = ek.getD (commonPrefix ek p).length 0 :: ek.drop ((commonPrefix ek p).length + 1) := by
          rw [List.getD_eq_getElem _ _ hlt]
          exact List.drop_eq_getElem_cons hlt
        have hj16 : ek.getD (commonPrefix ek p).length 0 < 16 := by
          have hnd := nibs_drop hnib (commonPrefix ek p).length
          rw [hdropek] at hnd
          exact (nibs_cons.mp hnd).1
        have hdiv : ∀ i rr, p.drop (commonPrefix ek p).length = i :: rr
            → i ≠ ek.getD (commonPrefix ek p).length 0 := by
          intro i rr hi
          have := commonPrefix_diverge ek p _ _ _ _ hdropek hi
          exact fun h => this (h ▸ rfl)
        rw [get_splitExt _ _ _ _ _ _ hj16 (nibs_drop hp _) hdiv q]
        have hpeq : p = commonPrefix ek p ++ p.drop (commonPrefix ek p).length :=
          eq_append_drop_of_pref (commonPrefix_prefix_right ek p)
        have hekeq : ek = commonPrefix ek p
            ++ ek.getD (commonPrefix ek p).length 0 :: ek.drop ((commonPrefix ek p).length + 1) := by
          conv_lhs => rw [eq_append_drop_of_pref (commonPrefix_prefix_left ek p)]
          rw [hdropek]
        rw [← hpeq, ← hekeq]
  | .branch cs val, p, v, ht, hp, q => by
      simp only [wf, Bool.and_eq_true, beq_iff_eq] at ht
      obtain ⟨⟨⟨hlen, hcs⟩, -⟩, -⟩ := ht
      cases p with
      | nil =>
        rw [show insert (.branch cs val) [] v = .branch cs (some v) by rw [insert]]
        cases q with
        | nil => simp [get]
        | cons j r => simp [get]
      | cons i r =>
        rw [show insert (.branch cs val) (i :: r) v = .branch (insertList cs i r v) val by
          rw [insert]]
        have hi : i < cs.length := by
          rw [hlen]
          exact (nibs_cons.mp hp).1
        cases q with
        | nil => simp [get]
        | cons j q' =>
          rw [show get (.branch (insertList cs i r v) val) (j :: q')
              = getList (insertList cs i r v) j q' from rfl]
          rw [getList_insertList cs i r v hcs (nibs_cons.mp hp).2 hi j q']
          by_cases h : j = i ∧ q' = r
          · rw [if_pos h, if_pos (by rw [h.1, h.2])]
          · rw [if_neg h, if_neg (by
              intro hh
              injection hh with h1 h2
              exact h ⟨h1, h2⟩)]
            rfl

/-- Semantics of slot insertion: only slot `i` changes, by `insert`. -/
theorem getList_insertList : ∀ (cs : List Node) (i : Nat) (r : Path) (v : Bytes),
    wfList cs = true → nibs r = true → i < cs.length →
    ∀ j q, getList (insertList cs i r v) j q
      = if j = i ∧ q = r then some v else getList cs j q
  | [], i, r, v, _, _, hi, _, _ => by simp at hi
  | c :: cs, 0, r, v, hcs, hr, _, j, q => by
      rw [show insertList (c :: cs) 0 r v = insert c r v :: cs by rw [insertList]]
      have hwfc : wf c = true := by
        simp only [wfList, Bool.and_eq_true] at hcs
        exact hcs.1
      cases j with
      | zero =>
        rw [show getList (insert c r v :: cs) 0 q = get (insert c r v) q from rfl,
          show getList (c :: cs) 0 q = get c q from rfl,
          get_insert c r v hwfc hr q]
        by_cases h : q = r <;> simp [h]
      | succ j =>
        rw [show getList (insert c r v :: cs) (j + 1) q = getList cs j q from rfl,
          show getList (c :: cs) (j + 1) q = getList cs j q from rfl]
        simp
  | c :: cs, i + 1, r, v, hcs, hr, hi, j, q => by
      rw [show insertList (c :: cs) (i + 1) r v = c :: insertList cs i r v by rw [insertList]]
      have hcs' : wfList cs = true := by
        simp only [wfList, Bool.and_eq_true] at hcs
        exact hcs.2
      cases j with
      | zero =>
        rw [show getList (c :: insertList cs i r v) 0 q = get c q from rfl,
          show getList (c :: cs) 0 q = get c q from rfl]
        simp
      | succ j =>
        rw [show getList (c :: insertList cs i r v) (j + 1) q = getList (insertList cs i r v) j q
            from rfl,
          show getList (c :: cs) (j + 1) q = getList cs j q from rfl,
          getList_insertList cs i r v hcs' hr (by simpa using hi) j q]
        by_cases h : j = i ∧ q = r
        · rw [if_pos h, if_pos ⟨by rw [h.1], h.2⟩]
        · rw [if_neg h, if_neg (by
            intro hh
            injection hh.1 with h1
            exact h ⟨h1, hh.2⟩)]
end

end MPT

namespace MPT

theorem extWrap_ne_empty {cp : Path} {x : Node} (hx : x ≠ .empty) :
    extWrap cp x ≠ .empty := by
  cases cp <;> simp [extWrap, hx]

theorem branchTwo_ne_empty (k1 : Path) (v1 : Bytes) (k2 : Path) (v2 : Bytes) :
    branchTwo k1 v1 k2 v2 ≠ .empty := by
  match k1, k2 with
  | [], [] => simp [branchTwo]
  | [], _ :: _ => simp [branchTwo]
  | _ :: _, [] => simp [branchTwo]
  | _ :: _, _ :: _ => simp [branchTwo]

theorem splitExt_ne_empty (cp : Path) (j : Nat) (rest : Path) (c : Node) (b : Path)
    (v : Bytes) : splitExt cp j rest c b v ≠ .empty := by
  cases b with
  | nil => exact extWrap_ne_empty (by simp)
  | cons i r => exact extWrap_ne_empty (by simp)

theorem insert_ne_empty : ∀ (t : Node) (p : Path) (v : Bytes), insert t p v ≠ .empty
  | .empty, p, v => by
      rw [insert]
      simp
  | .leaf lk lv, p, v => by
      rw [insert]
      by_cases h : p = lk
      · simp [h]
      · rw [if_neg h]
        exact extWrap_ne_empty (branchTwo_ne_empty _ _ _ _)
  | .ext ek c, p, v => by
      rw [insert]
      by_cases h : (commonPrefix ek p).length = ek.length
      · simp [h]
      · rw [if_neg h]
        exact splitExt_ne_empty _ _ _ _ _ _
  | .branch cs val, [], v => by
      rw [insert]
      simp
  | .branch cs val, i :: r, v => by
      rw [insert]
      simp

theorem length_insertList : ∀ (cs : List Node) (i : Nat) (r : Path) (v : Bytes),
    (insertList cs i r v).length = cs.length
  | [], _, _, _ => by rw [insertList]
  | c :: cs, 0, r, v => by rw [insertList, List.length_cons, List.length_cons]
  | c :: cs, i + 1, r, v => by
      rw [insertList, List.length_cons, List.length_cons, length_insertList cs i r v]

theorem getD_set_ne : ∀ (cs : List Node) (i j : Nat) (x : Node), i ≠ j →
    (cs.set i x).getD j .empty = cs.getD j .empty
  | [], _, _, _, _ => by simp
  | c :: cs, 0, 0, x, h => absurd rfl h
  | c :: cs, 0, j + 1, x, _ => by simp [List.getD]
  | c :: cs, i + 1, 0, x, _ => by simp [List.getD]
  | c :: cs, i + 1, j + 1, x, h => by
      have := getD_set_ne cs i j x (by omega)
      simpa [List.getD] using this

theorem nonEmptySlotsFrom_replicate : ∀ (n i0 : Nat),
    nonEmptySlotsFrom (List.replicate n Node.empty) i0 = []
  | 0, _ => rfl
  | n + 1, i0 => by
      rw [List.replicate, nonEmptySlotsFrom, if_pos rfl,
        nonEmptySlotsFrom_replicate n (i0 + 1), List.nil_append]

theorem nonEmptySlotsFrom_set_of_empty : ∀ (cs : List Node) (j : Nat) (x : Node) (i0 : Nat),
    cs.getD j .empty = .empty → x ≠ .empty → j < cs.length →
    (nonEmptySlotsFrom (cs.set j x) i0).length = (nonEmptySlotsFrom cs i0).length + 1
  | [], j, _, _, _, _, hj => by simp at hj
  | c :: cs, 0, x, i0, hc, hx, _ => by
      have hc0 : c = .empty := by simpa [List.getD] using hc
      rw [List.set_cons_zero, nonEmptySlotsFrom, nonEmptySlotsFrom, if_pos hc0, if_neg hx]
      simp
  | c :: cs, j + 1, x, i0, hc, hx, hj => by
      have hrec := nonEmptySlotsFrom_set_of_empty cs j x (i0 + 1)
        (by simpa [List.getD] using hc) hx (by simpa using hj)
      rw [List.set_cons_succ, nonEmptySlotsFrom, nonEmptySlotsFrom]
      by_cases h : c = .empty <;> simp [h, hrec]

theorem nonEmptySlotsFrom_insertList_le : ∀ (cs : List Node) (i : Nat) (r : Path)
    (v : Bytes) (i0 : Nat),
    (nonEmptySlotsFrom cs i0).length ≤ (nonEmptySlotsFrom (insertList cs i r v) i0).length
  | [], _, _, _, _ => by rw [insertList]
  | c :: cs, 0, r, v, i0 => by
      rw [insertList, nonEmptySlotsFrom, nonEmptySlotsFrom,
        if_neg (insert_ne_empty c r v)]
      by_cases h : c = .empty <;> simp [h]
  | c :: cs, i + 1, r, v, i0 => by
      have := nonEmptySlotsFrom_insertList_le cs i r v (i0 + 1)
      rw [insertList, nonEmptySlotsFrom, nonEmptySlotsFrom]
      by_cases h : c = .empty <;> simp [h] <;> omega

theorem wfList_set : ∀ (cs : List Node) (j : Nat) (x : Node),
    wfList cs = true → wf x = true → wfList (cs.set j x) = true
  | [], _, _, h, _ => h
  | c :: cs, 0, x, h, hx => by
      rw [List.set_cons_zero, wfList, hx, Bool.true_and]
      rw [wfList, Bool.and_eq_true] at h
      exact h.2
  | c :: cs, j + 1, x, h, hx => by
      rw [wfList, Bool.and_eq_true] at h
      rw [List.set_cons_succ, wfList, h.1, Bool.true_and]
      exact wfList_set cs j x h.2 hx

theorem wfList_emptyChildren : wfList emptyChildren = true := by decide

theorem isBranch_ne_empty {x : Node} (h : isBranch x = true) : x ≠ .empty := by
  cases x <;> simp_all [isBranch]

theorem wf_extWrap {cp : Path} {x : Node} (hcp : nibs cp = true) (hx : wf x = true)
    (hbx : isBranch x = true) : wf (extWrap cp x) = true := by
  cases cp with
  | nil => simpa [extWrap] using hx
  | cons a cp =>
      rw [extWrap, if_neg (by simp)]
      rw [wf, hx, hbx, hcp]
      simp

end MPT

namespace MPT

theorem isBranch_insert {c : Node} (h : isBranch c = true) (p : Path) (v : Bytes) :
    isBranch (insert c p v) = true := by
  cases c with
  | branch cs val =>
      cases p with
      | nil =>
          rw [insert]
          rfl
      | cons i r =>
          rw [insert]
          rfl
  | empty => exact absurd h (by simp [isBranch])
  | leaf k w => exact absurd h (by simp [isBranch])
  | ext k c => exact absurd h (by simp [isBranch])

theorem emptyChildren_getD (j : Nat) : emptyChildren.getD j .empty = .empty :=
  getD_replicate_empty 16 j

theorem nonEmptySlots_emptyChildren : nonEmptySlots emptyChildren = [] :=
  nonEmptySlotsFrom_replicate 16 0

/-- A fresh branch with a single occupied slot has slot count 1. -/
theorem nonEmptySlots_single_set {x : Node} (j : Nat) (hj : j < 16) (hx : x ≠ .empty) :
    (nonEmptySlots (emptyChildren.set j x)).length = 1 := by
  rw [nonEmptySlots, nonEmptySlotsFrom_set_of_empty _ _ _ _ (emptyChildren_getD j) hx
    (by rw [emptyChildren_length]; exact hj)]
  rw [show nonEmptySlotsFrom emptyChildren 0 = [] from nonEmptySlots_emptyChildren]
  rfl

/-- A fresh branch with two distinct occupied slots has slot count 2. -/
theorem nonEmptySlots_double_set {x y : Node} (j i : Nat) (hj : j < 16) (hi : i < 16)
    (hij : i ≠ j) (hx : x ≠ .empty) (hy : y ≠ .empty) :
    (nonEmptySlots ((emptyChildren.set j x).set i y)).length = 2 := by
  rw [nonEmptySlots, nonEmptySlotsFrom_set_of_empty _ _ _ _
    (by rw [getD_set_ne _ _ _ _ (fun h => hij h.symm)]; exact emptyChildren_getD i) hy
    (by rw [List.length_set, emptyChildren_length]; exact hi)]
  rw [show nonEmptySlotsFrom (emptyChildren.set j x) 0 = nonEmptySlots (emptyChildren.set j x)
    from rfl, nonEmptySlots_single_set j hj hx]

theorem wf_branchTwo (a : Path) (v1 : Bytes) (b : Path) (v2 : Bytes)
    (ha : nibs a = true) (hb : nibs b = true) (hv1 : v1 ≠ []) (hv2 : v2 ≠ [])
    (hdiv : ∀ i ra j rb, a = i :: ra → b = j :: rb → i ≠ j)
    (hne : ¬(a = [] ∧ b = [])) :
    wf (branchTwo a v1 b v2) = true ∧ isBranch (branchTwo a v1 b v2) = true := by
  match a, b with
  | [], [] => exact absurd ⟨rfl, rfl⟩ hne
  | [], j :: rb =>
      have hj : j < 16 := (nibs_cons.mp hb).1
      have hwfleaf : wf (.leaf rb v2) = true := by
        rw [wf, (nibs_cons.mp hb).2]
        simp [hv2]
      refine ⟨?_, by rw [branchTwo, isBranch]⟩
      rw [branchTwo, wf]
      rw [nonEmptySlots_single_set j hj (by simp)]
      simp [List.length_set, emptyChildren_length, wfList_set _ _ _ wfList_emptyChildren hwfleaf, hv1]
  | i :: ra, [] =>
      have hi : i < 16 := (nibs_cons.mp ha).1
      have hwfleaf : wf (.leaf ra v1) = true := by
        rw [wf, (nibs_cons.mp ha).2]
        simp [hv1]
      refine ⟨?_, by rw [branchTwo, isBranch]⟩
      rw [branchTwo, wf]
      rw [nonEmptySlots_single_set i hi (by simp)]
      simp [List.length_set, emptyChildren_length, wfList_set _ _ _ wfList_emptyChildren hwfleaf, hv2]
  | i :: ra, j :: rb =>
      have hi : i < 16 := (nibs_cons.mp ha).1
      have hj : j < 16 := (nibs_cons.mp hb).1
      have hij : j ≠ i := fun h => hdiv i ra j rb rfl rfl h.symm
      have hwfleaf1 : wf (.leaf ra v1) = true := by
        rw [wf, (nibs_cons.mp ha).2]
        simp [hv1]
      have hwfleaf2 : wf (.leaf rb v2) = true := by
        rw [wf, (nibs_cons.mp hb).2]
        simp [hv2]
      refine ⟨?_, by rw [branchTwo, isBranch]⟩
      rw [branchTwo, wf]
      rw [nonEmptySlots_double_set i j hi hj hij (by simp) (by simp)]
      simp [List.length_set, emptyChildren_length,
        wfList_set _ _ _ (wfList_set _ _ _ wfList_emptyChildren hwfleaf1) hwfleaf2]

theorem wf_splitExt (cp : Path) (j : Nat) (rest : Path) (c : Node) (b : Path) (v : Bytes)
    (hcp : nibs cp = true) (hj : j < 16) (hrest : nibs rest = true)
    (hc : wf c = true) (hbc : isBranch c = true) (hb : nibs b = true) (hv : v ≠ [])
    (hdiv : ∀ i rr, b = i :: rr → i ≠ j) :
    wf (splitExt cp j rest c b v) = true := by
  have holdwf : wf (oldChild rest c) = true := by
    cases rest with
    | nil => simpa [oldChild] using hc
    | cons a rs =>
        rw [oldChild, if_neg (by simp), wf]
        simp [hrest, hbc, hc]
  have holdne : oldChild rest c ≠ .empty := by
    cases rest with
    | nil => simpa [oldChild] using isBranch_ne_empty hbc
    | cons a rs =>
        rw [oldChild, if_neg (by simp)]
        simp
  cases b with
  | nil =>
      rw [splitExt]
      refine wf_extWrap hcp ?_ (by rw [isBranch])
      rw [wf, nonEmptySlots_single_set j hj holdne]
      simp [List.length_set, emptyChildren_length, wfList_set _ _ _ wfList_emptyChildren holdwf, hv]
  | cons i rr =>
      have hij : i ≠ j := hdiv i rr rfl
      have hi : i < 16 := (nibs_cons.mp hb).1
      have hwfleaf : wf (.leaf rr v) = true := by
        rw [wf, (nibs_cons.mp hb).2]
        simp [hv]
      rw [splitExt]
      refine wf_extWrap hcp ?_ (by rw [isBranch])
      rw [wf, nonEmptySlots_double_set j i hj hi hij holdne (by simp)]
      simp [List.length_set, emptyChildren_length,
        wfList_set _ _ _ (wfList_set _ _ _ wfList_emptyChildren holdwf) hwfleaf]

mutual
/-- Insertion of a non-empty value preserves well-formedness. -/
theorem wf_insert : ∀ (t : Node) (p : Path) (v : Bytes), wf t = true → nibs p = true →
    v ≠ [] → wf (insert t p v) = true
  | .empty, p, v, _, hp, hv => by
      rw [show insert .empty p v = .leaf p v by rw [insert], wf, hp]
      simp [hv]
  | .leaf lk lv, p, v, ht, hp, hv => by
      rw [wf, Bool.and_eq_true] at ht
      by_cases hpl : p = lk
      · rw [show insert (.leaf lk lv) p v = .leaf lk v by rw [insert, if_pos hpl], wf, ht.1]
        simp [hv]
      · rw [show insert (.leaf lk lv) p v
            = extWrap (commonPrefix lk p)
                (branchTwo (lk.drop (commonPrefix lk p).length) lv
                  (p.drop (commonPrefix lk p).length) v) by rw [insert, if_neg hpl]]
        have hlv : lv ≠ [] := by
          have := ht.2
          simpa using this
        have hne2 : ¬(lk.drop (commonPrefix lk p).length = []
            ∧ p.drop (commonPrefix lk p).length = []) := by
          rintro ⟨h1, h2⟩
          apply hpl
          have e1 : p = commonPrefix lk p := by
            conv_lhs => rw [eq_append_drop_of_pref (commonPrefix_prefix_right lk p)]
            rw [h2, List.append_nil]
          have e2 : lk = commonPrefix lk p := by
            conv_lhs => rw [eq_append_drop_of_pref (commonPrefix_prefix_left lk p)]
            rw [h1, List.append_nil]
          rw [e1, ← e2]
        have hbt := wf_branchTwo (lk.drop (commonPrefix lk p).length) lv
          (p.drop (commonPrefix lk p).length) v (nibs_drop ht.1 _) (nibs_drop hp _)
          hlv hv (fun i ra j rb h1 h2 => commonPrefix_diverge lk p i ra j rb h1 h2) hne2
        exact wf_extWrap (nibs_of_pref (commonPrefix_prefix_left lk p) ht.1) hbt.1 hbt.2
  | .ext ek c, p, v, ht, hp, hv => by
      simp only [wf, Bool.and_eq_true] at ht
      obtain ⟨⟨⟨hne, hnib⟩, hbr⟩, hwfc⟩ := ht
      by_cases hlen : (commonPrefix ek p).length = ek.length
      · rw [show insert (.ext ek c) p v = .ext ek (insert c (p.drop ek.length) v) by
          rw [insert, if_pos hlen], wf]
        rw [isBranch_insert hbr, wf_insert c (p.drop ek.length) v hwfc (nibs_drop hp _) hv,
          hne, hnib]
        simp
      · have hlt : (commonPrefix ek p).length < ek.length :=
          Nat.lt_of_le_of_ne (commonPrefix_prefix_left ek p).length_le hlen
        rw [show insert (.ext ek c) p v
            = splitExt (commonPrefix ek p) (ek.getD (commonPrefix ek p).length 0)
                (ek.drop ((commonPrefix ek p).length + 1)) c
                (p.drop (commonPrefix ek p).length) v by rw [insert, if_neg hlen]]
        have hdropek : ek.drop (commonPrefix ek p).length
            = ek.getD (commonPrefix ek p).length 0
              :: ek.drop ((commonPrefix ek p).length + 1) := by
          rw [List.getD_eq_getElem _ _ hlt]
          exact List.drop_eq_getElem_cons hlt
        have hj16 : ek.getD (commonPrefix ek p).length 0 < 16 := by
          have hnd := nibs_drop hnib (commonPrefix ek p).length
          rw [hdropek] at hnd
          exact (nibs_cons.mp hnd).1
        have hdiv : ∀ i rr, p.drop (commonPrefix ek p).length = i :: rr
            → i ≠ ek.getD (commonPrefix ek p).length 0 := by
          intro i rr hi
          have := commonPrefix_diverge ek p _ _ _ _ hdropek hi
          exact fun h => this (h ▸ rfl)
        exact wf_splitExt _ _ _ _ _ _
          (nibs_of_pref (commonPrefix_prefix_left ek p) hnib) hj16
          (nibs_drop hnib _) hwfc hbr (nibs_drop hp _) hv hdiv
  | .branch cs val, p, v, ht, hp, hv => by
      rw [wf, Bool.and_eq_true, Bool.and_eq_true, Bool.and_eq_true] at ht
      obtain ⟨⟨⟨hlen, hcs⟩, hcount⟩, hval⟩ := ht
      rw [beq_iff_eq] at hlen
      rw [decide_eq_true_eq] at hcount
      cases p with
      | nil =>
        rw [show insert (.branch cs val) [] v = .branch cs (some v) by rw [insert], wf, hcs]
        have h2 : (nonEmptySlots cs).length + 1 ≥ 2 := by
          rcases val with - | w <;> simp at hcount <;> omega
        simp [hlen, h2, hv]
      | cons i r =>
        rw [show insert (.branch cs val) (i :: r) v = .branch (insertList cs i r v) val by
          rw [insert], wf]
        have hle := nonEmptySlotsFrom_insertList_le cs i r v 0
        rw [length_insertList,
          wfList_insertList cs i r v hcs (nibs_cons.mp hp).2 hv]
        have hcount' : (nonEmptySlots (insertList cs i r v)).length
            + (if val.isSome then 1 else 0) ≥ 2 := by
          have hle' : (nonEmptySlots cs).length
              ≤ (nonEmptySlots (insertList cs i r v)).length := hle
          omega
        rcases val with - | w
        · simp only [Option.isSome_none, Bool.false_eq_true, if_false] at hcount'
          simp [hlen]
          omega
        · have hw : w ≠ [] := by simpa using hval
          simp only [Option.isSome_some, if_true] at hcount'
          simp [hlen, hcount', hw]
/-- Slot insertion of a non-empty value preserves slot well-formedness. -/
theorem wfList_insertList : ∀ (cs : List Node) (i : Nat) (r : Path) (v : Bytes),
    wfList cs = true → nibs r = true → v ≠ [] → wfList (insertList cs i r v) = true
  | [], _, _, _, h, _, _ => h
  | c :: cs, 0, r, v, h, hr, hv => by
      rw [wfList, Bool.and_eq_true] at h
      rw [show insertList (c :: cs) 0 r v = insert c r v :: cs by rw [insertList], wfList,
        wf_insert c r v h.1 hr hv, h.2]
      rfl
  | c :: cs, i + 1, r, v, h, hr, hv => by
      rw [wfList, Bool.and_eq_true] at h
      rw [show insertList (c :: cs) (i + 1) r v = c :: insertList cs i r v by rw [insertList],
        wfList, h.1, wfList_insertList cs i r v h.2 hr hv]
      rfl
end

end MPT

namespace MPT

theorem nibs_append {a b : Path} : nibs (a ++ b) = true ↔ nibs a = true ∧ nibs b = true := by
  simp [nibs]

theorem nonEmptySlotsFrom_nil_getList : ∀ (cs : List Node) (i0 : Nat),
    nonEmptySlotsFrom cs i0 = [] → ∀ (j : Nat) (r : Path), getList cs j r = none
  | [], _, _, j, r => by rw [getList]
  | c :: cs, i0, h, j, r => by
      rw [nonEmptySlotsFrom] at h
      rw [List.append_eq_nil] at h
      have hc : c = .empty := by
        by_contra hc
        rw [if_neg hc] at h
        exact List.noConfusion h.1
      cases j with
      | zero =>
          rw [getList, hc]
          rfl
      | succ j => exact nonEmptySlotsFrom_nil_getList cs (i0 + 1) h.2 j r

theorem nonEmptySlotsFrom_mem : ∀ (cs : List Node) (i0 j : Nat) (c : Node),
    (j, c) ∈ nonEmptySlotsFrom cs i0 → c ∈ cs ∧ c ≠ .empty ∧ i0 ≤ j ∧ j - i0 < cs.length
  | [], _, _, _, h => by simp [nonEmptySlotsFrom] at h
  | c0 :: cs, i0, j, c, h => by
      rw [nonEmptySlotsFrom, List.mem_append] at h
      rcases h with h | h
      · by_cases hc0 : c0 = .empty
        · rw [if_pos hc0] at h
          simp at h
        · rw [if_neg hc0] at h
          simp at h
          obtain ⟨rfl, rfl⟩ := h
          exact ⟨List.mem_cons_self _ _, hc0, Nat.le_refl _, by simp⟩
      · obtain ⟨hmem, hne, h1, h2⟩ := nonEmptySlotsFrom_mem cs (i0 + 1) j c h
        exact ⟨List.mem_cons_of_mem _ hmem, hne, by omega, by simp; omega⟩

theorem nonEmptySlotsFrom_singleton_getList : ∀ (cs : List Node) (i0 j : Nat) (c : Node),
    nonEmptySlotsFrom cs i0 = [(j, c)] →
    ∀ (j' : Nat) (r : Path), getList cs j' r = if i0 + j' = j then get c r else none
  | [], _, _, _, h, _, _ => by rw [nonEmptySlotsFrom] at h; exact absurd h (by simp)
  | c0 :: cs, i0, j, c, h, j', r => by
      rw [nonEmptySlotsFrom] at h
      by_cases hc0 : c0 = .empty
      · rw [if_pos hc0, List.nil_append] at h
        have hbound := nonEmptySlotsFrom_mem cs (i0 + 1) j c (by rw [h]; simp)
        cases j' with
        | zero =>
            rw [getList, hc0]
            rw [if_neg (by omega)]
            rfl
        | succ j' =>
            rw [getList, nonEmptySlotsFrom_singleton_getList cs (i0 + 1) j c h j' r]
            by_cases hj : i0 + 1 + j' = j
            · rw [if_pos hj, if_pos (by omega)]
            · rw [if_neg hj, if_neg (by omega)]
      · rw [if_neg hc0] at h
        rw [List.singleton_append, List.cons_eq_cons] at h
        obtain ⟨heq, hnil⟩ := h
        injection heq with h1 h2
        subst h1
        subst h2
        cases j' with
        | zero =>
            rw [getList, if_pos (by omega)]
        | succ j' =>
            rw [getList, nonEmptySlotsFrom_nil_getList cs (i0 + 1) hnil j' r,
              if_neg (by omega)]

/-- `nonEmptySlots` membership gives an in-range, non-empty, stored child. -/
theorem nonEmptySlots_mem {cs : List Node} {j : Nat} {c : Node}
    (h : (j, c) ∈ nonEmptySlots cs) : c ∈ cs ∧ c ≠ .empty ∧ j < cs.length := by
  rw [nonEmptySlots] at h
  have := nonEmptySlotsFrom_mem cs 0 j c h
  exact ⟨this.1, this.2.1, by omega⟩

/-- A child list with a single non-empty slot looks up only through it. -/
theorem nonEmptySlots_singleton_getList {cs : List Node} {j : Nat} {c : Node}
    (h : nonEmptySlots cs = [(j, c)]) :
    ∀ (j' : Nat) (r : Path), getList cs j' r = if j' = j then get c r else none := by
  rw [nonEmptySlots] at h
  intro j' r
  rw [nonEmptySlotsFrom_singleton_getList cs 0 j c h j' r]
  by_cases hj : j' = j
  · rw [if_pos (by omega), if_pos hj]
  · rw [if_neg (by omega), if_neg hj]

theorem nonEmptySlots_nil_getList {cs : List Node} (h : nonEmptySlots cs = []) :
    ∀ (j : Nat) (r : Path), getList cs j r = none := by
  rw [nonEmptySlots] at h
  exact nonEmptySlotsFrom_nil_getList cs 0 h

/-- Lookup is unchanged by the deletion path-merge. -/
theorem get_mergeExt : ∀ (k : Path) (x : Node) (q : Path),
    get (mergeExt k x) q = get (.ext k x) q
  | k, .empty, q => by
      rw [mergeExt, get_ext_eval]
      by_cases h : k <+: q <;> simp [h, get]
  | k, .leaf k' v', q => by
      rw [mergeExt, get_ext_eval]
      by_cases h : k <+: q
      · rw [if_pos h]
        by_cases h2 : q.drop k.length = k'
        · have hq : q = k ++ k' := by
            rw [eq_append_drop_of_pref h, h2]
          simp [get, hq, h2]
        · have hq : q ≠ k ++ k' := by
            intro hh
            rw [hh, List.drop_left] at h2
            exact h2 rfl
          simp [get, hq, h2]
      · have hq : q ≠ k ++ k' := by
          intro hh
          exact h (hh ▸ List.prefix_append k k')
        simp [get, hq, h]
  | k, .ext k' c, q => by
      rw [mergeExt, get_ext_append, get_ext_eval]
      by_cases h : k <+: q <;> simp [h, get_ext_eval]
  | k, .branch cs v, q => by rw [mergeExt]

/-- Lifting a child rewrite through an extension level. -/
theorem get_ext_level (k : Path) (c x : Node) (p q : Path) (hkp : k <+: p)
    (hx : ∀ q', get x q' = if q' = p.drop k.length then none else get c q') :
    get (.ext k x) q = if q = p then none else get (.ext k c) q := by
  rw [get_ext_eval]
  by_cases hqp : q = p
  · subst hqp
    rw [if_pos hkp, hx, if_pos rfl, if_pos rfl]
  · rw [if_neg hqp, get_ext_eval]
    by_cases hq : k <+: q
    · rw [if_pos hq, if_pos hq, hx,
        if_neg (fun h => hqp (by
          rw [eq_append_drop_of_pref hq, h, ← eq_append_drop_of_pref hkp]))]
    · rw [if_neg hq, if_neg hq]

/-- Branch normalization does not change lookup. -/
theorem get_fixBranch (cs : List Node) (val : Option Bytes) (q : Path) :
    get (fixBranch cs val) q = get (.branch cs val) q := by
  rcases h : nonEmptySlots cs with - | ⟨⟨j, c⟩, rest⟩
  · rcases val with - | v
    · rw [show fixBranch cs none = .empty by rw [fixBranch.eq_def, h]]
      cases q with
      | nil => rfl
      | cons j r =>
          rw [show get (.branch cs none) (j :: r) = getList cs j r from rfl,
            nonEmptySlots_nil_getList h j r]
          rfl
    · rw [show fixBranch cs (some v) = .leaf [] v by rw [fixBranch.eq_def, h]]
      cases q with
      | nil => rfl
      | cons j r =>
          rw [show get (.branch cs (some v)) (j :: r) = getList cs j r from rfl,
            nonEmptySlots_nil_getList h j r]
          simp [get]
  · rcases rest with - | ⟨e2, rest⟩
    · rcases val with - | v
      · rw [show fixBranch cs none = mergeSlot j c by rw [fixBranch.eq_def, h]]
        have hget := nonEmptySlots_singleton_getList h
        have hmem := nonEmptySlots_mem (h ▸ List.mem_singleton.mpr rfl)
        cases hc : c with
        | empty => exact absurd hc hmem.2.1
        | leaf k v =>
            rw [mergeSlot]
            cases q with
            | nil => rfl
            | cons h' r =>
                rw [show get (.branch cs none) (h' :: r) = getList cs h' r from rfl, hget]
                by_cases hh : h' = j
                · subst hh
                  rw [if_pos rfl, hc]
                  by_cases hr : r = k <;> simp [get, hr]
                · rw [if_neg hh]
                  have hr : ¬(h' :: r = j :: k) := by
                    intro hr
                    injection hr with hr1 hr2
                    exact hh hr1
                  simp [get, hr]
        | ext k c' =>
            rw [mergeSlot]
            cases q with
            | nil => rfl
            | cons h' r =>
                rw [show get (.branch cs none) (h' :: r) = getList cs h' r from rfl, hget,
                  get_ext_eval]
                by_cases hh : h' = j
                · subst hh
                  rw [if_pos rfl, hc, get_ext_eval]
                  by_cases hr : k <+: r
                  · rw [if_pos hr, if_pos (by rw [List.cons_prefix_cons]; exact ⟨rfl, hr⟩)]
                    simp
                  · rw [if_neg hr, if_neg (by
                      rw [List.cons_prefix_cons]
                      rintro ⟨-, hrr⟩
                      exact hr hrr)]
                · rw [if_neg hh, if_neg (by
                    rw [List.cons_prefix_cons]
                    rintro ⟨hj, -⟩
                    exact hh hj.symm)]
        | branch cs' v' =>
            rw [mergeSlot]
            cases q with
            | nil => rfl
            | cons h' r =>
                rw [show get (.branch cs none) (h' :: r) = getList cs h' r from rfl, hget,
                  get_ext_eval]
                by_cases hh : h' = j
                · subst hh
                  rw [if_pos rfl, hc,
                    if_pos (by rw [List.cons_prefix_cons]; exact ⟨rfl, List.nil_prefix⟩)]
                  simp
                · rw [if_neg (show ¬([j] <+: h' :: r) by
                    rw [List.cons_prefix_cons]
                    rintro ⟨hj, -⟩
                    exact hh hj.symm), if_neg hh]
      · rw [show fixBranch cs (some v) = .branch cs (some v) by rw [fixBranch.eq_def, h]]
    · rw [show fixBranch cs val = .branch cs val by rw [fixBranch.eq_def, h]]

end MPT

namespace MPT

mutual
/-- Semantics of deletion: exactly the deleted key disappears. -/
theorem get_delete : ∀ (t : Node) (p : Path), wf t = true →
    ∀ q, get (delete t p) q = if q = p then none else get t q
  | .empty, p, _, q => by
      rw [show delete .empty p = .empty by rw [delete]]
      by_cases h : q = p <;> simp [h, get]
  | .leaf k v, p, _, q => by
      by_cases hpk : p = k
      · subst hpk
        rw [show delete (.leaf p v) p = .empty by rw [delete, if_pos rfl]]
        by_cases h : q = p <;> simp [h, get]
      · rw [show delete (.leaf k v) p = .leaf k v by rw [delete, if_neg hpk]]
        by_cases h : q = p
        · subst h
          simp [get, hpk]
        · rw [if_neg h]
  | .ext k c, p, ht, q => by
      simp only [wf, Bool.and_eq_true] at ht
      obtain ⟨⟨⟨hne, hnib⟩, hbr⟩, hwfc⟩ := ht
      by_cases hkp : k <+: p
      · rw [show delete (.ext k c) p = mergeExt k (delete c (p.drop k.length)) by
          rw [delete, if_pos (by rwa [List.isPrefixOf_iff_prefix])]]
        rw [get_mergeExt]
        exact get_ext_level k c (delete c (p.drop k.length)) p q hkp
          (get_delete c (p.drop k.length) hwfc)
      · rw [show delete (.ext k c) p = .ext k c by
          rw [delete, if_neg (by rwa [List.isPrefixOf_iff_prefix])]]
        by_cases hqp : q = p
        · subst hqp
          rw [if_pos rfl, get_ext_eval, if_neg hkp]
        · rw [if_neg hqp]
  | .branch cs val, [], ht, q => by
      simp only [wf, Bool.and_eq_true] at ht
      rw [show delete (.branch cs val) [] = fixBranch cs none by rw [delete], get_fixBranch]
      cases q with
      | nil => rfl
      | cons j r => rw [if_neg (by simp)]; rfl
  | .branch cs val, i :: r, ht, q => by
      simp only [wf, Bool.and_eq_true] at ht
      obtain ⟨⟨⟨hlen, hcs⟩, -⟩, -⟩ := ht
      rw [show delete (.branch cs val) (i :: r) = fixBranch (deleteList cs i r) val by
        rw [delete], get_fixBranch]
      cases q with
      | nil => rw [if_neg (by simp)]; rfl
      | cons j q' =>
          rw [show get (.branch (deleteList cs i r) val) (j :: q')
              = getList (deleteList cs i r) j q' from rfl,
            getList_deleteList cs i r hcs j q']
          by_cases h : j = i ∧ q' = r
          · rw [if_pos h, if_pos (by rw [h.1, h.2])]
          · rw [if_neg h, if_neg (by
              intro hh
              injection hh with h1 h2
              exact h ⟨h1, h2⟩)]
            rfl
/-- Semantics of slot deletion: only slot `i` changes, by `delete`. -/
theorem getList_deleteList : ∀ (cs : List Node) (i : Nat) (r : Path),
    wfList cs = true →
    ∀ j q, getList (deleteList cs i r) j q = if j = i ∧ q = r then none else getList cs j q
  | [], i, r, _, j, q => by
      rw [show deleteList [] i r = [] by rw [deleteList]]
      by_cases h : j = i ∧ q = r <;> simp [h, getList]
  | c :: cs, 0, r, hcs, j, q => by
      rw [wfList, Bool.and_eq_true] at hcs
      rw [show deleteList (c :: cs) 0 r = delete c r :: cs by rw [deleteList]]
      cases j with
      | zero =>
          rw [show getList (delete c r :: cs) 0 q = get (delete c r) q from rfl,
            show getList (c :: cs) 0 q = get c q from rfl,
            get_delete c r hcs.1 q]
          by_cases h : q = r <;> simp [h]
      | succ j =>
          rw [show getList (delete c r :: cs) (j + 1) q = getList cs j q from rfl,
            show getList (c :: cs) (j + 1) q = getList cs j q from rfl]
          simp
  | c :: cs, i + 1, r, hcs, j, q => by
      rw [wfList, Bool.and_eq_true] at hcs
      rw [show deleteList (c :: cs) (i + 1) r = c :: deleteList cs i r by rw [deleteList]]
      cases j with
      | zero =>
          rw [show getList (c :: deleteList cs i r) 0 q = get c q from rfl,
            show getList (c :: cs) 0 q = get c q from rfl]
          simp
      | succ j =>
          rw [show getList (c :: deleteList cs i r) (j + 1) q = getList (deleteList cs i r) j q
              from rfl,
            show getList (c :: cs) (j + 1) q = getList cs j q from rfl,
            getList_deleteList cs i r hcs.2 j q]
          by_cases h : j = i ∧ q = r
          · rw [if_pos h, if_pos ⟨by rw [h.1], h.2⟩]
          · rw [if_neg h, if_neg (by
              intro hh
              injection hh.1 with h1
              exact h ⟨h1, hh.2⟩)]
end

end MPT

namespace MPT

theorem length_deleteList : ∀ (cs : List Node) (i : Nat) (r : Path),
    (deleteList cs i r).length = cs.length
  | [], _, _ => by rw [deleteList]
  | c :: cs, 0, r => by rw [deleteList, List.length_cons, List.length_cons]
  | c :: cs, i + 1, r => by
      rw [deleteList, List.length_cons, List.length_cons, length_deleteList cs i r]

/-- Merging a slot-collapse preserves well-formedness. -/
theorem wf_mergeSlot {j : Nat} {c : Node} (hj : j < 16) (hc : wf c = true)
    (hne : c ≠ .empty) : wf (mergeSlot j c) = true := by
  cases c with
  | empty => exact absurd rfl hne
  | leaf k v =>
      rw [wf, Bool.and_eq_true] at hc
      rw [mergeSlot, wf]
      rw [show nibs (j :: k) = true from nibs_cons.mpr ⟨hj, hc.1⟩, hc.2]
      rfl
  | ext k c' =>
      simp only [wf, Bool.and_eq_true] at hc
      obtain ⟨⟨⟨-, hnib⟩, hbr⟩, hwf⟩ := hc
      rw [mergeSlot, wf]
      rw [show nibs (j :: k) = true from nibs_cons.mpr ⟨hj, hnib⟩, hbr, hwf]
      rfl
  | branch cs v =>
      rw [mergeSlot, wf]
      rw [show nibs [j] = true from nibs_cons.mpr ⟨hj, rfl⟩, hc]
      rfl

/-- Path merging preserves well-formedness. -/
theorem wf_mergeExt {k : Path} {x : Node} (hk : nibs k = true) (hkne : k ≠ [])
    (hx : wf x = true) : wf (mergeExt k x) = true := by
  cases x with
  | empty => rw [mergeExt, wf]
  | leaf k' v' =>
      rw [wf, Bool.and_eq_true] at hx
      rw [mergeExt, wf, nibs_append.mpr ⟨hk, hx.1⟩, hx.2]
      rfl
  | ext k' c =>
      simp only [wf, Bool.and_eq_true] at hx
      obtain ⟨⟨⟨hne', hnib'⟩, hbr⟩, hwf⟩ := hx
      rw [mergeExt, wf, nibs_append.mpr ⟨hk, hnib'⟩, hbr, hwf]
      have : k ++ k' ≠ [] := by
        cases k with
        | nil => exact absurd rfl hkne
        | cons a as => simp
      simp [this]
  | branch cs v =>
      rw [mergeExt, wf, hk, hx]
      simp [hkne, isBranch]

/-- Branch normalization preserves well-formedness. -/
theorem wf_fixBranch (cs : List Node) (val : Option Bytes) (hlen : cs.length = 16)
    (hcs : wfList cs = true) (hval : (val != some []) = true) :
    wf (fixBranch cs val) = true := by
  rcases h : nonEmptySlots cs with - | ⟨⟨j, c⟩, rest⟩
  · rcases val with - | v
    · rw [show fixBranch cs none = .empty by rw [fixBranch.eq_def, h], wf]
    · rw [show fixBranch cs (some v) = .leaf [] v by rw [fixBranch.eq_def, h], wf]
      have hv : v ≠ [] := by simpa using hval
      simp [nibs, hv]
  · rcases rest with - | ⟨e2, rest⟩
    · rcases val with - | v
      · rw [show fixBranch cs none = mergeSlot j c by rw [fixBranch.eq_def, h]]
        have hmem := nonEmptySlots_mem (h ▸ List.mem_singleton.mpr rfl)
        exact wf_mergeSlot (by omega) (wfList_iff.mp hcs c hmem.1) hmem.2.1
      · rw [show fixBranch cs (some v) = .branch cs (some v) by rw [fixBranch.eq_def, h], wf,
          hcs, h]
        have hv : v ≠ [] := by simpa using hval
        simp [hlen, hv]
    · rw [show fixBranch cs val = .branch cs val by rw [fixBranch.eq_def, h], wf, hcs, h]
      rcases val with - | v
      · simp [hlen]
      · have hv : v ≠ [] := by simpa using hval
        simp [hlen, hv]

mutual
/-- Deletion preserves well-formedness. -/
theorem wf_delete : ∀ (t : Node) (p : Path), wf t = true → wf (delete t p) = true
  | .empty, p, _ => by rw [show delete .empty p = .empty by rw [delete], wf]
  | .leaf k v, p, ht => by
      by_cases hpk : p = k
      · rw [show delete (.leaf k v) p = .empty by rw [delete, if_pos hpk], wf]
      · rwa [show delete (.leaf k v) p = .leaf k v by rw [delete, if_neg hpk]]
  | .ext k c, p, ht => by
      simp only [wf, Bool.and_eq_true] at ht
      obtain ⟨⟨⟨hne, hnib⟩, hbr⟩, hwfc⟩ := ht
      by_cases hkp : k <+: p
      · rw [show delete (.ext k c) p = mergeExt k (delete c (p.drop k.length)) by
          rw [delete, if_pos (by rwa [List.isPrefixOf_iff_prefix])]]
        exact wf_mergeExt hnib (by simpa using hne) (wf_delete c (p.drop k.length) hwfc)
      · rw [show delete (.ext k c) p = .ext k c by
          rw [delete, if_neg (by rwa [List.isPrefixOf_iff_prefix])], wf, hne, hnib, hbr, hwfc]
        rfl
  | .branch cs val, [], ht => by
      simp only [wf, Bool.and_eq_true, beq_iff_eq] at ht
      obtain ⟨⟨⟨hlen, hcs⟩, -⟩, -⟩ := ht
      rw [show delete (.branch cs val) [] = fixBranch cs none by rw [delete]]
      exact wf_fixBranch cs none hlen hcs rfl
  | .branch cs val, i :: r, ht => by
      simp only [wf, Bool.and_eq_true, beq_iff_eq] at ht
      obtain ⟨⟨⟨hlen, hcs⟩, -⟩, hval⟩ := ht
      rw [show delete (.branch cs val) (i :: r) = fixBranch (deleteList cs i r) val by
        rw [delete]]
      exact wf_fixBranch (deleteList cs i r) val (by rw [length_deleteList]; exact hlen)
        (wfList_deleteList cs i r hcs) hval
/-- Slot deletion preserves slot well-formedness. -/
theorem wfList_deleteList : ∀ (cs : List Node) (i : Nat) (r : Path),
    wfList cs = true → wfList (deleteList cs i r) = true
  | [], _, _, h => h
  | c :: cs, 0, r, h => by
      rw [wfList, Bool.and_eq_true] at h
      rw [show deleteList (c :: cs) 0 r = delete c r :: cs by rw [deleteList], wfList,
        wf_delete c r h.1, h.2]
      rfl
  | c :: cs, i + 1, r, h => by
      rw [wfList, Bool.and_eq_true] at h
      rw [show deleteList (c :: cs) (i + 1) r = c :: deleteList cs i r by rw [deleteList],
        wfList, h.1, wfList_deleteList cs i r h.2]
      rfl
end

end MPT

namespace MPT

theorem getList_of_mem_nonEmptySlotsFrom : ∀ (cs : List Node) (i0 j : Nat) (c : Node),
    (j, c) ∈ nonEmptySlotsFrom cs i0 → ∀ r, getList cs (j - i0) r = get c r
  | [], _, _, _, h => by simp [nonEmptySlotsFrom] at h
  | c0 :: cs, i0, j, c, h => by
      intro r
      rw [nonEmptySlotsFrom, List.mem_append] at h
      rcases h with h | h
      · by_cases hc0 : c0 = .empty
        · rw [if_pos hc0] at h
          simp at h
        · rw [if_neg hc0] at h
          simp at h
          obtain ⟨rfl, rfl⟩ := h
          simp [getList]
      · have hge := (nonEmptySlotsFrom_mem cs (i0 + 1) j c h).2.2.1
        have := getList_of_mem_nonEmptySlotsFrom cs (i0 + 1) j c h r
        rw [show j - i0 = (j - (i0 + 1)) + 1 by omega, getList]
        exact this

theorem getList_of_mem_nonEmptySlots {cs : List Node} {j : Nat} {c : Node}
    (h : (j, c) ∈ nonEmptySlots cs) : ∀ r, getList cs j r = get c r := by
  intro r
  have := getList_of_mem_nonEmptySlotsFrom cs 0 j c h r
  simpa using this

/-- Every well-formed non-empty node maps at least one key. -/
theorem wf_key_exists_aux : ∀ (n : Nat) (t : Node), sizeOf t ≤ n → wf t = true →
    t ≠ .empty → ∃ p v, get t p = some v := by
  intro n
  induction n with
  | zero =>
      intro t hs
      cases t <;> simp at hs
  | succ n ih =>
      intro t hs ht hne
      match t with
      | .leaf k v => exact ⟨k, v, by simp [get]⟩
      | .ext k c =>
          simp only [wf, Bool.and_eq_true] at ht
          obtain ⟨⟨⟨-, -⟩, hbr⟩, hwfc⟩ := ht
          have hsz : sizeOf c ≤ n := by
            have := Node.ext.sizeOf_spec k c
            omega
          obtain ⟨p, v, hp⟩ := ih c hsz hwfc (isBranch_ne_empty hbr)
          refine ⟨k ++ p, v, ?_⟩
          rw [get_ext_eval, if_pos (List.prefix_append k p), List.drop_left]
          exact hp
      | .branch cs val =>
          simp only [wf, Bool.and_eq_true, beq_iff_eq] at ht
          obtain ⟨⟨⟨hlen, hcs⟩, hcount⟩, -⟩ := ht
          rw [decide_eq_true_eq] at hcount
          rcases hv : val with - | v
          · subst hv
            rcases hslots : nonEmptySlots cs with - | ⟨⟨j, c⟩, rest⟩
            · rw [hslots] at hcount
              simp at hcount
            · have hmem : (j, c) ∈ nonEmptySlots cs := by
                rw [hslots]
                exact List.mem_cons_self _ _
              obtain ⟨hcmem, hcne, -⟩ := nonEmptySlots_mem hmem
              have hwfc : wf c = true := wfList_iff.mp hcs c hcmem
              have hsz : sizeOf c ≤ n := by
                have h1 := List.sizeOf_lt_of_mem hcmem
                have h2 := Node.branch.sizeOf_spec cs none
                omega
              obtain ⟨p, v, hp⟩ := ih c hsz hwfc hcne
              refine ⟨j :: p, v, ?_⟩
              rw [show get (.branch cs none) (j :: p) = getList cs j p from rfl,
                getList_of_mem_nonEmptySlots hmem p]
              exact hp
          · exact ⟨[], v, rfl⟩

theorem wf_key_exists {t : Node} (ht : wf t = true) (hne : t ≠ .empty) :
    ∃ p v, get t p = some v :=
  wf_key_exists_aux (sizeOf t) t (Nat.le_refl _) ht hne

/-- Two paths differing at their very first position (also when one ends). -/
def FirstDiff : Path → Path → Prop
  | [], [] => False
  | [], _ :: _ => True
  | _ :: _, [] => True
  | a :: _, b :: _ => a ≠ b

theorem FirstDiff.ne : ∀ {p1 p2 : Path}, FirstDiff p1 p2 → p1 ≠ p2
  | [], [], h => absurd h (by simp [FirstDiff])
  | [], _ :: _, _ => by simp
  | _ :: _, [], _ => by simp
  | a :: _, b :: _, h => by
      intro he
      injection he with h1 h2
      exact h h1

theorem FirstDiff.no_common_prefix : ∀ {p1 p2 d : Path}, FirstDiff p1 p2 →
    d <+: p1 → d <+: p2 → d = []
  | _, _, [], _, _, _ => rfl
  | p1, p2, e :: d', hd, h1, h2 => by
      cases p1 with
      | nil => exact absurd (List.prefix_nil.mp h1) (by simp)
      | cons a p1' =>
          cases p2 with
          | nil => exact absurd (List.prefix_nil.mp h2) (by simp)
          | cons b p2' =>
              rw [List.cons_prefix_cons] at h1 h2
              exact absurd (h1.1.symm.trans h2.1) hd

theorem nonEmptySlotsFrom_pairwise : ∀ (cs : List Node) (i0 : Nat),
    List.Pairwise (fun a b => a.1 < b.1) (nonEmptySlotsFrom cs i0)
  | [], _ => List.Pairwise.nil
  | c :: cs, i0 => by
      rw [nonEmptySlotsFrom]
      rw [List.pairwise_append]
      refine ⟨?_, nonEmptySlotsFrom_pairwise cs (i0 + 1), ?_⟩
      · by_cases hc : c = .empty <;> simp [hc]
      · intro a ha b hb
        have hbge := (nonEmptySlotsFrom_mem cs (i0 + 1) b.1 b.2 (by simpa using hb)).2.2.1
        by_cases hc : c = .empty
        · rw [if_pos hc] at ha
          simp at ha
        · rw [if_neg hc] at ha
          simp at ha
          rw [show a.1 = i0 by rw [ha]]
          omega

/-- A well-formed branch maps two keys that differ at their first nibble
(or one of which is empty). -/
theorem branch_two_keys (cs : List Node) (val : Option Bytes)
    (ht : wf (.branch cs val) = true) :
    ∃ p1 v1 p2 v2, get (.branch cs val) p1 = some v1
      ∧ get (.branch cs val) p2 = some v2 ∧ FirstDiff p1 p2 := by
  have ht' := ht
  simp only [wf, Bool.and_eq_true, beq_iff_eq] at ht'
  obtain ⟨⟨⟨hlen, hcs⟩, hcount⟩, -⟩ := ht'
  rw [decide_eq_true_eq] at hcount
  have childkey : ∀ j c, (j, c) ∈ nonEmptySlots cs →
      ∃ p v, get (.branch cs val) (j :: p) = some v := by
    intro j c hmem
    obtain ⟨hcmem, hcne, -⟩ := nonEmptySlots_mem hmem
    obtain ⟨p, v, hp⟩ := wf_key_exists (wfList_iff.mp hcs c hcmem) hcne
    refine ⟨p, v, ?_⟩
    rw [show get (.branch cs val) (j :: p) = getList cs j p from rfl,
      getList_of_mem_nonEmptySlots hmem p]
    exact hp
  rcases hslots : nonEmptySlots cs with - | ⟨⟨j1, c1⟩, rest⟩
  · rw [hslots] at hcount
    rcases val with - | v <;> simp at hcount
  · rcases rest with - | ⟨⟨j2, c2⟩, rest⟩
    · rcases hv : val with - | v
      · rw [hslots, hv] at hcount
        simp at hcount
      · obtain ⟨p, w, hp⟩ := childkey j1 c1 (by rw [hslots]; exact List.mem_cons_self _ _)
        exact ⟨[], v, j1 :: p, w, rfl, hp, by simp [FirstDiff]⟩
    · have hj12 : j1 < j2 := by
        have := nonEmptySlotsFrom_pairwise cs 0
        rw [show nonEmptySlotsFrom cs 0 = nonEmptySlots cs from rfl, hslots] at this
        have := List.pairwise_cons.mp this
        exact this.1 (j2, c2) (List.mem_cons_self _ _)
      obtain ⟨p1, w1, hp1⟩ := childkey j1 c1 (by rw [hslots]; exact List.mem_cons_self _ _)
      obtain ⟨p2, w2, hp2⟩ := childkey j2 c2 (by
        rw [hslots]
        exact List.mem_cons_of_mem _ (List.mem_cons_self _ _))
      exact ⟨j1 :: p1, w1, j2 :: p2, w2, hp1, hp2, by
        simp [FirstDiff]
        omega⟩

end MPT

namespace MPT

theorem get_ext_lift {k : Path} {c : Node} {x : Path} {v : Bytes}
    (h : get c x = some v) : get (.ext k c) (k ++ x) = some v := by
  rw [get_ext_eval, if_pos (List.prefix_append k x), List.drop_left]
  exact h

theorem ext_key_prefix_of_some {k : Path} {c : Node} {p : Path} {v : Bytes}
    (h : get (.ext k c) p = some v) : k <+: p := by
  rw [get_ext_eval] at h
  by_contra hk
  rw [if_neg hk] at h
  exact Option.noConfusion h

theorem prefix_of_append_of_length_le {x a b : List Nat} (h : x <+: a ++ b)
    (hl : x.length ≤ a.length) : x <+: a := by
  obtain ⟨t, ht⟩ := h
  have hx : x = (a ++ b).take x.length := by
    rw [← ht, List.take_left]
  rw [hx, List.take_append_of_le_length hl]
  exact List.take_prefix _ _

/-- If every key of a well-formed extension has `k'` as a prefix, then `k'`
is a prefix of the extension's own path: the child branch diverges
immediately, so no common prefix extends past it. -/
theorem ext_key_prefix {k : Path} {c : Node} (ht : wf (.ext k c) = true) {k' : Path}
    (hsub : ∀ p v, get (.ext k c) p = some v → k' <+: p) : k' <+: k := by
  have ht' := ht
  simp only [wf, Bool.and_eq_true] at ht'
  obtain ⟨⟨⟨-, -⟩, hbr⟩, hwfc⟩ := ht'
  match c, hbr with
  | .branch cs val, _ =>
    obtain ⟨x1, v1, x2, v2, h1, h2, hdiff⟩ := branch_two_keys cs val hwfc
    have hk1 : k' <+: k ++ x1 := hsub _ _ (get_ext_lift h1)
    have hk2 : k' <+: k ++ x2 := hsub _ _ (get_ext_lift h2)
    by_cases hl : k'.length ≤ k.length
    · exact prefix_of_append_of_length_le hk1 hl
    · exfalso
      have hkk' : k <+: k' :=
        List.prefix_of_prefix_length_le (List.prefix_append k x1) hk1 (by omega)
      have hd : ∀ x, k' <+: k ++ x → k'.drop k.length <+: x := by
        intro x hx
        have h' := (append_prefix_iff k (k'.drop k.length) (k ++ x)).mp
          (by rw [← eq_append_drop_of_pref hkk']; exact hx)
        rw [List.drop_left] at h'
        exact h'.2
      have hnil : k'.drop k.length = [] :=
        hdiff.no_common_prefix (hd x1 hk1) (hd x2 hk2)
      have := List.length_drop k.length k'
      rw [hnil] at this
      simp at this
      omega

theorem ext_sem_key_det {k k' : Path} {c c' : Node}
    (h1 : wf (.ext k c) = true) (h2 : wf (.ext k' c') = true)
    (hsem : ∀ q, get (.ext k c) q = get (.ext k' c') q) : k = k' := by
  have ha : k' <+: k := ext_key_prefix h1
    (fun p v hp => ext_key_prefix_of_some (p := p) (by rw [← hsem p]; exact hp))
  have hb : k <+: k' := ext_key_prefix h2
    (fun p v hp => ext_key_prefix_of_some (p := p) (by rw [hsem p]; exact hp))
  exact hb.eq_of_length (Nat.le_antisymm hb.length_le ha.length_le)

theorem sem_none_imp_empty {t : Node} (ht : wf t = true) (h : ∀ q, get t q = none) :
    t = .empty := by
  by_contra hne
  obtain ⟨p, v, hp⟩ := wf_key_exists ht hne
  rw [h p] at hp
  exact Option.noConfusion hp

theorem leaf_key {k : Path} {v : Bytes} {p : Path} {w : Bytes}
    (h : get (.leaf k v) p = some w) : p = k ∧ w = v := by
  rw [show get (.leaf k v) p = if p = k then some v else none from rfl] at h
  by_cases hp : p = k
  · rw [if_pos hp] at h
    injection h with h
    exact ⟨hp, h.symm⟩
  · rw [if_neg hp] at h
    exact Option.noConfusion h

/-- A well-formed extension maps two distinct keys. -/
theorem ext_two_keys (k : Path) (c : Node) (ht : wf (.ext k c) = true) :
    ∃ p1 v1 p2 v2, p1 ≠ p2 ∧ get (.ext k c) p1 = some v1
      ∧ get (.ext k c) p2 = some v2 := by
  have ht' := ht
  simp only [wf, Bool.and_eq_true] at ht'
  obtain ⟨⟨⟨-, -⟩, hbr⟩, hwfc⟩ := ht'
  match c, hbr with
  | .branch cs val, _ =>
    obtain ⟨x1, v1, x2, v2, h1, h2, hdiff⟩ := branch_two_keys cs val hwfc
    exact ⟨k ++ x1, v1, k ++ x2, v2,
      fun h => hdiff.ne (List.append_cancel_left h), get_ext_lift h1, get_ext_lift h2⟩

/-- A well-formed branch maps two distinct keys. -/
theorem branch_two_keys_ne (cs : List Node) (val : Option Bytes)
    (ht : wf (.branch cs val) = true) :
    ∃ p1 v1 p2 v2, p1 ≠ p2 ∧ get (.branch cs val) p1 = some v1
      ∧ get (.branch cs val) p2 = some v2 := by
  obtain ⟨p1, v1, p2, v2, h1, h2, hdiff⟩ := branch_two_keys cs val ht
  exact ⟨p1, v1, p2, v2, hdiff.ne, h1, h2⟩

theorem list_eq_of_getD : ∀ (cs cs' : List Node), cs.length = cs'.length →
    (∀ i, cs.getD i .empty = cs'.getD i .empty) → cs = cs'
  | [], [], _, _ => rfl
  | [], c' :: cs', h, _ => by simp at h
  | c :: cs, [], h, _ => by simp at h
  | c :: cs, c' :: cs', h, hg => by
      have h0 := hg 0
      simp only [List.getD] at h0
      simp at h0
      rw [h0, list_eq_of_getD cs cs' (by simpa using h)
        (fun i => by simpa [List.getD] using hg (i + 1))]

theorem wf_getD {cs : List Node} (hcs : wfList cs = true) (i : Nat) :
    wf (cs.getD i .empty) = true := by
  rcases Nat.lt_or_ge i cs.length with h | h
  · apply wfList_iff.mp hcs
    rw [List.getD_eq_getElem _ _ h]
    exact List.getElem_mem _
  · rw [List.getD_eq_default _ _ h]
    rfl

theorem one_le_sizeOf_list : ∀ (l : List Node), 1 ≤ sizeOf l := by
  intro l
  cases l with
  | nil => simp
  | cons a r =>
      simp
      omega

theorem sizeOf_getD_lt (cs : List Node) (val : Option Bytes) (i : Nat) :
    sizeOf (cs.getD i .empty) < sizeOf (Node.branch cs val) := by
  have hspec := Node.branch.sizeOf_spec cs val
  rcases Nat.lt_or_ge i cs.length with h | h
  · have hmem : cs.getD i .empty ∈ cs := by
      rw [List.getD_eq_getElem _ _ h]
      exact List.getElem_mem _
    have := List.sizeOf_lt_of_mem hmem
    omega
  · rw [List.getD_eq_default _ _ h]
    have h1 := one_le_sizeOf_list cs
    have h2 : sizeOf Node.empty = 1 := rfl
    have h3 : 1 ≤ sizeOf val := by cases val <;> simp
    omega

/-- Canonicity: two well-formed tries with the same lookup semantics are
the same tree (§3.4.1 uniqueness). -/
theorem canonical_aux : ∀ (n : Nat) (t1 t2 : Node), sizeOf t1 ≤ n → wf t1 = true →
    wf t2 = true → (∀ q, get t1 q = get t2 q) → t1 = t2 := by
  intro n
  induction n with
  | zero =>
      intro t1 t2 hs
      cases t1 <;> simp at hs
  | succ n ih =>
      intro t1 t2 hs h1 h2 hsem
      cases t1 with
      | empty =>
          exact (sem_none_imp_empty h2 (fun q => by rw [← hsem q]; rfl)).symm
      | leaf k v =>
          cases t2 with
          | empty => exact sem_none_imp_empty h1 (fun q => by rw [hsem q]; rfl)
          | leaf k' v' =>
              have hk := leaf_key (p := k) (by rw [← hsem k, show get (.leaf k v) k = some v by simp [get]])
              rw [hk.1, hk.2]
          | ext ek c =>
              obtain ⟨p1, w1, p2, w2, hne, hp1, hp2⟩ := ext_two_keys ek c h2
              have e1 := (leaf_key (by rw [hsem p1]; exact hp1)).1
              have e2 := (leaf_key (by rw [hsem p2]; exact hp2)).1
              exact absurd (e1.trans e2.symm) hne
          | branch cs val =>
              obtain ⟨p1, w1, p2, w2, hne, hp1, hp2⟩ := branch_two_keys_ne cs val h2
              have e1 := (leaf_key (by rw [hsem p1]; exact hp1)).1
              have e2 := (leaf_key (by rw [hsem p2]; exact hp2)).1
              exact absurd (e1.trans e2.symm) hne
      | ext k c =>
          cases t2 with
          | empty => exact sem_none_imp_empty h1 (fun q => by rw [hsem q]; rfl)
          | leaf k' v' =>
              obtain ⟨p1, w1, p2, w2, hne, hp1, hp2⟩ := ext_two_keys k c h1
              have e1 := (leaf_key (by rw [← hsem p1]; exact hp1)).1
              have e2 := (leaf_key (by rw [← hsem p2]; exact hp2)).1
              exact absurd (e1.trans e2.symm) hne
          | ext k' c' =>
              have hkk : k = k' := ext_sem_key_det h1 h2 hsem
              subst hkk
              have hwc : wf c = true := by
                simp only [wf, Bool.and_eq_true] at h1
                exact h1.2
              have hwc' : wf c' = true := by
                simp only [wf, Bool.and_eq_true] at h2
                exact h2.2
              have hcsem : ∀ q, get c q = get c' q := by
                intro q
                have := hsem (k ++ q)
                rwa [get_ext_eval, if_pos (List.prefix_append k q), List.drop_left,
                  get_ext_eval, if_pos (List.prefix_append k q), List.drop_left] at this
              have hsz : sizeOf c ≤ n := by
                have := Node.ext.sizeOf_spec k c
                omega
              rw [ih c c' hsz hwc hwc' hcsem]
          | branch cs val =>
              exfalso
              have hkne : k ≠ [] := by
                simp only [wf, Bool.and_eq_true] at h1
                simpa using h1.1.1.1
              obtain ⟨p1, v1, p2, v2, hp1, hp2, hdiff⟩ := branch_two_keys cs val h2
              have hk1 : k <+: p1 := ext_key_prefix_of_some (by rw [hsem p1]; exact hp1)
              have hk2 : k <+: p2 := ext_key_prefix_of_some (by rw [hsem p2]; exact hp2)
              exact hkne (hdiff.no_common_prefix hk1 hk2)
      | branch cs val =>
          cases t2 with
          | empty => exact sem_none_imp_empty h1 (fun q => by rw [hsem q]; rfl)
          | leaf k' v' =>
              obtain ⟨p1, w1, p2, w2, hne, hp1, hp2⟩ := branch_two_keys_ne cs val h1
              have e1 := (leaf_key (by rw [← hsem p1]; exact hp1)).1
              have e2 := (leaf_key (by rw [← hsem p2]; exact hp2)).1
              exact absurd (e1.trans e2.symm) hne
          | ext k' c' =>
              exfalso
              have hkne : k' ≠ [] := by
                simp only [wf, Bool.and_eq_true] at h2
                simpa using h2.1.1.1
              obtain ⟨p1, v1, p2, v2, hp1, hp2, hdiff⟩ := branch_two_keys cs val h1
              have hk1 : k' <+: p1 := ext_key_prefix_of_some (by rw [← hsem p1]; exact hp1)
              have hk2 : k' <+: p2 := ext_key_prefix_of_some (by rw [← hsem p2]; exact hp2)
              exact hkne (hdiff.no_common_prefix hk1 hk2)
          | branch cs' val' =>
              have hval : val = val' := hsem []
              have hlen : cs.length = cs'.length := by
                simp only [wf, Bool.and_eq_true, beq_iff_eq] at h1 h2
                rw [h1.1.1.1, h2.1.1.1]
              have hwcs : wfList cs = true := by
                simp only [wf, Bool.and_eq_true] at h1
                exact h1.1.1.2
              have hwcs' : wfList cs' = true := by
                simp only [wf, Bool.and_eq_true] at h2
                exact h2.1.1.2
              have hch : ∀ i, cs.getD i .empty = cs'.getD i .empty := by
                intro i
                have hcsem : ∀ q, get (cs.getD i .empty) q = get (cs'.getD i .empty) q := by
                  intro q
                  have := hsem (i :: q)
                  rwa [show get (.branch cs val) (i :: q) = getList cs i q from rfl,
                    show get (.branch cs' val') (i :: q) = getList cs' i q from rfl,
                    getList_eq_getD, getList_eq_getD] at this
                have hsz : sizeOf (cs.getD i .empty) ≤ n := by
                  have := sizeOf_getD_lt cs val i
                  omega
                exact ih _ _ hsz (wf_getD hwcs i) (wf_getD hwcs' i) hcsem
              rw [hval, list_eq_of_getD cs cs' hlen hch]

/-- Canonicity at the top level. -/
theorem canonical {t1 t2 : Node} (h1 : wf t1 = true) (h2 : wf t2 = true)
    (hsem : ∀ q, get t1 q = get t2 q) : t1 = t2 :=
  canonical_aux (sizeOf t1) t1 t2 (Nat.le_refl _) h1 h2 hsem

end MPT

namespace MPT

/-- Pack nibbles two per byte, high first (§4.1). -/
def packNibbles : Path → Bytes
  | [] => []
  | [a] => [a * 16]
  | a :: b :: r => (a * 16 + b) :: packNibbles r

/-- Modelled from the spec (§4.1): hex-prefix (compact) encoding of a
nibble path with a leaf flag: header nibble `2·L + (|P| mod 2)`, an odd
path putting its first nibble in the low bits of byte 0. -/
def compactEncode (p : Path) (leafFlag : Bool) : Bytes :=
  let flag := (if leafFlag then 2 else 0) + p.length % 2
  if p.length % 2 = 1 then
    match p with
    | [] => [flag * 16]
    | a :: r => (flag * 16 + a) :: packNibbles r
  else (flag * 16) :: packNibbles p

/-- Length-prefixed byte-string framing of the canonical serializer. -/
def encBytes (b : Bytes) : Bytes := b.length :: b

mutual
/-- Modelled from the spec (§4.1, §4.2): the canonical serialization of a
node as a tagged, length-prefixed list of byte strings.  The spec's exact
reference byte format (and its Keccak-256 digest) is not reproducible from
the provided sources, so this is a deterministic stand-in with the same
shape: what matters for the claims is that it is a function of the tree. -/
def encode : Node → Bytes
  | .empty => [0]
  | .leaf k v => 1 :: (encBytes (compactEncode k true) ++ encBytes v)
  | .ext k c => 2 :: (encBytes (compactEncode k false) ++ encBytes (encode c))
  | .branch cs val =>
      3 :: (encodeList cs ++ (match val with | some v => 1 :: encBytes v | none => [0]))
/-- Serialization of the 16 child slots in order. -/
def encodeList : List Node → Bytes
  | [] => []
  | c :: cs => encBytes (encode c) ++ encodeList cs
end

/-- Modelled from the spec (§4.1): the Keccak-256 digest of a node blob;
the cryptographic function is elided, the digest standing for the blob it
addresses. -/
def hashOf (b : Bytes) : Bytes := b

/-- The root hash: digest of the root's canonical serialization (§4.3.4,
the root always forces a hash). -/
def hashRoot (t : Node) : Bytes := hashOf (encode t)

theorem wf_empty : wf .empty = true := rfl

/-- An operation's key is made of nibbles. -/
def opValid : Op → Bool
  | .put k _ => nibs k
  | .del k => nibs k

def opsValid (ops : List Op) : Bool := ops.all opValid

theorem wf_applyOp {t : Node} {op : Op} (ht : wf t = true) (hop : opValid op = true) :
    wf (applyOp t op) = true := by
  cases op with
  | put k v =>
      have hk : nibs k = true := by simpa [opValid] using hop
      rw [applyOp, update]
      by_cases hv : v.isEmpty
      · rw [if_pos hv]
        exact wf_delete t k ht
      · rw [if_neg hv]
        exact wf_insert t k v ht hk (by simpa using hv)
  | del k =>
      rw [applyOp]
      exact wf_delete t k ht

theorem get_applyOp {t : Node} {op : Op} (ht : wf t = true) (hop : opValid op = true)
    {m : Path → Option Bytes} (hm : ∀ q, get t q = m q) :
    ∀ q, get (applyOp t op) q = mapStep m op q := by
  cases op with
  | put k v =>
      have hk : nibs k = true := by simpa [opValid] using hop
      intro q
      rw [applyOp, update, mapStep]
      by_cases hv : v.isEmpty
      · rw [if_pos hv, if_pos hv, get_delete t k ht q]
        by_cases hq : q = k <;> simp [hq, hm]
      · rw [if_neg hv, if_neg hv, get_insert t k v ht hk q]
        by_cases hq : q = k <;> simp [hq, hm]
  | del k =>
      intro q
      rw [applyOp, mapStep, get_delete t k ht q]
      by_cases hq : q = k <;> simp [hq, hm]

theorem buildFrom_cons (t : Node) (op : Op) (ops : List Op) :
    buildFrom t (op :: ops) = buildFrom (applyOp t op) ops := rfl

theorem opsValid_cons {op : Op} {ops : List Op} (h : opsValid (op :: ops) = true) :
    opValid op = true ∧ opsValid ops = true := by
  simpa [opsValid] using h

theorem wf_buildFrom : ∀ (ops : List Op) (t : Node), wf t = true → opsValid ops = true →
    wf (buildFrom t ops) = true
  | [], _, ht, _ => ht
  | op :: ops, t, ht, hops => by
      rw [buildFrom_cons]
      exact wf_buildFrom ops _ (wf_applyOp ht (opsValid_cons hops).1) (opsValid_cons hops).2

theorem get_buildFrom_map : ∀ (ops : List Op) (t : Node) (m : Path → Option Bytes),
    wf t = true → opsValid ops = true → (∀ q, get t q = m q) →
    ∀ q, get (buildFrom t ops) q = (ops.foldl mapStep m) q
  | [], _, _, _, _, hm, q => hm q
  | op :: ops, t, m, ht, hops, hm, q => by
      rw [buildFrom_cons, List.foldl_cons]
      exact get_buildFrom_map ops _ _ (wf_applyOp ht (opsValid_cons hops).1)
        (opsValid_cons hops).2 (get_applyOp ht (opsValid_cons hops).1 hm) q

theorem wf_build {ops : List Op} (h : opsValid ops = true) : wf (build ops) = true :=
  wf_buildFrom ops .empty rfl h

theorem get_build {ops : List Op} (h : opsValid ops = true) :
    ∀ q, get (build ops) q = mapApply ops q :=
  get_buildFrom_map ops .empty (fun _ => none) rfl h (fun _ => rfl)

end MPT

namespace MPT

/-- C5: for every finite key-value mapping and every two operation
sequences (Updates and Deletes) that produce the same final mapping, the
built tries are identical trees, hence `Hash()` — a function of the
canonical serialization of the tree — returns the same root hash: the root
hash is a function of the mapping alone.  (Spec-modelled: trie
implementation absent from the sources; keys are nibble paths, byte keys
embedding via `hexPath`.) -/
theorem C5_hash_insertion_order_independent (ops1 ops2 : List Op)
    (h1 : opsValid ops1 = true) (h2 : opsValid ops2 = true)
    (hmap : ∀ p, mapApply ops1 p = mapApply ops2 p) :
    build ops1 = build ops2 ∧ hashRoot (build ops1) = hashRoot (build ops2) := by
  have heq : build ops1 = build ops2 :=
    canonical (wf_build h1) (wf_build h2)
      (fun q => by rw [get_build h1 q, get_build h2 q, hmap q])
  exact ⟨heq, by rw [heq]⟩

/-- Witness for C5 at concrete operation sequences: inserting two keys
then deleting one equals inserting the surviving key alone. -/
theorem C5_witness :
    hashRoot (build [Op.put [1] [5], Op.put [2, 3] [7], Op.del [2, 3]])
      = hashRoot (build [Op.put [1] [5]]) := by
  refine (C5_hash_insertion_order_independent _ _ (by decide) (by decide) ?_).2
  intro p
  by_cases hp1 : p = [2, 3]
  · subst hp1
    simp [mapApply, mapStep]
  · by_cases hp2 : p = [1]
    · subst hp2
      simp [mapApply, mapStep]
    · simp [mapApply, mapStep, hp1, hp2]

/-- C6: updating a key with the empty value blob produces exactly the same
trie state as deleting it — definitionally, `Update` routes an empty value
to `Delete` (§3.4.5) — and in particular the key is unmapped afterwards.
(Spec-modelled.) -/
theorem C6_update_empty_is_delete (t : Node) (k : Path) :
    update t k [] = delete t k ∧ (wf t = true → get (update t k []) k = none) := by
  constructor
  · rw [update, if_pos (show ([] : Bytes).isEmpty = true from rfl)]
  · intro ht
    rw [update, if_pos (show ([] : Bytes).isEmpty = true from rfl),
      get_delete t k ht k, if_pos rfl]

theorem C6_witness :
    update (build [Op.put [1] [5]]) [1] [] = delete (build [Op.put [1] [5]]) [1] ∧
    get (update (build [Op.put [1] [5]]) [1] []) [1] = none := by
  have h := C6_update_empty_is_delete (build [Op.put [1] [5]]) [1]
  exact ⟨h.1, h.2 (by decide)⟩

/-- An operation neither rewrites key `k` to another value nor deletes it. -/
def avoidsKey (k : Path) (v : Bytes) : Op → Prop
  | .put k' v' => k' ≠ k ∨ v' = v
  | .del k' => k' ≠ k

theorem C7_aux (k : Path) (v : Bytes) (hv : v ≠ []) :
    ∀ (ops : List Op) (t : Node), wf t = true → opsValid ops = true →
    (∀ op ∈ ops, avoidsKey k v op) → get t k = some v →
    get (buildFrom t ops) k = some v
  | [], _, _, _, _, hk => hk
  | op :: ops, t, ht, hops, havoid, hk => by
      rw [buildFrom_cons]
      refine C7_aux k v hv ops _ (wf_applyOp ht (opsValid_cons hops).1)
        (opsValid_cons hops).2 (fun o ho => havoid o (List.mem_cons_of_mem _ ho)) ?_
      have hop := (opsValid_cons hops).1
      have hav := havoid op (List.mem_cons_self _ _)
      cases op with
      | put k' v' =>
          have hk' : nibs k' = true := by simpa [opValid] using hop
          rw [applyOp, update]
          by_cases hv' : v'.isEmpty
          · rw [if_pos hv', get_delete t k' ht k]
            have hne : k ≠ k' := by
              rcases hav with h | h
              · exact fun hh => h hh.symm
              · rw [h] at hv'
                exact absurd (by simpa using hv') hv
            rw [if_neg hne]
            exact hk
          · rw [if_neg hv', get_insert t k' v' ht hk' k]
            by_cases heq : k = k'
            · rcases hav with h | h
              · exact absurd heq.symm h
              · rw [if_pos heq, h]
            · rw [if_neg heq]
              exact hk
      | del k' =>
          rw [applyOp, get_delete t k' ht k,
            if_neg (show k ≠ k' from fun hh => hav hh.symm)]
          exact hk

/-- C7: after `Update(k, v)` with a non-empty `v` succeeds, `Get(k)`
returns `v`, and keeps returning `v` after any further operation sequence
that neither updates `k` to a different value nor deletes it.
(Spec-modelled.) -/
theorem C7_roundtrip (t : Node) (k : Path) (v : Bytes) (ops : List Op)
    (ht : wf t = true) (hk : nibs k = true) (hv : v ≠ [])
    (hops : opsValid ops = true) (havoid : ∀ op ∈ ops, avoidsKey k v op) :
    get (update t k v) k = some v ∧
    get (buildFrom (update t k v) ops) k = some v := by
  have hvempty : ¬v.isEmpty := by
    cases v with
    | nil => exact absurd rfl hv
    | cons a r => simp
  have hupd : get (update t k v) k = some v := by
    rw [update, if_neg hvempty, get_insert t k v ht hk k, if_pos rfl]
  exact ⟨hupd, C7_aux k v hv ops (update t k v)
    (by rw [update, if_neg hvempty]; exact wf_insert t k v ht hk hv) hops havoid hupd⟩

theorem C7_witness :
    get (update (build []) [1] [5]) [1] = some [5] ∧
    get (buildFrom (update (build []) [1] [5])
      [Op.put [2] [9], Op.del [3], Op.put [1] [5]]) [1] = some [5] := by
  refine C7_roundtrip (build []) [1] [5] [Op.put [2] [9], Op.del [3], Op.put [1] [5]]
    (by decide) (by decide) (by decide) (by decide) ?_
  intro op hop
  simp only [List.mem_cons, List.not_mem_nil, or_false] at hop
  rcases hop with rfl | rfl | rfl
  · exact Or.inl (by decide)
  · show ([3] : Path) ≠ [1]
    decide
  · exact Or.inr rfl

end MPT

namespace MPT

theorem nibLt_diverge {pre : Path} {j1 j2 : Nat} (h : j1 < j2) (r1 r2 : Path) :
    nibLt (pre ++ j1 :: r1) (pre ++ j2 :: r2) = true := by
  rw [nibLt, hexT, hexT, List.append_assoc, List.append_assoc, List.cons_append,
    List.cons_append, lexLt_append_left]
  exact lexLt_cons_of_lt h _ _

theorem nibLt_child_val {pre : Path} {j : Nat} (h : j < 16) (r : Path) :
    nibLt (pre ++ j :: r) pre = true := by
  rw [nibLt, hexT, hexT, List.append_assoc, List.cons_append, lexLt_append_left]
  exact lexLt_cons_of_lt h _ _

theorem getList_some_lt : ∀ {cs : List Node} {d : Nat} {r : Path} {v : Bytes},
    getList cs d r = some v → d < cs.length
  | [], d, r, v, h => by
      rw [getList] at h
      exact Option.noConfusion h
  | c :: cs, 0, _, _, _ => by simp
  | c :: cs, d + 1, r, v, h => by
      rw [getList] at h
      have := getList_some_lt h
      simpa using Nat.succ_lt_succ this

mutual
/-- Membership in the key iteration: exactly the keys the trie maps, each
with its current value, offset by the prefix. -/
theorem mem_iterate : ∀ (t : Node) (pre k : Path) (v : Bytes),
    (k, v) ∈ iterate t pre ↔ ∃ q, k = pre ++ q ∧ get t q = some v
  | .empty, pre, k, v => by simp [iterate, get]
  | .leaf lk lv, pre, k, v => by
      rw [iterate]
      simp only [List.mem_singleton, Prod.mk.injEq]
      constructor
      · rintro ⟨rfl, rfl⟩
        exact ⟨lk, rfl, by simp [get]⟩
      · rintro ⟨q, rfl, hq⟩
        rw [show get (.leaf lk lv) q = if q = lk then some lv else none from rfl] at hq
        by_cases hql : q = lk
        · rw [if_pos hql] at hq
          injection hq with hq
          exact ⟨by rw [hql], hq.symm⟩
        · rw [if_neg hql] at hq
          exact Option.noConfusion hq
  | .ext ek c, pre, k, v => by
      rw [iterate, mem_iterate c (pre ++ ek) k v]
      constructor
      · rintro ⟨q', rfl, hq⟩
        exact ⟨ek ++ q', by rw [List.append_assoc], get_ext_lift hq⟩
      · rintro ⟨q, rfl, hq⟩
        have hpre : ek <+: q := ext_key_prefix_of_some hq
        refine ⟨q.drop ek.length, ?_, ?_⟩
        · conv_lhs => rw [eq_append_drop_of_pref hpre]
          rw [List.append_assoc]
        · rw [get_ext_eval, if_pos hpre] at hq
          exact hq
  | .branch cs val, pre, k, v => by
      rcases val with - | w
      · rw [show iterate (.branch cs none) pre = iterList cs 0 pre ++ [] from by
          rw [iterate.eq_def], List.append_nil, mem_iterList cs 0 pre k v]
        constructor
        · rintro ⟨d, r, rfl, hd⟩
          exact ⟨d :: r, by simp, hd⟩
        · rintro ⟨q, rfl, hq⟩
          cases q with
          | nil => exact Option.noConfusion hq
          | cons j r => exact ⟨j, r, by simp, hq⟩
      · rw [show iterate (.branch cs (some w)) pre = iterList cs 0 pre ++ [(pre, w)] from by
          rw [iterate.eq_def], List.mem_append, mem_iterList cs 0 pre k v]
        constructor
        · rintro (⟨d, r, rfl, hd⟩ | hval)
          · exact ⟨d :: r, by simp, hd⟩
          · simp only [List.mem_singleton, Prod.mk.injEq] at hval
            exact ⟨[], by simp [hval.1], by rw [hval.2]; rfl⟩
        · rintro ⟨q, rfl, hq⟩
          cases q with
          | nil =>
              right
              rw [show get (.branch cs (some w)) [] = some w from rfl] at hq
              injection hq with hq
              simp [hq]
          | cons j r =>
              left
              exact ⟨j, r, by simp, hq⟩
/-- Membership in the slot iteration from slot `i` upward. -/
theorem mem_iterList : ∀ (cs : List Node) (i : Nat) (pre k : Path) (v : Bytes),
    (k, v) ∈ iterList cs i pre ↔ ∃ d r, k = pre ++ (i + d) :: r ∧ getList cs d r = some v
  | [], i, pre, k, v => by simp [iterList, getList]
  | c :: cs, i, pre, k, v => by
      rw [iterList, List.mem_append, mem_iterate c (pre ++ [i]) k v,
        mem_iterList cs (i + 1) pre k v]
      constructor
      · rintro (⟨q, rfl, hq⟩ | ⟨d, r, rfl, hd⟩)
        · exact ⟨0, q, by simp, hq⟩
        · exact ⟨d + 1, r, by rw [show i + (d + 1) = i + 1 + d from by omega], hd⟩
      · rintro ⟨d, r, rfl, hd⟩
        cases d with
        | zero =>
            left
            exact ⟨r, by simp, hd⟩
        | succ d =>
            right
            exact ⟨d, r, by rw [show i + 1 + d = i + (d + 1) from by omega], hd⟩
end

mutual
/-- The key iteration is strictly ascending in the terminator-extended
nibble-path order (child slots `0..15` first, the branch value last, which
sorts after all of them because the terminator `16` exceeds every nibble). -/
theorem iterate_pairwise : ∀ (t : Node) (pre : Path), wf t = true →
    List.Pairwise (fun a b => nibLt a.1 b.1 = true) (iterate t pre)
  | .empty, pre, _ => by
      rw [iterate]
      exact List.Pairwise.nil
  | .leaf lk lv, pre, _ => by
      rw [iterate]
      exact List.pairwise_singleton _ _
  | .ext ek c, pre, ht => by
      rw [iterate]
      refine iterate_pairwise c (pre ++ ek) ?_
      simp only [wf, Bool.and_eq_true] at ht
      exact ht.2
  | .branch cs val, pre, ht => by
      have ht' := ht
      simp only [wf, Bool.and_eq_true, beq_iff_eq] at ht'
      obtain ⟨⟨⟨hlen, hcs⟩, -⟩, -⟩ := ht'
      rcases val with - | w
      · rw [show iterate (.branch cs none) pre = iterList cs 0 pre ++ [] from by
          rw [iterate.eq_def], List.append_nil]
        exact iterList_pairwise cs 0 pre hcs (by omega)
      · rw [show iterate (.branch cs (some w)) pre = iterList cs 0 pre ++ [(pre, w)] from by
          rw [iterate.eq_def], List.pairwise_append]
        refine ⟨iterList_pairwise cs 0 pre hcs (by omega),
          List.pairwise_singleton _ _, ?_⟩
        intro a ha b hb
        simp only [List.mem_singleton] at hb
        obtain ⟨d, r, hk, hd⟩ := (mem_iterList cs 0 pre a.1 a.2).mp (by
          rw [show (a.1, a.2) = a from rfl]
          exact ha)
        rw [hb, hk]
        simp only [Nat.zero_add]
        exact nibLt_child_val (by rw [← hlen]; exact getList_some_lt hd) r
/-- Slot iteration from slot `i` is strictly ascending. -/
theorem iterList_pairwise : ∀ (cs : List Node) (i : Nat) (pre : Path), wfList cs = true →
    i + cs.length ≤ 16 →
    List.Pairwise (fun a b => nibLt a.1 b.1 = true) (iterList cs i pre)
  | [], _, _, _, _ => by
      rw [iterList]
      exact List.Pairwise.nil
  | c :: cs, i, pre, hcs, hle => by
      rw [wfList, Bool.and_eq_true] at hcs
      rw [iterList, List.pairwise_append]
      refine ⟨iterate_pairwise c (pre ++ [i]) hcs.1,
        iterList_pairwise cs (i + 1) pre hcs.2 (by simp at hle; omega), ?_⟩
      intro a ha b hb
      obtain ⟨q, hq, -⟩ := (mem_iterate c (pre ++ [i]) a.1 a.2).mp (by
        rw [show (a.1, a.2) = a from rfl]
        exact ha)
      obtain ⟨d, r, hr, -⟩ := (mem_iterList cs (i + 1) pre b.1 b.2).mp (by
        rw [show (b.1, b.2) = b from rfl]
        exact hb)
      rw [hq, hr, List.append_assoc, List.cons_append, List.nil_append]
      exact nibLt_diverge (by omega) q r
end

end MPT

namespace MPT

/-- C2 (amended): a full key iteration (the key iterator over
`NodeIterator(nil)`) yields exactly the set of keys currently mapped in the
trie, each exactly once, with its current value — but in ascending order of
the terminator-extended nibble path (`keybytesToHex` order: branch slots
`0..15` before the slot-16 value), not plain byte-lexicographic key order:
a key that is a proper prefix of another is yielded after that other's
subtree.  (Spec-modelled; order pinned by `TestIteratorSeek`'s expected
sequences in `src/trie/iterator_test.go`.) -/
theorem C2_full_iteration (ops : List Op) (h : opsValid ops = true) :
    List.Pairwise (fun a b => nibLt a.1 b.1 = true) (iterate (build ops) []) ∧
    (∀ k v, ((k, v) ∈ iterate (build ops) [] ↔ get (build ops) k = some v)) := by
  refine ⟨iterate_pairwise _ [] (wf_build h), ?_⟩
  intro k v
  rw [mem_iterate]
  constructor
  · rintro ⟨q, rfl, hq⟩
    simpa using hq
  · intro hk
    exact ⟨k, by simp, hk⟩

theorem C2_witness :
    List.Pairwise (fun a b => nibLt a.1 b.1 = true)
      (iterate (build [Op.put [6, 15] [1], Op.put [6, 15, 6, 4] [2]]) []) ∧
    (([6, 15, 6, 4], [2]) ∈ iterate (build [Op.put [6, 15] [1], Op.put [6, 15, 6, 4] [2]]) []
      ↔ get (build [Op.put [6, 15] [1], Op.put [6, 15, 6, 4] [2]]) [6, 15, 6, 4] = some [2]) :=
  ⟨(C2_full_iteration [Op.put [6, 15] [1], Op.put [6, 15, 6, 4] [2]] (by decide)).1,
   (C2_full_iteration [Op.put [6, 15] [1], Op.put [6, 15, 6, 4] [2]] (by decide)).2
     [6, 15, 6, 4] [2]⟩

/-- C2 counterexample to the original "ascending lexicographic key order":
the byte keys `"o"` (`0x6F`, nibbles `[6,15]`) and `"od"` (`0x6F 0x64`,
nibbles `[6,15,6,4]`) are yielded as `[od, o]` — the proper-prefix key
comes from the branch's slot-16 value, visited after slot 6 — although
`"o" < "od"` lexicographically. -/
theorem C2_counterexample :
    iterate (build [Op.put [6, 15] [1], Op.put [6, 15, 6, 4] [2]]) []
      = [([6, 15, 6, 4], [2]), ([6, 15], [1])] ∧
    lexLt [6, 15] [6, 15, 6, 4] = true ∧
    hexPath [0x6F] = [6, 15] ∧ hexPath [0x6F, 0x64] = [6, 15, 6, 4] := by
  decide

end MPT

namespace MPT

theorem lexLt_cons_of_gt {a b : Nat} (h : b < a) (x y : List Nat) :
    lexLt (a :: x) (b :: y) = false := by
  rw [lexLt]
  have h1 : ¬(a < b) := by omega
  have h2 : (a == b) = false := by
    simp
    omega
  simp [h1, h2]

theorem lexLt_eq_false_of_pref : ∀ {s x : List Nat}, s <+: x → lexLt x s = false
  | [], x, _ => by cases x <;> rfl
  | a :: s', x, h => by
      obtain ⟨t, rfl⟩ := h
      rw [List.cons_append, lexLt]
      simp [lexLt_eq_false_of_pref (List.prefix_append s' t)]

mutual
/-- Modelled from the spec (§4.5.1 Seek): the key iteration starting at a
seek path `s` (relative nibbles): it descends along the matching prefix;
where the node's path diverges it resumes at the lexicographically-next
position; at a branch, slots before the seek nibble are skipped, the
matching slot continues the seek, later slots and the slot-16 value (whose
terminator sorts after every nibble) are yielded in full. -/
def iterFrom : Node → Path → Path → List (Path × Bytes)
  | .empty, _, _ => []
  | .leaf k v, pre, s => if lexLt (hexT k) s then [] else [(pre ++ k, v)]
  | .ext k c, pre, s =>
      let cp := commonPrefix k s
      if cp.length = k.length then iterFrom c (pre ++ k) (s.drop k.length)
      else if cp.length = s.length then iterate c (pre ++ k)
      else if s.getD cp.length 0 < k.getD cp.length 0 then iterate c (pre ++ k)
      else []
  | .branch cs val, pre, [] => iterate (.branch cs val) pre
  | .branch cs val, pre, i :: s' =>
      iterFromList cs 0 pre i s' ++
        (match val with | some w => [(pre, w)] | none => [])
/-- Slot-wise seek: slots below the seek nibble are skipped, the seek
nibble's slot continues the seek, later slots are yielded in full. -/
def iterFromList : List Node → Nat → Path → Nat → Path → List (Path × Bytes)
  | [], _, _, _, _ => []
  | c :: cs, j, pre, i, s' =>
      (if j < i then [] else if j = i then iterFrom c (pre ++ [j]) s'
       else iterate c (pre ++ [j])) ++ iterFromList cs (j + 1) pre i s'
end

end MPT

namespace MPT

theorem lexLt_nil_right : ∀ (x : List Nat), lexLt x [] = false
  | [] => rfl
  | _ :: _ => rfl

theorem lexLt_cons_same (a : Nat) (x y : List Nat) :
    lexLt (a :: x) (a :: y) = lexLt x y := by
  simp [lexLt]

mutual
/-- Seek yields exactly the entries of the full iteration whose
terminator-extended relative paths are not below the seek path. -/
theorem iterFrom_filter : ∀ (t : Node) (pre s : Path), wf t = true → nibs s = true →
    iterFrom t pre s
      = (iterate t pre).filter (fun e => !lexLt (hexT (e.1.drop pre.length)) s)
  | .empty, pre, s, _, _ => by
      rw [show iterFrom .empty pre s = [] from by rw [iterFrom],
        show iterate .empty pre = [] from by rw [iterate]]
      rfl
  | .leaf k v, pre, s, _, _ => by
      rw [show iterFrom (.leaf k v) pre s
            = if lexLt (hexT k) s then [] else [(pre ++ k, v)] from by rw [iterFrom],
        show iterate (.leaf k v) pre = [(pre ++ k, v)] from by rw [iterate]]
      by_cases h : lexLt (hexT k) s
      · rw [if_pos h]
        rw [List.filter_cons]
        rw [List.drop_left]
        simp [h]
      · rw [if_neg h]
        rw [List.filter_cons]
        rw [List.drop_left]
        simp [h]
  | .ext k c, pre, s, ht, hs => by
      have ht' := ht
      simp only [wf, Bool.and_eq_true] at ht'
      obtain ⟨⟨⟨-, -⟩, -⟩, hwfc⟩ := ht'
      have hiter : iterate (.ext k c) pre = iterate c (pre ++ k) := by rw [iterate]
      have hmemform : ∀ e, e ∈ iterate c (pre ++ k) → ∃ q, e.1 = (pre ++ k) ++ q := by
        intro e he
        obtain ⟨q, hq, -⟩ := (mem_iterate c (pre ++ k) e.1 e.2).mp (by
          rw [show (e.1, e.2) = e from rfl]
          exact he)
        exact ⟨q, hq⟩
      by_cases hA : (commonPrefix k s).length = k.length
      · have hks : k <+: s :=
          ((commonPrefix_prefix_left k s).eq_of_length hA) ▸ commonPrefix_prefix_right k s
        rw [show iterFrom (.ext k c) pre s = iterFrom c (pre ++ k) (s.drop k.length) from by
            rw [iterFrom, if_pos hA],
          iterFrom_filter c (pre ++ k) (s.drop k.length) hwfc (nibs_drop hs _), hiter]
        refine List.filter_congr ?_
        intro e he
        obtain ⟨q, hq⟩ := hmemform e he
        rw [hq, List.drop_left,
          show ((pre ++ k) ++ q).drop pre.length = k ++ q from by
            rw [List.append_assoc, List.drop_left]]
        have hcond : lexLt (hexT (k ++ q)) s = lexLt (hexT q) (s.drop k.length) := by
          conv_lhs => rw [eq_append_drop_of_pref hks]
          rw [hexT, hexT, List.append_assoc, lexLt_append_left]
        rw [hcond]
      · by_cases hB : (commonPrefix k s).length = s.length
        · have hsk : s <+: k :=
            ((commonPrefix_prefix_right k s).eq_of_length hB) ▸ commonPrefix_prefix_left k s
          rw [show iterFrom (.ext k c) pre s = iterate c (pre ++ k) from by
              rw [iterFrom, if_neg hA, if_pos hB], hiter]
          symm
          rw [List.filter_eq_self]
          intro e he
          obtain ⟨q, hq⟩ := hmemform e he
          rw [hq, show ((pre ++ k) ++ q).drop pre.length = k ++ q from by
            rw [List.append_assoc, List.drop_left]]
          have : lexLt (hexT (k ++ q)) s = false :=
            lexLt_eq_false_of_pref (hsk.trans (by
              rw [hexT, List.append_assoc]
              exact List.prefix_append k _))
          simp [this]
        · have hnk : (commonPrefix k s).length < k.length :=
            Nat.lt_of_le_of_ne (commonPrefix_prefix_left k s).length_le hA
          have hns : (commonPrefix k s).length < s.length :=
            Nat.lt_of_le_of_ne (commonPrefix_prefix_right k s).length_le hB
          have hdk : k.drop (commonPrefix k s).length
              = k.getD (commonPrefix k s).length 0 :: k.drop ((commonPrefix k s).length + 1) := by
            rw [List.getD_eq_getElem _ _ hnk]
            exact List.drop_eq_getElem_cons hnk
          have hds : s.drop (commonPrefix k s).length
              = s.getD (commonPrefix k s).length 0 :: s.drop ((commonPrefix k s).length + 1) := by
            rw [List.getD_eq_getElem _ _ hns]
            exact List.drop_eq_getElem_cons hns
          have hdiv : k.getD (commonPrefix k s).length 0 ≠ s.getD (commonPrefix k s).length 0 :=
            commonPrefix_diverge k s _ _ _ _ hdk hds
          have hkeq : k = commonPrefix k s
              ++ k.getD (commonPrefix k s).length 0 :: k.drop ((commonPrefix k s).length + 1) :=
            (eq_append_drop_of_pref (commonPrefix_prefix_left k s)).trans (by rw [hdk])
          have hseq : s = commonPrefix k s
              ++ s.getD (commonPrefix k s).length 0 :: s.drop ((commonPrefix k s).length + 1) :=
            (eq_append_drop_of_pref (commonPrefix_prefix_right k s)).trans (by rw [hds])
          have hform : ∀ q : Path, hexT (k ++ q) = commonPrefix k s
              ++ k.getD (commonPrefix k s).length 0
                :: (k.drop ((commonPrefix k s).length + 1) ++ (q ++ [16])) := by
            intro q
            conv_lhs => rw [hexT, hkeq]
            simp [List.append_assoc]
          have hcond : ∀ q : Path, lexLt (hexT (k ++ q)) s
              = lexLt (k.getD (commonPrefix k s).length 0
                    :: (k.drop ((commonPrefix k s).length + 1) ++ (q ++ [16])))
                  (s.getD (commonPrefix k s).length 0
                    :: s.drop ((commonPrefix k s).length + 1)) := by
            intro q
            conv_lhs => rw [hform q]
            conv_lhs =>
              arg 2
              rw [hseq]
            rw [lexLt_append_left]
          by_cases hC : s.getD (commonPrefix k s).length 0 < k.getD (commonPrefix k s).length 0
          · rw [show iterFrom (.ext k c) pre s = iterate c (pre ++ k) from by
                rw [iterFrom, if_neg hA, if_neg hB, if_pos hC], hiter]
            symm
            rw [List.filter_eq_self]
            intro e he
            obtain ⟨q, hq⟩ := hmemform e he
            rw [hq, show ((pre ++ k) ++ q).drop pre.length = k ++ q from by
              rw [List.append_assoc, List.drop_left]]
            rw [hcond q, lexLt_cons_of_gt hC]
            rfl
          · rw [show iterFrom (.ext k c) pre s = [] from by
                rw [iterFrom, if_neg hA, if_neg hB, if_neg hC], hiter]
            symm
            rw [List.filter_eq_nil_iff]
            intro e he
            obtain ⟨q, hq⟩ := hmemform e he
            rw [hq, show ((pre ++ k) ++ q).drop pre.length = k ++ q from by
              rw [List.append_assoc, List.drop_left]]
            rw [hcond q, lexLt_cons_of_lt (by omega) _ _]
            simp
  | .branch cs val, pre, [], ht, _ => by
      rw [show iterFrom (.branch cs val) pre [] = iterate (.branch cs val) pre from by
        rw [iterFrom]]
      symm
      rw [List.filter_eq_self]
      intro e he
      simp [lexLt_nil_right]
  | .branch cs val, pre, i :: s', ht, hs => by
      have ht' := ht
      simp only [wf, Bool.and_eq_true, beq_iff_eq] at ht'
      obtain ⟨⟨⟨hlen, hcs⟩, -⟩, -⟩ := ht'
      have hi : i < 16 := (nibs_cons.mp hs).1
      have hs' : nibs s' = true := (nibs_cons.mp hs).2
      rcases val with - | w
      · rw [show iterFrom (.branch cs none) pre (i :: s')
              = iterFromList cs 0 pre i s' ++ [] from by rw [iterFrom], List.append_nil,
          show iterate (.branch cs none) pre = iterList cs 0 pre ++ [] from by
            rw [iterate.eq_def], List.append_nil]
        exact iterFromList_filter cs 0 pre i s' hcs hs'
      · rw [show iterFrom (.branch cs (some w)) pre (i :: s')
              = iterFromList cs 0 pre i s' ++ [(pre, w)] from by rw [iterFrom],
          show iterate (.branch cs (some w)) pre = iterList cs 0 pre ++ [(pre, w)] from by
            rw [iterate.eq_def], List.filter_append,
          iterFromList_filter cs 0 pre i s' hcs hs']
        congr 1
        rw [List.filter_cons]
        rw [List.drop_length]
        rw [show lexLt (hexT []) (i :: s') = false from lexLt_cons_of_gt hi _ _]
        rfl
/-- Slot-wise seek equals the filtered slot iteration. -/
theorem iterFromList_filter : ∀ (cs : List Node) (j : Nat) (pre : Path) (i : Nat) (s' : Path),
    wfList cs = true → nibs s' = true →
    iterFromList cs j pre i s'
      = (iterList cs j pre).filter (fun e => !lexLt (hexT (e.1.drop pre.length)) (i :: s'))
  | [], _, _, _, _, _, _ => by
      rw [show iterFromList [] _ _ _ _ = [] from by rw [iterFromList],
        show iterList [] _ _ = [] from by rw [iterList]]
      rfl
  | c :: cs, j, pre, i, s', hcs, hs' => by
      rw [wfList, Bool.and_eq_true] at hcs
      rw [show iterFromList (c :: cs) j pre i s'
            = (if j < i then [] else if j = i then iterFrom c (pre ++ [j]) s'
               else iterate c (pre ++ [j])) ++ iterFromList cs (j + 1) pre i s' from by
          rw [iterFromList],
        show iterList (c :: cs) j pre = iterate c (pre ++ [j]) ++ iterList cs (j + 1) pre from by
          rw [iterList],
        List.filter_append, iterFromList_filter cs (j + 1) pre i s' hcs.2 hs']
      congr 1
      have hmemform : ∀ e, e ∈ iterate c (pre ++ [j]) →
          ∃ q, e.1 = (pre ++ [j]) ++ q := by
        intro e he
        obtain ⟨q, hq, -⟩ := (mem_iterate c (pre ++ [j]) e.1 e.2).mp (by
          rw [show (e.1, e.2) = e from rfl]
          exact he)
        exact ⟨q, hq⟩
      have hdropform : ∀ q : Path, ((pre ++ [j]) ++ q).drop pre.length = j :: q := by
        intro q
        rw [List.append_assoc, List.drop_left]
        rfl
      by_cases h1 : j < i
      · rw [if_pos h1]
        symm
        rw [List.filter_eq_nil_iff]
        intro e he
        obtain ⟨q, hq⟩ := hmemform e he
        rw [hq, hdropform, show hexT (j :: q) = j :: (q ++ [16]) from rfl,
          lexLt_cons_of_lt h1 _ _]
        simp
      · by_cases h2 : j = i
        · subst h2
          rw [if_neg h1, if_pos rfl,
            iterFrom_filter c (pre ++ [j]) s' hcs.1 hs']
          refine List.filter_congr ?_
          intro e he
          obtain ⟨q, hq⟩ := hmemform e he
          rw [hq, List.drop_left, hdropform,
            show hexT (j :: q) = j :: (q ++ [16]) from rfl, lexLt_cons_same]
          rfl
        · rw [if_neg h1, if_neg h2]
          symm
          rw [List.filter_eq_self]
          intro e he
          obtain ⟨q, hq⟩ := hmemform e he
          rw [hq, hdropform, show hexT (j :: q) = j :: (q ++ [16]) from rfl,
            lexLt_cons_of_gt (by omega) _ _]
          rfl
end

end MPT

namespace MPT

/-- C3 (amended): iteration from a seek path `s` yields exactly the
entries of the full iteration whose terminator-extended nibble paths are
`≥ s`, still in ascending nibble-path order — so the first yielded key is
the least such key, every trie key at or above the seek point is yielded,
and a seek beyond the largest key yields nothing.  The comparison is in
`keybytesToHex` order, not plain byte order: a stored key that is a proper
prefix of the seek prefix is still yielded (its terminator `16` sorts
after every nibble), as `TestIteratorSeek` expects for seek `"barc"`
yielding `"bar"`.  (Spec-modelled.) -/
theorem C3_seek (ops : List Op) (s : Path) (h : opsValid ops = true) (hs : nibs s = true) :
    iterFrom (build ops) [] s
      = (iterate (build ops) []).filter (fun e => !lexLt (hexT e.1) s) ∧
    List.Pairwise (fun a b => nibLt a.1 b.1 = true) (iterFrom (build ops) [] s) ∧
    (∀ e ∈ iterFrom (build ops) [] s, lexLt (hexT e.1) s = false) := by
  have hfe : iterFrom (build ops) [] s
      = (iterate (build ops) []).filter (fun e => !lexLt (hexT e.1) s) := by
    rw [iterFrom_filter (build ops) [] s (wf_build h) hs]
    exact List.filter_congr (fun e he => by simp)
  refine ⟨hfe, ?_, ?_⟩
  · rw [hfe]
    exact (iterate_pairwise (build ops) [] (wf_build h)).sublist (List.filter_sublist _)
  · intro e he
    rw [hfe] at he
    have := List.of_mem_filter he
    simpa using this

theorem C3_witness :
    iterFrom (build [Op.put [6, 15] [1], Op.put [6, 15, 6, 4] [2]]) [] [6, 15, 6, 4]
      = (iterate (build [Op.put [6, 15] [1], Op.put [6, 15, 6, 4] [2]]) []).filter
          (fun e => !lexLt (hexT e.1) [6, 15, 6, 4]) ∧
    List.Pairwise (fun a b => nibLt a.1 b.1 = true)
      (iterFrom (build [Op.put [6, 15] [1], Op.put [6, 15, 6, 4] [2]]) [] [6, 15, 6, 4]) ∧
    (∀ e ∈ iterFrom (build [Op.put [6, 15] [1], Op.put [6, 15, 6, 4] [2]]) [] [6, 15, 6, 4],
      lexLt (hexT e.1) [6, 15, 6, 4] = false) :=
  C3_seek [Op.put [6, 15] [1], Op.put [6, 15, 6, 4] [2]] [6, 15, 6, 4]
    (by decide) (by decide)

/-- C3 counterexample to the original claim: in the trie holding only the
byte key `"o"` (nibbles `[6,15]`), seeking the prefix `"od"` (nibbles
`[6,15,6,4]`) yields the key `"o"`, which is lexicographically smaller
than the seek prefix — the claim that the first yielded key is `≥` the
prefix (and that only greater keys follow) fails for stored keys that are
proper prefixes of the seek prefix. -/
theorem C3_counterexample :
    iterFrom (build [Op.put [6, 15] [1]]) [] [6, 15, 6, 4] = [([6, 15], [1])] ∧
    lexLt [6, 15] [6, 15, 6, 4] = true ∧
    hexPath [0x6F] = [6, 15] ∧ hexPath [0x6F, 0x64] = [6, 15, 6, 4] := by
  decide

end MPT

namespace MPT

mutual
/-- Every node path produced under a prefix extends that prefix. -/
theorem mem_nodePaths : ∀ (t : Node) (pre x : Path), x ∈ nodePaths t pre →
    ∃ rem, x = pre ++ rem
  | .empty, pre, x, h => by
      rw [nodePaths] at h
      exact absurd h (List.not_mem_nil x)
  | .leaf k v, pre, x, h => by
      rw [nodePaths, List.mem_singleton] at h
      exact ⟨[], by simp [h]⟩
  | .ext k c, pre, x, h => by
      rw [nodePaths, List.mem_cons] at h
      rcases h with rfl | h
      · exact ⟨[], by simp⟩
      · obtain ⟨rem, rfl⟩ := mem_nodePaths c (pre ++ k) x h
        exact ⟨k ++ rem, by rw [List.append_assoc]⟩
  | .branch cs val, pre, x, h => by
      rcases val with - | w
      · rw [show nodePaths (.branch cs none) pre
            = pre :: (nodePathsList cs 0 pre ++ []) from by rw [nodePaths.eq_def],
          List.append_nil, List.mem_cons] at h
        rcases h with rfl | h
        · exact ⟨[], by simp⟩
        · obtain ⟨j, rem, rfl, -, -⟩ := mem_nodePathsList cs 0 pre x h
          exact ⟨j :: rem, rfl⟩
      · rw [show nodePaths (.branch cs (some w)) pre
            = pre :: (nodePathsList cs 0 pre ++ [pre ++ [16]]) from by rw [nodePaths.eq_def],
          List.mem_cons, List.mem_append] at h
        rcases h with rfl | h | h
        · exact ⟨[], by simp⟩
        · obtain ⟨j, rem, rfl, -, -⟩ := mem_nodePathsList cs 0 pre x h
          exact ⟨j :: rem, rfl⟩
        · simp at h
          exact ⟨[16], by rw [h]⟩
/-- Node paths of the slot walk extend the prefix by an in-range slot. -/
theorem mem_nodePathsList : ∀ (cs : List Node) (i : Nat) (pre x : Path),
    x ∈ nodePathsList cs i pre →
    ∃ j rem, x = pre ++ j :: rem ∧ i ≤ j ∧ j < i + cs.length
  | [], _, _, x, h => by
      rw [nodePathsList] at h
      exact absurd h (List.not_mem_nil x)
  | c :: cs, i, pre, x, h => by
      rw [nodePathsList, List.mem_append] at h
      rcases h with h | h
      · obtain ⟨rem, rfl⟩ := mem_nodePaths c (pre ++ [i]) x h
        exact ⟨i, rem, by simp, Nat.le_refl i, by simp⟩
      · obtain ⟨j, rem, rfl, h1, h2⟩ := mem_nodePathsList cs (i + 1) pre x h
        exact ⟨j, rem, rfl, by omega, by simp; omega⟩
end

mutual
/-- The preorder node-path list is strictly ascending in plain
lexicographic order on nibble paths (a parent, being a strict prefix,
precedes its subtree; sibling slots diverge at their slot nibble; the
slot-16 value position comes last). -/
theorem nodePaths_pairwise : ∀ (t : Node) (pre : Path), wf t = true →
    List.Pairwise (fun a b => lexLt a b = true) (nodePaths t pre)
  | .empty, pre, _ => by
      rw [nodePaths]
      exact List.Pairwise.nil
  | .leaf k v, pre, _ => by
      rw [nodePaths]
      exact List.pairwise_singleton _ _
  | .ext k c, pre, ht => by
      simp only [wf, Bool.and_eq_true] at ht
      obtain ⟨⟨⟨hne, -⟩, -⟩, hwfc⟩ := ht
      rw [nodePaths, List.pairwise_cons]
      refine ⟨?_, nodePaths_pairwise c (pre ++ k) hwfc⟩
      intro x hx
      obtain ⟨rem, rfl⟩ := mem_nodePaths c (pre ++ k) x hx
      cases k with
      | nil => simp at hne
      | cons k0 k' =>
          rw [List.append_assoc, List.cons_append]
          exact lexLt_prefix pre k0 _
  | .branch cs val, pre, ht => by
      have ht' := ht
      simp only [wf, Bool.and_eq_true, beq_iff_eq] at ht'
      obtain ⟨⟨⟨hlen, hcs⟩, -⟩, -⟩ := ht'
      rcases val with - | w
      · rw [show nodePaths (.branch cs none) pre
            = pre :: (nodePathsList cs 0 pre ++ []) from by rw [nodePaths.eq_def],
          List.append_nil, List.pairwise_cons]
        refine ⟨?_, nodePathsList_pairwise cs 0 pre hcs (by omega)⟩
        intro x hx
        obtain ⟨j, rem, rfl, -, -⟩ := mem_nodePathsList cs 0 pre x hx
        exact lexLt_prefix pre j rem
      · rw [show nodePaths (.branch cs (some w)) pre
            = pre :: (nodePathsList cs 0 pre ++ [pre ++ [16]]) from by rw [nodePaths.eq_def],
          List.pairwise_cons]
        constructor
        · intro x hx
          rw [List.mem_append] at hx
          rcases hx with hx | hx
          · obtain ⟨j, rem, rfl, -, -⟩ := mem_nodePathsList cs 0 pre x hx
            exact lexLt_prefix pre j rem
          · simp at hx
            rw [hx]
            exact lexLt_prefix pre 16 []
        · rw [List.pairwise_append]
          refine ⟨nodePathsList_pairwise cs 0 pre hcs (by omega),
            List.pairwise_singleton _ _, ?_⟩
          intro a ha b hb
          simp at hb
          obtain ⟨j, rem, rfl, -, hj⟩ := mem_nodePathsList cs 0 pre a ha
          rw [hb, lexLt_append_left]
          exact lexLt_cons_of_lt (by omega) _ _
/-- Node paths of the slot walk are strictly ascending. -/
theorem nodePathsList_pairwise : ∀ (cs : List Node) (i : Nat) (pre : Path),
    wfList cs = true → i + cs.length ≤ 16 →
    List.Pairwise (fun a b => lexLt a b = true) (nodePathsList cs i pre)
  | [], _, _, _, _ => by
      rw [nodePathsList]
      exact List.Pairwise.nil
  | c :: cs, i, pre, hcs, hle => by
      rw [wfList, Bool.and_eq_true] at hcs
      rw [nodePathsList, List.pairwise_append]
      refine ⟨nodePaths_pairwise c (pre ++ [i]) hcs.1,
        nodePathsList_pairwise cs (i + 1) pre hcs.2 (by simp at hle; omega), ?_⟩
      intro a ha b hb
      obtain ⟨rem, rfl⟩ := mem_nodePaths c (pre ++ [i]) a ha
      obtain ⟨j, rem', rfl, hj1, -⟩ := mem_nodePathsList cs (i + 1) pre b hb
      rw [List.append_assoc, List.cons_append, List.nil_append, lexLt_append_left]
      exact lexLt_cons_of_lt (by omega) _ _
end

/-- Modelled from the spec (§4.5.1): the stack entries for a branch's child
slots from slot `i` upward, each child paired with its node path. -/
def childSlots : List Node → Nat → Path → List (Node × Path)
  | [], _, _ => []
  | c :: cs, i, pre => (c, pre ++ [i]) :: childSlots cs (i + 1) pre

/-- Modelled from the spec (§4.5.1): the entries pushed when a node is
resolved and visited, in slot order; a branch's value position is staged
as an empty-key leaf at `path ++ [16]`, last. -/
def children : Node → Path → List (Node × Path)
  | .empty, _ => []
  | .leaf _ _, _ => []
  | .ext k c, pre => [(c, pre ++ k)]
  | .branch cs val, pre =>
      childSlots cs 0 pre ++
        (match val with | some v => [(Node.leaf [] v, pre ++ [16])] | none => [])

/-- Paths reported when a node is visited: every resolvable node reports
its own path; an absent child reports nothing. -/
def visitPaths : Node → Path → List Path
  | .empty, _ => []
  | .leaf _ _, pre => [pre]
  | .ext _ _, pre => [pre]
  | .branch _ _, pre => [pre]

/-- The node paths that a fault-free continuation still owes for a pending
stack. -/
def drain (st : List (Node × Path)) : List Path :=
  st.flatMap (fun it => nodePaths it.1 it.2)

/-- Modelled from the spec (§4.5.3): the observable iterator state across
`Next` calls — the node paths already reported, and the pending stack. -/
structure IterState where
  emitted : List Path
  stack : List (Node × Path)

/-- Modelled from the spec (§4.5.3): one `Next` call. `fail = true` means
resolving the top pending node hit `MissingNode`: the error is returned,
nothing is reported and nothing advances, so after the caller repairs the
database the retried call re-attempts the very same node. A successful
call pops the top node, reports its path and pushes its children. -/
def stepOnce (s : IterState) (fail : Bool) : IterState :=
  match s.stack with
  | [] => s
  | (n, pre) :: rest =>
      if fail then s
      else ⟨s.emitted ++ visitPaths n pre, children n pre ++ rest⟩

/-- Run a whole schedule of `Next` outcomes. -/
def runSched (s : IterState) : List Bool → IterState
  | [] => s
  | b :: bs => runSched (stepOnce s b) bs

/-- A traversal of trie `t` from the root under failure schedule `bs`. -/
def runFrom (t : Node) (bs : List Bool) : IterState :=
  runSched ⟨[], [(t, [])]⟩ bs

mutual
/-- Fuel bound: the number of stack pops a node can cause. -/
def nodeCount : Node → Nat
  | .empty => 1
  | .leaf _ _ => 1
  | .ext _ c => 1 + nodeCount c
  | .branch cs val =>
      1 + countList cs + (match val with | some _ => 1 | none => 0)
/-- Fuel of a child-slot list. -/
def countList : List Node → Nat
  | [] => 0
  | c :: cs => nodeCount c + countList cs
end

/-- Total fuel of a pending stack. -/
def stackCount : List (Node × Path) → Nat
  | [] => 0
  | it :: rest => nodeCount it.1 + stackCount rest

theorem drain_cons (n : Node) (pre : Path) (rest : List (Node × Path)) :
    drain ((n, pre) :: rest) = nodePaths n pre ++ drain rest := by
  simp [drain]

theorem drain_append (a b : List (Node × Path)) :
    drain (a ++ b) = drain a ++ drain b := by
  simp [drain]

theorem drain_childSlots : ∀ (cs : List Node) (i : Nat) (pre : Path),
    drain (childSlots cs i pre) = nodePathsList cs i pre
  | [], i, pre => by rw [childSlots, nodePathsList]; rfl
  | c :: cs, i, pre => by
      rw [childSlots, nodePathsList, drain_cons, drain_childSlots cs (i + 1) pre]

/-- Visiting a node and then draining its children reproduces exactly its
fault-free node-path list. -/
theorem visit_children : ∀ (n : Node) (pre : Path),
    visitPaths n pre ++ drain (children n pre) = nodePaths n pre
  | .empty, pre => by rw [visitPaths, children, nodePaths]; rfl
  | .leaf k v, pre => by rw [visitPaths, children, nodePaths]; rfl
  | .ext k c, pre => by
      rw [visitPaths, children, nodePaths, drain_cons]
      simp [drain]
  | .branch cs val, pre => by
      rcases val with - | w
      · rw [show children (.branch cs none) pre = childSlots cs 0 pre ++ [] from by
            rw [children], visitPaths,
          show nodePaths (.branch cs none) pre
            = pre :: (nodePathsList cs 0 pre ++ []) from by rw [nodePaths.eq_def],
          List.append_nil, List.append_nil, drain_childSlots]
        rfl
      · rw [show children (.branch cs (some w)) pre
            = childSlots cs 0 pre ++ [(Node.leaf [] w, pre ++ [16])] from by
            rw [children], visitPaths,
          show nodePaths (.branch cs (some w)) pre
            = pre :: (nodePathsList cs 0 pre ++ [pre ++ [16]]) from by rw [nodePaths.eq_def],
          drain_append, drain_childSlots]
        simp [drain, nodePaths]

/-- One `Next` call preserves the total output owed. -/
theorem stepOnce_total (s : IterState) (b : Bool) :
    (stepOnce s b).emitted ++ drain (stepOnce s b).stack
      = s.emitted ++ drain s.stack := by
  rcases s with ⟨em, st⟩
  rcases st with - | ⟨⟨n, pre⟩, rest⟩
  · rfl
  · rcases b with - | -
    · show (em ++ visitPaths n pre) ++ drain (children n pre ++ rest) = _
      rw [drain_append, List.append_assoc, ← List.append_assoc (visitPaths n pre),
        visit_children, drain_cons]
    · rfl

theorem runSched_total : ∀ (bs : List Bool) (s : IterState),
    (runSched s bs).emitted ++ drain (runSched s bs).stack
      = s.emitted ++ drain s.stack
  | [], s => rfl
  | b :: bs, s => by
      rw [runSched, runSched_total bs (stepOnce s b), stepOnce_total]

theorem stepOnce_emitted (s : IterState) (b : Bool) :
    ∃ l, (stepOnce s b).emitted = s.emitted ++ l := by
  rcases s with ⟨em, st⟩
  rcases st with - | ⟨⟨n, pre⟩, rest⟩
  · exact ⟨[], by simp [stepOnce]⟩
  · rcases b with - | -
    · exact ⟨visitPaths n pre, rfl⟩
    · exact ⟨[], by simp [stepOnce]⟩

theorem runSched_emitted : ∀ (bs : List Bool) (s : IterState),
    ∃ l, (runSched s bs).emitted = s.emitted ++ l
  | [], s => ⟨[], by simp [runSched]⟩
  | b :: bs, s => by
      obtain ⟨l1, h1⟩ := stepOnce_emitted s b
      obtain ⟨l2, h2⟩ := runSched_emitted bs (stepOnce s b)
      exact ⟨l1 ++ l2, by rw [runSched, h2, h1, List.append_assoc]⟩

theorem runSched_append : ∀ (bs bs' : List Bool) (s : IterState),
    runSched s (bs ++ bs') = runSched (runSched s bs) bs'
  | [], bs', s => rfl
  | b :: bs, bs', s => by
      rw [List.cons_append, runSched, runSched, runSched_append bs bs']

theorem stackCount_cons (n : Node) (pre : Path) (rest : List (Node × Path)) :
    stackCount ((n, pre) :: rest) = nodeCount n + stackCount rest := rfl

theorem stackCount_append : ∀ (a b : List (Node × Path)),
    stackCount (a ++ b) = stackCount a + stackCount b
  | [], b => by rw [stackCount, List.nil_append]; omega
  | it :: a, b => by
      rw [List.cons_append, stackCount, stackCount, stackCount_append a b]; omega

theorem stackCount_childSlots : ∀ (cs : List Node) (i : Nat) (pre : Path),
    stackCount (childSlots cs i pre) = countList cs
  | [], i, pre => by rw [childSlots, stackCount, countList]
  | c :: cs, i, pre => by
      rw [childSlots, stackCount, countList, stackCount_childSlots cs (i + 1) pre]

theorem stackCount_children (n : Node) (pre : Path) :
    stackCount (children n pre) < nodeCount n := by
  rcases n with - | ⟨k, v⟩ | ⟨k, c⟩ | ⟨cs, val⟩
  · rw [children, stackCount, nodeCount]; omega
  · rw [children, stackCount, nodeCount]; omega
  · simp only [children, stackCount, nodeCount]; omega
  · rcases val with - | w
    · rw [show children (.branch cs none) pre = childSlots cs 0 pre ++ [] from by
          rw [children], List.append_nil, stackCount_childSlots, nodeCount]
      omega
    · rw [show children (.branch cs (some w)) pre
            = childSlots cs 0 pre ++ [(Node.leaf [] w, pre ++ [16])] from by
          rw [children], stackCount_append, stackCount_childSlots]
      simp only [stackCount, nodeCount]
      omega

theorem stepOnce_count_le (s : IterState) (b : Bool) :
    stackCount (stepOnce s b).stack ≤ stackCount s.stack := by
  rcases s with ⟨em, st⟩
  rcases st with - | ⟨⟨n, pre⟩, rest⟩
  · exact Nat.le_refl _
  · rcases b with - | -
    · show stackCount (children n pre ++ rest) ≤ _
      rw [stackCount_append, stackCount_cons]
      have := stackCount_children n pre
      omega
    · exact Nat.le_refl _

theorem runSched_count_le : ∀ (bs : List Bool) (s : IterState),
    stackCount (runSched s bs).stack ≤ stackCount s.stack
  | [], s => Nat.le_refl _
  | b :: bs, s =>
      Nat.le_trans (runSched_count_le bs (stepOnce s b)) (stepOnce_count_le s b)

theorem nodeCount_pos (n : Node) : 1 ≤ nodeCount n := by
  rcases n with - | ⟨k, v⟩ | ⟨k, c⟩ | ⟨cs, val⟩
  · have e : nodeCount Node.empty = 1 := by rw [nodeCount.eq_def]
    omega
  · have e : nodeCount (Node.leaf k v) = 1 := by rw [nodeCount.eq_def]
    omega
  · have e : nodeCount (Node.ext k c) = 1 + nodeCount c := by rw [nodeCount.eq_def]
    omega
  · rcases val with - | w
    · have e : nodeCount (Node.branch cs none) = 1 + countList cs + 0 := by
        rw [nodeCount.eq_def]
      omega
    · have e : nodeCount (Node.branch cs (some w)) = 1 + countList cs + 1 := by
        rw [nodeCount.eq_def]
      omega

/-- With enough repaired (successful) calls the pending stack empties. -/
theorem runFalse_empties : ∀ (m : Nat) (s : IterState),
    stackCount s.stack ≤ m → (runSched s (List.replicate m false)).stack = []
  | 0, s, h => by
      rcases s with ⟨em, st⟩
      rcases st with - | ⟨⟨n, pre⟩, rest⟩
      · rfl
      · exfalso
        rw [stackCount_cons] at h
        have := nodeCount_pos n
        omega
  | m + 1, s, h => by
      rw [List.replicate_succ, runSched]
      rcases hst : s.stack with - | ⟨⟨n, pre⟩, rest⟩
      · refine runFalse_empties m (stepOnce s false) ?_
        have hs : stepOnce s false = s := by
          rcases s with ⟨em, st⟩
          simp only at hst
          rw [hst]
          rfl
        rw [hs, hst, stackCount]
        omega
      · refine runFalse_empties m (stepOnce s false) ?_
        rcases s with ⟨em, st⟩
        simp only at hst
        rw [hst]
        show stackCount (children n pre ++ rest) ≤ m
        rw [stackCount_append]
        have h1 := stackCount_children n pre
        rw [hst, stackCount_cons] at h
        omega

/-- A well-formed trie's preorder node-path list has no duplicates. -/
theorem nodePaths_nodup (t : Node) (h : wf t = true) : (nodePaths t []).Nodup :=
  (nodePaths_pairwise t [] h).imp (fun hab => lexLt_ne hab)

/-- **C4**: under any schedule of `MissingNode` failures that the caller
repairs before retrying `Next`, the traversal (a) always owes exactly the
fault-free remainder, so on completion it has visited exactly the
fault-free node-path set, (b) never reports a node path twice, (c) only
extends — never revisits — the set of paths already seen, and (d) finishes
the full fault-free preorder once enough repaired calls follow. -/
theorem C4_no_dups_under_retry (t : Node) (bs : List Bool) (h : wf t = true) :
    (runFrom t bs).emitted ++ drain (runFrom t bs).stack = nodePaths t [] ∧
    (runFrom t bs).emitted.Nodup ∧
    (∀ bs', (runFrom t bs).emitted <+: (runFrom t (bs ++ bs')).emitted) ∧
    (runFrom t (bs ++ List.replicate (nodeCount t) false)).emitted = nodePaths t [] ∧
    (runFrom t (bs ++ List.replicate (nodeCount t) false)).stack = [] := by
  have htot : ∀ cs, (runFrom t cs).emitted ++ drain (runFrom t cs).stack
      = nodePaths t [] := by
    intro cs
    rw [runFrom, runSched_total cs ⟨[], [(t, [])]⟩]
    show [] ++ drain [(t, [])] = _
    rw [List.nil_append, drain_cons]
    simp [drain]
  have hstk : (runFrom t (bs ++ List.replicate (nodeCount t) false)).stack = [] := by
    rw [runFrom, runSched_append]
    refine runFalse_empties (nodeCount t) (runSched ⟨[], [(t, [])]⟩ bs) ?_
    refine Nat.le_trans (runSched_count_le bs ⟨[], [(t, [])]⟩) ?_
    rw [stackCount_cons, stackCount]
    omega
  refine ⟨htot bs, ?_, ?_, ?_, hstk⟩
  · refine ((nodePaths_nodup t h).sublist ?_)
    exact (List.IsPrefix.sublist ⟨drain (runFrom t bs).stack, htot bs⟩)
  · intro bs'
    obtain ⟨l, hl⟩ := runSched_emitted bs' (runFrom t bs)
    refine ⟨l, ?_⟩
    rw [show runFrom t (bs ++ bs') = runSched (runFrom t bs) bs' from by
      rw [runFrom, runSched_append]; rfl, hl]
  · have := htot (bs ++ List.replicate (nodeCount t) false)
    rw [hstk] at this
    show _ = nodePaths t []
    rw [← this]
    simp [drain]

/-- A concrete trie for exercising the retry machine. -/
def t4 : Node := build [Op.put [1, 2] [5], Op.put [2] [7], Op.put [1, 2, 3] [9]]

/-- A concrete failure schedule: the second and fourth `Next` calls hit
`MissingNode` and are retried after repair. -/
def bs4 : List Bool := [false, true, false, true, false]

/-- Witness for C4 at a concrete trie and failure schedule. -/
theorem C4_witness :
    wf t4 = true ∧
    (runFrom t4 bs4).emitted.Nodup ∧
    (runFrom t4 (bs4 ++ List.replicate (nodeCount t4) false)).emitted
      = nodePaths t4 [] :=
  ⟨by decide, (C4_no_dups_under_retry t4 bs4 (by decide)).2.1,
    (C4_no_dups_under_retry t4 bs4 (by decide)).2.2.2.1⟩

end MPT

namespace MPT

/-- Modelled from the spec (§4.4.1): the node database — a dirty tier
(FIFO write-buffer), a clean cache tier and the backing store, each a
hash-to-blob association list in insertion order. -/
structure Database where
  dirties : List (Bytes × Bytes)
  cleans : List (Bytes × Bytes)
  disk : List (Bytes × Bytes)
deriving DecidableEq, Repr

/-- First association for a hash within one tier. -/
def lookupTier : List (Bytes × Bytes) → Bytes → Option Bytes
  | [], _ => none
  | (k, b) :: r, h => if k = h then some b else lookupTier r h

/-- Modelled from the spec (§4.4.4): resolution order dirty tier → clean
tier → backing store. -/
def dbLookup (db : Database) (h : Bytes) : Option Bytes :=
  match lookupTier db.dirties h with
  | some b => some b
  | none =>
    match lookupTier db.cleans h with
    | some b => some b
    | none => lookupTier db.disk h

/-- Modelled from the spec (§4.4.4): the reserved all-zero 32-byte
sentinel hash. -/
def emptyHash : Bytes := List.replicate 32 0

/-- Outcome of `Node(hash)`: the stored blob, or a `MissingNode` error
naming the unresolvable hash. -/
inductive NodeResult where
  | found (b : Bytes) : NodeResult
  | missingNode (h : Bytes) : NodeResult
deriving DecidableEq, Repr

/-- Modelled from the spec (§4.4.4): `Node(hash)` — the sentinel check
comes before any tier lookup, so `emptyHash` is never resolvable; any
other hash is resolved dirty → clean → backing store, an unresolved hash
being a `MissingNode` error. -/
def dbNode (db : Database) (h : Bytes) : NodeResult :=
  if h = emptyHash then .missingNode h
  else
    match dbLookup db h with
    | some b => .found b
    | none => .missingNode h

/-- Modelled from the spec (§4.3.4‑2, §4.4.3‑4): registering a blob under
its hash into the dirty tier.  The store is content-addressed: a hash
that already resolves is not registered again, which is what makes
re-committing a no-op. -/
def dbInsert (db : Database) (h b : Bytes) : Database :=
  match dbLookup db h with
  | some _ => db
  | none => ⟨db.dirties ++ [(h, b)], db.cleans, db.disk⟩

/-- Register a batch of (hash, blob) pairs in order. -/
def dbInsertAll (db : Database) (items : List (Bytes × Bytes)) : Database :=
  items.foldl (fun d hb => dbInsert d hb.1 hb.2) db

mutual
/-- Modelled from the spec (§4.3.4): the (hash, blob) pairs one commit
registers, children before parents (post-order). -/
def commitNodes : Node → List (Bytes × Bytes)
  | .empty => []
  | .leaf k v => [(hashOf (encode (.leaf k v)), encode (.leaf k v))]
  | .ext k c => commitNodes c ++ [(hashOf (encode (.ext k c)), encode (.ext k c))]
  | .branch cs val =>
      commitNodesList cs ++
        [(hashOf (encode (.branch cs val)), encode (.branch cs val))]
/-- Commit collection over the child slots in order. -/
def commitNodesList : List Node → List (Bytes × Bytes)
  | [] => []
  | c :: cs => commitNodes c ++ commitNodesList cs
end

/-- Modelled from the spec (§4.3.1): `Commit()` — hash the trie
bottom-up, register every node blob in the database's dirty tier and
return the 32-byte root hash; committing does not change the tree. -/
def commitTrie (t : Node) (db : Database) : Bytes × Database :=
  (hashRoot t, dbInsertAll db (commitNodes t))

/-- **C1**: for every database state — whatever the three tiers hold,
even a blob filed under the sentinel itself — `Node(emptyHash)` returns a
`MissingNode` error and never a blob. -/
theorem C1_empty_hash_missing (db : Database) :
    dbNode db emptyHash = NodeResult.missingNode emptyHash ∧
    ∀ b, dbNode db emptyHash ≠ NodeResult.found b := by
  constructor
  · rw [dbNode, if_pos rfl]
  · intro b h
    rw [dbNode, if_pos rfl] at h
    exact NodeResult.noConfusion h

theorem lookupTier_append : ∀ (xs ys : List (Bytes × Bytes)) (h : Bytes),
    lookupTier (xs ++ ys) h
      = (match lookupTier xs h with | some b => some b | none => lookupTier ys h)
  | [], ys, h => by rw [List.nil_append, lookupTier]
  | (k, b) :: r, ys, h => by
      rw [List.cons_append, lookupTier, lookupTier]
      by_cases hk : k = h
      · rw [if_pos hk, if_pos hk]
      · rw [if_neg hk, if_neg hk]
        exact lookupTier_append r ys h

/-- How one registration changes resolution: only a fresh hash gains a
binding, and nothing else moves. -/
theorem dbLookup_mk (ds cl dk : List (Bytes × Bytes)) (h : Bytes) :
    dbLookup ⟨ds, cl, dk⟩ h
      = (match lookupTier ds h with
         | some b => some b
         | none =>
           match lookupTier cl h with
           | some b => some b
           | none => lookupTier dk h) := rfl

/-- How one registration changes resolution: only a fresh hash gains a
binding, and nothing else moves. -/
theorem dbLookup_dbInsert (db : Database) (h b h' : Bytes) :
    dbLookup (dbInsert db h b) h'
      = if h' = h ∧ dbLookup db h = none then some b else dbLookup db h' := by
  rcases db with ⟨ds, cl, dk⟩
  rcases hdb : dbLookup ⟨ds, cl, dk⟩ h with - | v
  · have hds : lookupTier ds h = none := by
      rw [dbLookup_mk] at hdb
      rcases hld : lookupTier ds h with - | w
      · rfl
      · rw [hld] at hdb
        exact Option.noConfusion hdb
    rw [dbInsert, hdb]
    by_cases hh : h' = h
    · rw [if_pos ⟨hh, rfl⟩]
      show dbLookup ⟨ds ++ [(h, b)], cl, dk⟩ h' = some b
      rw [dbLookup_mk, lookupTier_append, hh, hds, lookupTier, if_pos rfl]
    · rw [if_neg (fun hc => hh hc.1)]
      show dbLookup ⟨ds ++ [(h, b)], cl, dk⟩ h' = dbLookup ⟨ds, cl, dk⟩ h'
      have hsingle : lookupTier [(h, b)] h' = none := by
        rw [lookupTier, if_neg (fun he => hh he.symm), lookupTier]
      rw [dbLookup_mk, dbLookup_mk, lookupTier_append]
      rcases hld : lookupTier ds h' with - | w
      · rw [hsingle]
      · rfl
  · rw [dbInsert, hdb, if_neg (fun hc => Option.noConfusion hc.2)]

theorem dbInsertAll_cons (db : Database) (hb : Bytes × Bytes)
    (items : List (Bytes × Bytes)) :
    dbInsertAll db (hb :: items) = dbInsertAll (dbInsert db hb.1 hb.2) items := rfl

theorem dbInsertAll_mono : ∀ (items : List (Bytes × Bytes)) (db : Database)
    (h' : Bytes), (dbLookup db h').isSome = true →
    (dbLookup (dbInsertAll db items) h').isSome = true
  | [], _, _, hs => hs
  | hb :: items, db, h', hs => by
      rw [dbInsertAll_cons]
      refine dbInsertAll_mono items _ h' ?_
      rw [dbLookup_dbInsert]
      by_cases hc : h' = hb.1 ∧ dbLookup db hb.1 = none
      · rw [if_pos hc]
        rfl
      · rw [if_neg hc]
        exact hs

/-- After a batch every registered hash resolves. -/
theorem dbInsertAll_resolves : ∀ (items : List (Bytes × Bytes)) (db : Database)
    (hb : Bytes × Bytes), hb ∈ items →
    (dbLookup (dbInsertAll db items) hb.1).isSome = true
  | hb' :: items, db, hb, hmem => by
      rw [dbInsertAll_cons]
      rcases List.mem_cons.mp hmem with rfl | hmem'
      · refine dbInsertAll_mono items _ _ ?_
        rw [dbLookup_dbInsert]
        by_cases hc : hb.1 = hb.1 ∧ dbLookup db hb.1 = none
        · rw [if_pos hc]
          rfl
        · rw [if_neg hc]
          rcases hdb : dbLookup db hb.1 with - | v
          · exact absurd ⟨rfl, hdb⟩ hc
          · rfl
      · exact dbInsertAll_resolves items _ hb hmem'

/-- Registering a batch whose hashes all resolve already is a no-op. -/
theorem dbInsertAll_id : ∀ (items : List (Bytes × Bytes)) (db : Database),
    (∀ hb ∈ items, (dbLookup db hb.1).isSome = true) → dbInsertAll db items = db
  | [], _, _ => rfl
  | hb :: items, db, hall => by
      have h1 : (dbLookup db hb.1).isSome = true := hall hb (List.mem_cons_self hb items)
      have hins : dbInsert db hb.1 hb.2 = db := by
        rw [dbInsert]
        rcases hdb : dbLookup db hb.1 with - | v
        · rw [hdb] at h1
          exact Bool.noConfusion h1
        · rfl
      rw [dbInsertAll_cons, hins]
      exact dbInsertAll_id items db (fun x hx => hall x (List.mem_cons_of_mem _ hx))

/-- **C8**: `Commit()` twice in a row returns the same 32-byte root hash
both times and the second call writes nothing new: the dirty tier, the
backing store — the whole database — are unchanged by the second call. -/
theorem C8_commit_idempotent (t : Node) (db : Database) :
    (commitTrie t (commitTrie t db).2).1 = (commitTrie t db).1 ∧
    ((commitTrie t (commitTrie t db).2).2).dirties = ((commitTrie t db).2).dirties ∧
    ((commitTrie t (commitTrie t db).2).2).disk = ((commitTrie t db).2).disk ∧
    (commitTrie t (commitTrie t db).2).2 = (commitTrie t db).2 := by
  have hdb : (commitTrie t (commitTrie t db).2).2 = (commitTrie t db).2 := by
    show dbInsertAll (dbInsertAll db (commitNodes t)) (commitNodes t) = _
    exact dbInsertAll_id _ _ (fun hb hmem => dbInsertAll_resolves _ db hb hmem)
  exact ⟨rfl, by rw [hdb], by rw [hdb], hdb⟩

end MPT

namespace MPT

/-- Modelled from the spec (§3.2, §4.2): node shapes as held in memory
during resolution — the four variants plus a hash reference to a subtree
not yet loaded from the node database. -/
inductive NodeR where
  | empty : NodeR
  | leaf (key : Path) (val : Bytes) : NodeR
  | ext (key : Path) (child : NodeR) : NodeR
  | branch (children : List NodeR) (val : Option Bytes) : NodeR
  | href (h : Bytes) : NodeR

/-- Modelled from the spec (§7): the error kinds of the trie surface. -/
inductive TErr where
  | missingNode (h : Bytes) (path : Path) : TErr
  | decodeError (h : Bytes) : TErr
  | invalidKey : TErr
  | invariantViolation : TErr

/-- Modelled from the spec (§7): what resolving one hash against the node
database yields — not there, there but malformed, or a decoded node. -/
inductive Resolved where
  | absent : Resolved
  | malformed : Resolved
  | node (n : NodeR) : Resolved

/-- 16 empty slots for staged branch construction. -/
def emptyChildrenR : List NodeR := List.replicate 16 .empty

/-- The leaf split of §4.3.2 on staged nodes. -/
def branchTwoR (k1 : Path) (v1 : Bytes) (k2 : Path) (v2 : Bytes) : NodeR :=
  match k1, k2 with
  | [], [] => .leaf [] v2
  | [], i2 :: r2 => .branch (emptyChildrenR.set i2 (.leaf r2 v2)) (some v1)
  | i1 :: r1, [] => .branch (emptyChildrenR.set i1 (.leaf r1 v1)) (some v2)
  | i1 :: r1, i2 :: r2 =>
      .branch ((emptyChildrenR.set i1 (.leaf r1 v1)).set i2 (.leaf r2 v2)) none

/-- Wrap a staged node under an extension, unless the path is empty. -/
def extWrapR (cp : Path) (n : NodeR) : NodeR := if cp.isEmpty then n else .ext cp n

/-- The original child of a split extension, staged. -/
def oldChildR (rest : Path) (c : NodeR) : NodeR := if rest.isEmpty then c else .ext rest c

/-- The extension split of §4.3.2 on staged nodes. -/
def splitExtR (cp : Path) (j : Nat) (rest : Path) (c : NodeR) : Path → Bytes → NodeR
  | [], v => extWrapR cp (.branch (emptyChildrenR.set j (oldChildR rest c)) (some v))
  | i :: r, v =>
      extWrapR cp
        (.branch ((emptyChildrenR.set j (oldChildR rest c)).set i (.leaf r v)) none)

/-- Modelled from the spec (§4.3.2, §7): resolving insertion.  The
mutation is staged into fresh node instances; a hash reference is loaded
from the database when reached, an absent hash raising `MissingNode` with
the hash and the absolute path `pre` of the failing reference, a
malformed blob raising `DecodeError`; every error short-circuits upward
unchanged through the staged constructors.  `fuel` bounds the descent,
its exhaustion an `InvariantViolation`. -/
def insertR (db : Bytes → Resolved) :
    Nat → NodeR → Path → Path → Bytes → Except TErr NodeR
  | 0, _, _, _, _ => .error .invariantViolation
  | _ + 1, .empty, _, p, v => .ok (.leaf p v)
  | _ + 1, .leaf lk lv, _, p, v =>
      if p = lk then .ok (.leaf lk v)
      else
        .ok (extWrapR (commonPrefix lk p)
          (branchTwoR (lk.drop (commonPrefix lk p).length) lv
            (p.drop (commonPrefix lk p).length) v))
  | fuel + 1, .ext ek c, pre, p, v =>
      if (commonPrefix ek p).length = ek.length then
        match insertR db fuel c (pre ++ ek) (p.drop ek.length) v with
        | .ok c2 => .ok (.ext ek c2)
        | .error e => .error e
      else
        .ok (splitExtR (commonPrefix ek p) (ek.getD (commonPrefix ek p).length 0)
          (ek.drop ((commonPrefix ek p).length + 1)) c (p.drop (commonPrefix ek p).length) v)
  | _ + 1, .branch cs _, _, [], v => .ok (.branch cs (some v))
  | fuel + 1, .branch cs val, pre, i :: r, v =>
      match insertR db fuel (cs.getD i .empty) (pre ++ [i]) r v with
      | .ok c2 => .ok (.branch (cs.set i c2) val)
      | .error e => .error e
  | fuel + 1, .href hh, pre, p, v =>
      match db hh with
      | .absent => .error (.missingNode hh pre)
      | .malformed => .error (.decodeError hh)
      | .node m => insertR db fuel m pre p v

/-- Modelled from the spec (§7): a trie handle — its current root. -/
structure TrieR where
  root : NodeR

/-- Whether a staged node is the absent node. -/
def isEmptyR : NodeR → Bool
  | .empty => true
  | _ => false

/-- The non-empty slots of a staged child list, indexed from `i`. -/
def nonEmptySlotsFromR : List NodeR → Nat → List (Nat × NodeR)
  | [], _ => []
  | c :: cs, i =>
      (if isEmptyR c then [] else [(i, c)]) ++ nonEmptySlotsFromR cs (i + 1)

/-- The non-empty slots of a staged branch's child list. -/
def nonEmptySlotsR (cs : List NodeR) : List (Nat × NodeR) := nonEmptySlotsFromR cs 0

/-- The slot collapse of §4.3.3 on staged nodes (applied to an already
resolved child, so the reference arm keeps the reference under a
one-nibble extension like a branch would be kept). -/
def mergeSlotR (i : Nat) (c : NodeR) : NodeR :=
  match c with
  | .leaf k v => .leaf (i :: k) v
  | .ext k c2 => .ext (i :: k) c2
  | .branch cs v => .ext [i] (.branch cs v)
  | .empty => .empty
  | .href h => .ext [i] (.href h)

/-- The path merging of §4.3.3 on the unwind of a staged deletion. -/
def mergeExtR (k : Path) : NodeR → NodeR
  | .empty => .empty
  | .leaf k2 v => .leaf (k ++ k2) v
  | .ext k2 c => .ext (k ++ k2) c
  | .branch cs v => .ext k (.branch cs v)
  | .href h => .ext k (.href h)

/-- Modelled from the spec (§4.4.4, §7): resolving one staged node,
loading it through the database when it is a hash reference: an absent
hash is `MissingNode` carrying the hash and the absolute path of the
failing reference, a malformed blob is `DecodeError`. -/
def resolveR (db : Bytes → Resolved) : NodeR → Path → Except TErr NodeR
  | .href hh, pre =>
      match db hh with
      | .absent => .error (.missingNode hh pre)
      | .malformed => .error (.decodeError hh)
      | .node m => .ok m
  | .empty, _ => .ok .empty
  | .leaf k v, _ => .ok (.leaf k v)
  | .ext k c, _ => .ok (.ext k c)
  | .branch cs val, _ => .ok (.branch cs val)

/-- Modelled from the spec (§4.3.3, §7): the staged normalization of a
branch after a removal.  Collapsing onto a lone remaining child must
resolve that child first — the place where a deletion can itself hit
`MissingNode` or `DecodeError` on the way out. -/
def fixBranchR (db : Bytes → Resolved) (pre : Path) (cs : List NodeR)
    (val : Option Bytes) : Except TErr NodeR :=
  match nonEmptySlotsR cs, val with
  | [], none => .ok .empty
  | [], some v => .ok (.leaf [] v)
  | [(i, c)], none =>
      match resolveR db c (pre ++ [i]) with
      | .ok c2 => .ok (mergeSlotR i c2)
      | .error e => .error e
  | _, _ => .ok (.branch cs val)

/-- Modelled from the spec (§4.3.3, §7): resolving deletion with
normalization on the way out, staged into fresh node instances; every
error — from loading a reference on the way down or from resolving a
lone sibling while collapsing on the way up — short-circuits upward
unchanged. -/
def deleteR (db : Bytes → Resolved) : Nat → NodeR → Path → Path → Except TErr NodeR
  | 0, _, _, _ => .error .invariantViolation
  | _ + 1, .empty, _, _ => .ok .empty
  | _ + 1, .leaf k v, _, p => .ok (if p = k then .empty else .leaf k v)
  | fuel + 1, .ext k c, pre, p =>
      if k.isPrefixOf p then
        match deleteR db fuel c (pre ++ k) (p.drop k.length) with
        | .ok c2 => .ok (mergeExtR k c2)
        | .error e => .error e
      else .ok (.ext k c)
  | _ + 1, .branch cs _, pre, [] => fixBranchR db pre cs none
  | fuel + 1, .branch cs val, pre, i :: r =>
      match deleteR db fuel (cs.getD i .empty) (pre ++ [i]) r with
      | .ok c2 => fixBranchR db pre (cs.set i c2) val
      | .error e => .error e
  | fuel + 1, .href hh, pre, p =>
      match db hh with
      | .absent => .error (.missingNode hh pre)
      | .malformed => .error (.decodeError hh)
      | .node m => deleteR db fuel m pre p

/-- Modelled from the spec (§4.3.1, §7): resolving `Get`, descending by
nibbles and loading hash references on the way; it builds nothing and
any resolution error surfaces unchanged. -/
def getR (db : Bytes → Resolved) : Nat → NodeR → Path → Path → Except TErr (Option Bytes)
  | 0, _, _, _ => .error .invariantViolation
  | _ + 1, .empty, _, _ => .ok none
  | _ + 1, .leaf k v, _, p => .ok (if p = k then some v else none)
  | fuel + 1, .ext k c, pre, p =>
      if k.isPrefixOf p then getR db fuel c (pre ++ k) (p.drop k.length)
      else .ok none
  | _ + 1, .branch _ val, _, [] => .ok val
  | fuel + 1, .branch cs _, pre, i :: r => getR db fuel (cs.getD i .empty) (pre ++ [i]) r
  | fuel + 1, .href hh, pre, p =>
      match db hh with
      | .absent => .error (.missingNode hh pre)
      | .malformed => .error (.decodeError hh)
      | .node m => getR db fuel m pre p

mutual
/-- Modelled from the spec (§4.3.1 table, §4.3.4): the commit walk fully
loads the subtree — every reference resolved through the database — so
the whole of it can be serialized and registered; a dangling reference
is `Commit()`'s `MissingNode` failure of the operation table,
restartable after the caller repairs the database. -/
def commitR (db : Bytes → Resolved) : Nat → NodeR → Path → Except TErr Node
  | 0, _, _ => .error .invariantViolation
  | _ + 1, .empty, _ => .ok .empty
  | _ + 1, .leaf k v, _ => .ok (.leaf k v)
  | fuel + 1, .ext k c, pre =>
      match commitR db fuel c (pre ++ k) with
      | .ok c2 => .ok (.ext k c2)
      | .error e => .error e
  | fuel + 1, .branch cs val, pre =>
      match commitListR db fuel cs 0 pre with
      | .ok cs2 => .ok (.branch cs2 val)
      | .error e => .error e
  | fuel + 1, .href hh, pre =>
      match db hh with
      | .absent => .error (.missingNode hh pre)
      | .malformed => .error (.decodeError hh)
      | .node m => commitR db fuel m pre
/-- The commit walk over the child slots from slot `i`. -/
def commitListR (db : Bytes → Resolved) :
    Nat → List NodeR → Nat → Path → Except TErr (List Node)
  | 0, _, _, _ => .error .invariantViolation
  | _ + 1, [], _, _ => .ok []
  | fuel + 1, c :: cs, i, pre =>
      match commitR db fuel c (pre ++ [i]) with
      | .ok c2 =>
          match commitListR db fuel cs (i + 1) pre with
          | .ok cs2 => .ok (c2 :: cs2)
          | .error e => .error e
      | .error e => .error e
end

/-- Modelled from the spec (§4.3.1): one call of the trie's operation
surface (the iterator is treated separately). -/
inductive OpR where
  | get (key : Path) : OpR
  | update (key : Path) (v : Bytes) : OpR
  | delete (key : Path) : OpR
  | commit : OpR

/-- Modelled from the spec (§3.4.5, §4.3.1, §7): running one operation
against a database.  `Update` rejects the empty key as `InvalidKey` and
routes an empty value blob to deletion; mutations are staged into fresh
node instances and only on success is the root replaced, so a failed
call returns its error with the handle untouched. -/
def applyOpR (db : Bytes → Resolved) (fuel : Nat) (tr : TrieR) :
    OpR → TrieR × Option TErr
  | .get key =>
      match getR db fuel tr.root [] key with
      | .ok _ => (tr, none)
      | .error e => (tr, some e)
  | .update key v =>
      if key.isEmpty then (tr, some .invalidKey)
      else
        match (if v.isEmpty then deleteR db fuel tr.root [] key
               else insertR db fuel tr.root [] key v) with
        | .ok n2 => (⟨n2⟩, none)
        | .error e => (tr, some e)
  | .delete key =>
      match deleteR db fuel tr.root [] key with
      | .ok n2 => (⟨n2⟩, none)
      | .error e => (tr, some e)
  | .commit =>
      match commitR db fuel tr.root [] with
      | .ok _ => (tr, none)
      | .error e => (tr, some e)

/-- Every error surfaced by resolving insertion is an exhausted descent,
a `MissingNode` naming a hash genuinely absent from the database, or a
`DecodeError` naming a hash whose blob is genuinely malformed — and it
reaches the surface unchanged. -/
theorem insertR_error_shape (db : Bytes → Resolved) : ∀ (fuel : Nat) (n : NodeR)
    (pre p : Path) (v : Bytes) (e : TErr),
    insertR db fuel n pre p v = .error e →
    e = .invariantViolation ∨
    (∃ hh q, e = .missingNode hh q ∧ db hh = .absent) ∨
    (∃ hh, e = .decodeError hh ∧ db hh = .malformed)
  | 0, n, pre, p, v, e, h => by
      rw [insertR] at h
      injection h with h2
      exact Or.inl h2.symm
  | fuel + 1, .empty, pre, p, v, e, h => by
      rw [insertR] at h
      exact Except.noConfusion h
  | fuel + 1, .leaf lk lv, pre, p, v, e, h => by
      rw [insertR] at h
      by_cases hp : p = lk
      · rw [if_pos hp] at h
        exact Except.noConfusion h
      · rw [if_neg hp] at h
        exact Except.noConfusion h
  | fuel + 1, .ext ek c, pre, p, v, e, h => by
      rw [insertR] at h
      by_cases hc : (commonPrefix ek p).length = ek.length
      · rw [if_pos hc] at h
        rcases hrec : insertR db fuel c (pre ++ ek) (p.drop ek.length) v with e2 | c2
        · rw [hrec] at h
          injection h with h2
          rw [← h2]
          exact insertR_error_shape db fuel c (pre ++ ek) (p.drop ek.length) v e2 hrec
        · rw [hrec] at h
          exact Except.noConfusion h
      · rw [if_neg hc] at h
        exact Except.noConfusion h
  | fuel + 1, .branch cs val, pre, [], v, e, h => by
      rw [insertR] at h
      exact Except.noConfusion h
  | fuel + 1, .branch cs val, pre, i :: r, v, e, h => by
      rw [insertR] at h
      rcases hrec : insertR db fuel (cs.getD i .empty) (pre ++ [i]) r v with e2 | c2
      · rw [hrec] at h
        injection h with h2
        rw [← h2]
        exact insertR_error_shape db fuel (cs.getD i .empty) (pre ++ [i]) r v e2 hrec
      · rw [hrec] at h
        exact Except.noConfusion h
  | fuel + 1, .href hh, pre, p, v, e, h => by
      rw [insertR] at h
      rcases hdb : db hh with - | - | m
      · rw [hdb] at h
        injection h with h2
        exact Or.inr (Or.inl ⟨hh, pre, h2.symm, hdb⟩)
      · rw [hdb] at h
        injection h with h2
        exact Or.inr (Or.inr ⟨hh, h2.symm, hdb⟩)
      · rw [hdb] at h
        exact insertR_error_shape db fuel m pre p v e h

/-- Every error of resolving a staged node is a `MissingNode` naming a
hash genuinely absent from the database or a `DecodeError` naming a hash
whose blob is genuinely malformed. -/
theorem resolveR_error_shape (db : Bytes → Resolved) :
    ∀ (n : NodeR) (pre : Path) (e : TErr), resolveR db n pre = .error e →
    (∃ hh q, e = .missingNode hh q ∧ db hh = .absent) ∨
    (∃ hh, e = .decodeError hh ∧ db hh = .malformed)
  | .empty, pre, e, h => by
      rw [resolveR] at h
      exact Except.noConfusion h
  | .leaf k v, pre, e, h => by
      rw [resolveR] at h
      exact Except.noConfusion h
  | .ext k c, pre, e, h => by
      rw [resolveR] at h
      exact Except.noConfusion h
  | .branch cs val, pre, e, h => by
      rw [resolveR] at h
      exact Except.noConfusion h
  | .href hh, pre, e, h => by
      rw [resolveR] at h
      rcases hdb : db hh with - | - | m
      · rw [hdb] at h
        injection h with h2
        exact Or.inl ⟨hh, pre, h2.symm, hdb⟩
      · rw [hdb] at h
        injection h with h2
        exact Or.inr ⟨hh, h2.symm, hdb⟩
      · rw [hdb] at h
        exact Except.noConfusion h

/-- The only failure of staged branch normalization is resolving the lone
remaining child, so its errors are accounted for the same way. -/
theorem fixBranchR_error_shape (db : Bytes → Resolved) (pre : Path)
    (cs : List NodeR) (val : Option Bytes) (e : TErr)
    (h : fixBranchR db pre cs val = .error e) :
    e = .invariantViolation ∨
    (∃ hh q, e = .missingNode hh q ∧ db hh = .absent) ∨
    (∃ hh, e = .decodeError hh ∧ db hh = .malformed) := by
  rw [fixBranchR.eq_def] at h
  rcases hs : nonEmptySlotsR cs with - | ⟨⟨i, c⟩, rest⟩
  · rw [hs] at h
    rcases val with - | w
    · exact Except.noConfusion h
    · exact Except.noConfusion h
  · rw [hs] at h
    rcases rest with - | ⟨p2, rest2⟩
    · rcases val with - | w
      · have h3 : (match resolveR db c (pre ++ [i]) with
            | Except.ok c2 => Except.ok (mergeSlotR i c2)
            | Except.error e2 => Except.error e2) = Except.error e := h
        rcases hres : resolveR db c (pre ++ [i]) with e2 | c2
        · rw [hres] at h3
          injection h3 with h2
          rw [← h2]
          exact Or.inr (resolveR_error_shape db c (pre ++ [i]) e2 hres)
        · rw [hres] at h3
          exact Except.noConfusion h3
      · exact Except.noConfusion h
    · rcases val with - | w
      · exact Except.noConfusion h
      · exact Except.noConfusion h

/-- Every error surfaced by resolving deletion — including one hit while
collapsing a branch on the unwind — is an exhausted descent, a
`MissingNode` naming an absent hash, or a `DecodeError` naming a
malformed blob, and it reaches the surface unchanged. -/
theorem deleteR_error_shape (db : Bytes → Resolved) : ∀ (fuel : Nat) (n : NodeR)
    (pre p : Path) (e : TErr),
    deleteR db fuel n pre p = .error e →
    e = .invariantViolation ∨
    (∃ hh q, e = .missingNode hh q ∧ db hh = .absent) ∨
    (∃ hh, e = .decodeError hh ∧ db hh = .malformed)
  | 0, n, pre, p, e, h => by
      rw [deleteR] at h
      injection h with h2
      exact Or.inl h2.symm
  | fuel + 1, .empty, pre, p, e, h => by
      rw [deleteR] at h
      exact Except.noConfusion h
  | fuel + 1, .leaf k v, pre, p, e, h => by
      rw [deleteR] at h
      exact Except.noConfusion h
  | fuel + 1, .ext k c, pre, p, e, h => by
      rw [deleteR] at h
      by_cases hp : k.isPrefixOf p = true
      · rw [if_pos hp] at h
        rcases hrec : deleteR db fuel c (pre ++ k) (p.drop k.length) with e2 | c2
        · rw [hrec] at h
          injection h with h2
          rw [← h2]
          exact deleteR_error_shape db fuel c (pre ++ k) (p.drop k.length) e2 hrec
        · rw [hrec] at h
          exact Except.noConfusion h
      · rw [if_neg hp] at h
        exact Except.noConfusion h
  | fuel + 1, .branch cs val, pre, [], e, h => by
      rw [deleteR] at h
      exact fixBranchR_error_shape db pre cs none e h
  | fuel + 1, .branch cs val, pre, i :: r, e, h => by
      rw [deleteR] at h
      rcases hrec : deleteR db fuel (cs.getD i .empty) (pre ++ [i]) r with e2 | c2
      · rw [hrec] at h
        injection h with h2
        rw [← h2]
        exact deleteR_error_shape db fuel (cs.getD i .empty) (pre ++ [i]) r e2 hrec
      · rw [hrec] at h
        exact fixBranchR_error_shape db pre (cs.set i c2) val e h
  | fuel + 1, .href hh, pre, p, e, h => by
      rw [deleteR] at h
      rcases hdb : db hh with - | - | m
      · rw [hdb] at h
        injection h with h2
        exact Or.inr (Or.inl ⟨hh, pre, h2.symm, hdb⟩)
      · rw [hdb] at h
        injection h with h2
        exact Or.inr (Or.inr ⟨hh, h2.symm, hdb⟩)
      · rw [hdb] at h
        exact deleteR_error_shape db fuel m pre p e h

/-- Every error surfaced by resolving `Get` is accounted for the same
way and reaches the surface unchanged. -/
theorem getR_error_shape (db : Bytes → Resolved) : ∀ (fuel : Nat) (n : NodeR)
    (pre p : Path) (e : TErr),
    getR db fuel n pre p = .error e →
    e = .invariantViolation ∨
    (∃ hh q, e = .missingNode hh q ∧ db hh = .absent) ∨
    (∃ hh, e = .decodeError hh ∧ db hh = .malformed)
  | 0, n, pre, p, e, h => by
      rw [getR] at h
      injection h with h2
      exact Or.inl h2.symm
  | fuel + 1, .empty, pre, p, e, h => by
      rw [getR] at h
      exact Except.noConfusion h
  | fuel + 1, .leaf k v, pre, p, e, h => by
      rw [getR] at h
      exact Except.noConfusion h
  | fuel + 1, .ext k c, pre, p, e, h => by
      rw [getR] at h
      by_cases hp : k.isPrefixOf p = true
      · rw [if_pos hp] at h
        exact getR_error_shape db fuel c (pre ++ k) (p.drop k.length) e h
      · rw [if_neg hp] at h
        exact Except.noConfusion h
  | fuel + 1, .branch cs val, pre, [], e, h => by
      rw [getR] at h
      exact Except.noConfusion h
  | fuel + 1, .branch cs val, pre, i :: r, e, h => by
      rw [getR] at h
      exact getR_error_shape db fuel (cs.getD i .empty) (pre ++ [i]) r e h
  | fuel + 1, .href hh, pre, p, e, h => by
      rw [getR] at h
      rcases hdb : db hh with - | - | m
      · rw [hdb] at h
        injection h with h2
        exact Or.inr (Or.inl ⟨hh, pre, h2.symm, hdb⟩)
      · rw [hdb] at h
        injection h with h2
        exact Or.inr (Or.inr ⟨hh, h2.symm, hdb⟩)
      · rw [hdb] at h
        exact getR_error_shape db fuel m pre p e h

mutual
/-- Every error surfaced by the commit walk is accounted for the same
way and reaches the surface unchanged. -/
theorem commitR_error_shape (db : Bytes → Resolved) : ∀ (fuel : Nat) (n : NodeR)
    (pre : Path) (e : TErr),
    commitR db fuel n pre = .error e →
    e = .invariantViolation ∨
    (∃ hh q, e = .missingNode hh q ∧ db hh = .absent) ∨
    (∃ hh, e = .decodeError hh ∧ db hh = .malformed)
  | 0, n, pre, e, h => by
      rw [commitR] at h
      injection h with h2
      exact Or.inl h2.symm
  | fuel + 1, .empty, pre, e, h => by
      rw [commitR] at h
      exact Except.noConfusion h
  | fuel + 1, .leaf k v, pre, e, h => by
      rw [commitR] at h
      exact Except.noConfusion h
  | fuel + 1, .ext k c, pre, e, h => by
      rw [commitR] at h
      rcases hrec : commitR db fuel c (pre ++ k) with e2 | c2
      · rw [hrec] at h
        injection h with h2
        rw [← h2]
        exact commitR_error_shape db fuel c (pre ++ k) e2 hrec
      · rw [hrec] at h
        exact Except.noConfusion h
  | fuel + 1, .branch cs val, pre, e, h => by
      rw [commitR] at h
      rcases hrec : commitListR db fuel cs 0 pre with e2 | cs2
      · rw [hrec] at h
        injection h with h2
        rw [← h2]
        exact commitListR_error_shape db fuel cs 0 pre e2 hrec
      · rw [hrec] at h
        exact Except.noConfusion h
  | fuel + 1, .href hh, pre, e, h => by
      rw [commitR] at h
      rcases hdb : db hh with - | - | m
      · rw [hdb] at h
        injection h with h2
        exact Or.inr (Or.inl ⟨hh, pre, h2.symm, hdb⟩)
      · rw [hdb] at h
        injection h with h2
        exact Or.inr (Or.inr ⟨hh, h2.symm, hdb⟩)
      · rw [hdb] at h
        exact commitR_error_shape db fuel m pre e h
/-- Errors of the commit walk over child slots, accounted the same way. -/
theorem commitListR_error_shape (db : Bytes → Resolved) : ∀ (fuel : Nat)
    (cs : List NodeR) (i : Nat) (pre : Path) (e : TErr),
    commitListR db fuel cs i pre = .error e →
    e = .invariantViolation ∨
    (∃ hh q, e = .missingNode hh q ∧ db hh = .absent) ∨
    (∃ hh, e = .decodeError hh ∧ db hh = .malformed)
  | 0, cs, i, pre, e, h => by
      rw [commitListR] at h
      injection h with h2
      exact Or.inl h2.symm
  | fuel + 1, [], i, pre, e, h => by
      rw [commitListR] at h
      exact Except.noConfusion h
  | fuel + 1, c :: cs, i, pre, e, h => by
      rw [commitListR] at h
      rcases hrec : commitR db fuel c (pre ++ [i]) with e2 | c2
      · rw [hrec] at h
        injection h with h2
        rw [← h2]
        exact commitR_error_shape db fuel c (pre ++ [i]) e2 hrec
      · rw [hrec] at h
        rcases hrec2 : commitListR db fuel cs (i + 1) pre with e2 | cs2
        · rw [hrec2] at h
          injection h with h2
          rw [← h2]
          exact commitListR_error_shape db fuel cs (i + 1) pre e2 hrec2
        · rw [hrec2] at h
          exact Except.noConfusion h
end

/-- The three C9 consequences of an accounted error: it is never
`InvalidKey`, a `MissingNode` names an absent hash and a `DecodeError` a
malformed one. -/
theorem shape_conjuncts (db : Bytes → Resolved) (e : TErr)
    (hshape : e = .invariantViolation ∨
      (∃ hh q, e = .missingNode hh q ∧ db hh = .absent) ∨
      (∃ hh, e = .decodeError hh ∧ db hh = .malformed)) :
    e ≠ .invalidKey ∧
    (∀ hh q, e = .missingNode hh q → db hh = .absent) ∧
    (∀ hh, e = .decodeError hh → db hh = .malformed) := by
  refine ⟨?_, ?_, ?_⟩
  · intro he
    rcases hshape with h1 | ⟨hh, q, h1, -⟩ | ⟨hh, h1, -⟩ <;> rw [he] at h1 <;>
      exact TErr.noConfusion h1
  · intro hh q he
    rcases hshape with h1 | ⟨hh2, q2, h1, habs⟩ | ⟨hh2, h1, -⟩
    · rw [he] at h1
      exact TErr.noConfusion h1
    · rw [he] at h1
      injection h1 with hha hqa
      rw [hha]
      exact habs
    · rw [he] at h1
      exact TErr.noConfusion h1
  · intro hh he
    rcases hshape with h1 | ⟨hh2, q2, h1, -⟩ | ⟨hh2, h1, hmal⟩
    · rw [he] at h1
      exact TErr.noConfusion h1
    · rw [he] at h1
      exact TErr.noConfusion h1
    · rw [he] at h1
      injection h1 with hha
      rw [hha]
      exact hmal

/-- **C9**: whenever any operation of the trie surface — `Get`, `Update`
(including its empty-value deletion route), `Delete` or `Commit` — fails
with any of the error kinds, the trie handle is exactly its
pre-operation state; an `InvalidKey` can only come from an `Update` on
the empty key; and a surfaced `MissingNode` (or `DecodeError`) still
names a hash that is genuinely absent (malformed) in the database: the
error of the failing resolution propagated unchanged through all the
recursive calls, including the normalization on deletion's unwind. -/
theorem C9_error_propagation (db : Bytes → Resolved) (fuel : Nat) (tr : TrieR)
    (op : OpR) (e : TErr)
    (h : (applyOpR db fuel tr op).2 = some e) :
    (applyOpR db fuel tr op).1 = tr ∧
    (e = .invalidKey → ∃ v, op = .update [] v) ∧
    (∀ hh q, e = .missingNode hh q → db hh = .absent) ∧
    (∀ hh, e = .decodeError hh → db hh = .malformed) := by
  rcases op with key | ⟨key, v⟩ | key | -
  · rw [applyOpR] at h ⊢
    rcases hrec : getR db fuel tr.root [] key with e2 | val
    · rw [hrec] at h
      injection h with h2
      have hsh := shape_conjuncts db e
        (getR_error_shape db fuel tr.root [] key e (by rw [hrec, h2]))
      exact ⟨rfl, fun hik => absurd hik hsh.1, hsh.2.1, hsh.2.2⟩
    · rw [hrec] at h
      exact Option.noConfusion h
  · rw [applyOpR] at h ⊢
    by_cases hk : key.isEmpty = true
    · rw [if_pos hk] at h ⊢
      injection h with h2
      have hkey : key = [] := by
        rcases key with - | ⟨a, as⟩
        · rfl
        · exact Bool.noConfusion hk
      refine ⟨rfl, fun _ => ⟨v, by rw [hkey]⟩, ?_, ?_⟩
      · intro hh q he
        exact TErr.noConfusion (h2.trans he)
      · intro hh he
        exact TErr.noConfusion (h2.trans he)
    · rw [if_neg hk] at h ⊢
      by_cases hv : v.isEmpty = true
      · rw [if_pos hv] at h ⊢
        rcases hrec : deleteR db fuel tr.root [] key with e2 | n2
        · rw [hrec] at h
          injection h with h2
          have hsh := shape_conjuncts db e
            (deleteR_error_shape db fuel tr.root [] key e (by rw [hrec, h2]))
          exact ⟨rfl, fun hik => absurd hik hsh.1, hsh.2.1, hsh.2.2⟩
        · rw [hrec] at h
          exact Option.noConfusion h
      · rw [if_neg hv] at h ⊢
        rcases hrec : insertR db fuel tr.root [] key v with e2 | n2
        · rw [hrec] at h
          injection h with h2
          have hsh := shape_conjuncts db e
            (insertR_error_shape db fuel tr.root [] key v e (by rw [hrec, h2]))
          exact ⟨rfl, fun hik => absurd hik hsh.1, hsh.2.1, hsh.2.2⟩
        · rw [hrec] at h
          exact Option.noConfusion h
  · rw [applyOpR] at h ⊢
    rcases hrec : deleteR db fuel tr.root [] key with e2 | n2
    · rw [hrec] at h
      injection h with h2
      have hsh := shape_conjuncts db e
        (deleteR_error_shape db fuel tr.root [] key e (by rw [hrec, h2]))
      exact ⟨rfl, fun hik => absurd hik hsh.1, hsh.2.1, hsh.2.2⟩
    · rw [hrec] at h
      exact Option.noConfusion h
  · rw [applyOpR] at h ⊢
    rcases hrec : commitR db fuel tr.root [] with e2 | t2
    · rw [hrec] at h
      injection h with h2
      have hsh := shape_conjuncts db e
        (commitR_error_shape db fuel tr.root [] e (by rw [hrec, h2]))
      exact ⟨rfl, fun hik => absurd hik hsh.1, hsh.2.1, hsh.2.2⟩
    · rw [hrec] at h
      exact Option.noConfusion h

/-- A database with nothing in it: every hash is absent. -/
def db9 : Bytes → Resolved := fun _ => Resolved.absent

/-- A trie whose root branch holds a leaf next to an unresolvable
reference, so deleting the leaf collapses the branch onto the dangling
reference. -/
def tr9 : TrieR :=
  ⟨.branch ((emptyChildrenR.set 1 (.leaf [2] [5])).set 3 (.href [7, 7])) none⟩

/-- Witness for C9: deleting under the dangling sibling hits the
`MissingNode` of the failing hash during normalization on the unwind,
surfaced unchanged with the handle as it was; `Update` with an empty
value routes down the same deletion path. -/
theorem C9_witness :
    (applyOpR db9 5 tr9 (OpR.delete [1, 2])).1 = tr9 ∧
    (∀ hh q, TErr.missingNode [7, 7] [3] = .missingNode hh q → db9 hh = .absent) ∧
    (applyOpR db9 5 tr9 (OpR.update [1, 2] [])).1 = tr9 := by
  have h1 := C9_error_propagation db9 5 tr9 (OpR.delete [1, 2])
    (.missingNode [7, 7] [3]) (by rfl)
  have h2 := C9_error_propagation db9 5 tr9 (OpR.update [1, 2] [])
    (.missingNode [7, 7] [3]) (by rfl)
  exact ⟨h1.1, h1.2.2.1, h2.1⟩

end MPT
